import Mathlib

/-!
# Verification of the eager A* search core (`src/mimir/search/eager_astar_search.cpp`)

This file gives a shallow embedding of `EagerAStarSearch::plan` and its
collaborators, and proves/refutes the frozen claims about it.

Modelling choices (all traced to the source):

* `formalism::State` values are opaque, hashable and equality-comparable; we
  model them as natural numbers.  The dummy root frame stores a null state
  (`nullptr` in the source), modelled as `none : Option Nat`.
* `formalism::Action` is opaque with a numeric `cost`; applying an action to a
  state yields a new state.  We model an action as a record carrying an
  identity tag, its cost, and the state produced by `formalism::apply`
  (actions enumerated by the successor generator at a state `s` are exactly
  the applicable ones, and `apply` is pure, per the collaborator contracts).
* `double` arithmetic on `g`/`h`/`f` values is modelled by exact rationals.
* `int32_t` counters are modelled by `Int`; the `double → int32_t` conversion
  in `last_f_value = f_value` truncates toward zero, modelled by `truncQ`.
* `tsl::robin_map<State, int32_t>` with `operator[]` default-inserting `0` is
  modelled as a total function `Nat → Nat` with default value `0`.
* The open list collaborator (an abstract duplicate-tolerant min-priority
  queue) is instantiated with a sorted association list: `olInsert` keeps the
  list sorted by priority, FIFO among ties, and `pop` takes the head.
* `SearchBase::should_abort` is a volatile flag settable from outside at any
  time; we model its observed values as a schedule indexed by the number of
  accepted pops.  `notify_handlers()`/statistics snapshots are recorded in a
  history list `events` (most recent first); `statistics_` holds the head.
* The C++ main loop and the plan-reconstruction loop are unbounded `while`
  loops; they are modelled with explicit fuel (`loop` returns `none` on fuel
  exhaustion, and reconstruction receives fuel `frame_list.size()`, proved
  sufficient under the search invariants).
-/

/-- A ground action: identity tag, cost (`action->cost`), and the successor
state `formalism::apply(action, ·)` produces. -/
structure GAction where
  aid : Nat
  cost : ℚ
  target : Nat
deriving DecidableEq, Repr

/-- The collaborators of `EagerAStarSearch`: initial state and goal test from
the problem description, the successor generator, the heuristic with its
dead-end test `HeuristicBase::is_dead_end`, and the abort flag's observed
schedule (its value at the k-th accepted pop). -/
structure SearchInput where
  init : Nat
  goal : Nat → Bool
  succs : Nat → List GAction
  h : Nat → ℚ
  dead : ℚ → Bool
  abortSched : Nat → Bool

/-- The `Frame` struct local to `EagerAStarSearch::plan`. -/
structure Frame where
  state : Option Nat
  predAction : Option GAction
  predIndex : Int
  depth : Int
  g_value : ℚ
  h_value : ℚ
  closed : Bool
deriving DecidableEq, Repr

/-- The dummy root frame `Frame { nullptr, nullptr, -1, 0, 0.0, 0.0, true }`. -/
def dummyFrame : Frame := ⟨none, none, -1, 0, 0, 0, true⟩

instance : Inhabited Frame := ⟨dummyFrame⟩

/-- One snapshot of the `statistics_` map, written at a layer boundary. -/
structure Snapshot where
  expanded : Int
  generated : Int
  evaluated : Int
  max_depth : Int
  max_g_value : ℚ
  max_f_value : ℚ
deriving DecidableEq, Repr

instance : Inhabited Snapshot := ⟨⟨0, 0, 0, 0, 0, 0⟩⟩

/-- `SearchResult`. -/
inductive SearchResult where
  | SOLVED
  | UNSOLVABLE
  | ABORTED
deriving DecidableEq, Repr

/-- The mutable state of one `plan()` invocation: `state_indices`,
`frame_list`, the open list contents, the four integer counters, plus the
observability bookkeeping (`acceptCount` counts accepted pops for the abort
schedule, `events` records the statistics snapshots, most recent first). -/
structure EState where
  stateIndices : Nat → Nat
  frames : List Frame
  ol : List (Nat × ℚ)
  expanded : Int
  generated : Int
  evaluated : Int
  lastF : Int
  acceptCount : Nat
  events : List Snapshot

/-- Pointwise update of the state-index map (`state_indices[s] = v`). -/
def updMap (m : Nat → Nat) (k v : Nat) : Nat → Nat :=
  fun x => if x = k then v else m x

/-- Ordered insertion into the open list: after all entries of priority ≤ p
(a stable min-priority queue, one conforming implementation of the abstract
open-list contract). -/
def olInsert (i : Nat) (p : ℚ) : List (Nat × ℚ) → List (Nat × ℚ)
  | [] => [(i, p)]
  | e :: es => if e.2 ≤ p then e :: olInsert i p es else (i, p) :: e :: es

/-- Truncation toward zero of a rational, as in the C++ conversion
`int32_t last_f_value = (double) f_value`. -/
def truncQ (q : ℚ) : Int := Int.tdiv q.num (q.den : Int)

/-- The plan-reconstruction walk (`while (current_frame.predecessor_action)`):
collect predecessor actions from the goal frame back to the initial frame.
Fuel-bounded; the search invariants show fuel `frame_list.size()` suffices. -/
def walk (frames : List Frame) : Nat → Frame → List GAction
  | 0, _ => []
  | fuel + 1, fr =>
    match fr.predAction with
    | none => []
    | some a => a :: walk frames fuel (frames.getD fr.predIndex.toNat default)

/-- The frame allocated for a newly seen successor state (line 131). -/
def newFrameFor (inp : SearchInput) (index : Nat) (a : GAction) (parent : Frame) : Frame :=
  ⟨some a.target, some a, (index : Int), parent.depth + 1, parent.g_value + a.cost,
    inp.h a.target, inp.dead (inp.h a.target)⟩

/-- The in-place update of an existing frame on a strict g-improvement
(lines 148–151): new predecessor link, depth and g-value. -/
def improveFrame (index : Nat) (a : GAction) (parent sfr : Frame) : Frame :=
  { sfr with
    predAction := some a
    predIndex := (index : Int)
    depth := parent.depth + 1
    g_value := parent.g_value + a.cost }

/-- The body of the successor loop (`for (const auto& action : applicable_actions)`,
lines 115–162): apply the action, look up/reserve the successor in
`state_indices`, and either allocate a fresh frame or update the existing one
on strict g-improvement.  `index` is the handle of the frame being expanded;
the parent frame is re-read from `frames` each time, matching the C++
reference `auto& frame = frame_list[index]`. -/
def applyAction (inp : SearchInput) (index : Nat) (st : EState) (a : GAction) : EState :=
  let fr := st.frames.getD index default
  let succ_state := a.target
  let succ_index := st.stateIndices succ_state
  if succ_index = 0 then
    -- unseen state: allocate a new frame
    let new_index := st.frames.length
    let succ_g := fr.g_value + a.cost
    let succ_h := inp.h succ_state
    let succ_f := succ_g + succ_h
    let sd := inp.dead succ_h
    { st with
      stateIndices := updMap st.stateIndices succ_state new_index
      evaluated := st.evaluated + 1
      frames := st.frames ++ [newFrameFor inp index a fr]
      ol := if sd then st.ol else olInsert new_index succ_f st.ol
      generated := if sd then st.generated else st.generated + 1 }
  else
    -- previously seen state
    let sfr := st.frames.getD succ_index default
    let succ_g := fr.g_value + a.cost
    if succ_g < sfr.g_value then
      let st' := { st with frames := st.frames.set succ_index (improveFrame index a fr sfr) }
      if inp.dead sfr.h_value then st'
      else { st' with
        ol := olInsert succ_index (succ_g + sfr.h_value) st'.ol
        generated := st'.generated + 1 }
    else st

/-- Result of one iteration of the main `while (open_list_->size() > 0)` loop. -/
inductive Step where
  | done (r : SearchResult) (st : EState) (out : List GAction)
  | cont (st : EState)

/-- Accepting a popped frame (lines 75–88): mark it closed, compute its
f-value, and if that strictly exceeds `last_f_value`, record a statistics
snapshot (which also notifies the progress handlers) and store the truncated
f-value back into the `int32_t` variable `last_f_value`. -/
def acceptFrame (index : Nat) (st : EState) : EState :=
  let fr := st.frames.getD index default
  let fr2 := { fr with closed := true }
  let st2 := { st with
    frames := st.frames.set index fr2
    acceptCount := st.acceptCount + 1 }
  let f := fr2.g_value + fr2.h_value
  if (st2.lastF : ℚ) < f then
    { st2 with
      lastF := truncQ f
      events := ⟨st2.expanded, st2.generated, st2.evaluated, fr2.depth, fr2.g_value, f⟩ :: st2.events }
  else st2

/-- Expanding an accepted non-goal frame (lines 111–163): increment
`expanded`, then process every applicable action of the frame's state. -/
def expandFrame (inp : SearchInput) (index : Nat) (st : EState) : EState :=
  let fr := st.frames.getD index default
  let st4 := { st with expanded := st.expanded + 1 }
  (inp.succs (fr.state.getD 0)).foldl (applyAction inp index) st4

/-- One iteration of the main loop (lines 65–164): pop the minimum-priority
handle; discard if closed; otherwise close, possibly snapshot statistics and
notify handlers, check abort, check the goal (reconstructing the plan on
success), and expand. -/
def iterate (inp : SearchInput) (st : EState) (out : List GAction) : Step :=
  match st.ol with
  | [] => .done .UNSOLVABLE st out
  | (index, _) :: rest =>
    let st1 := { st with ol := rest }
    let fr := st1.frames.getD index default
    if fr.closed then .cont st1
    else
      let st3 := acceptFrame index st1
      if inp.abortSched st1.acceptCount then .done .ABORTED st3 out
      else if (fr.state.map inp.goal).getD false then
        .done .SOLVED st3 ((walk st3.frames st3.frames.length { fr with closed := true }).reverse)
      else .cont (expandFrame inp index st3)

/-- The main loop with explicit fuel; `none` means the fuel ran out before the
C++ loop would have returned. -/
def loop (inp : SearchInput) : Nat → EState → List GAction →
    Option SearchResult × EState × List GAction
  | 0, st, out => (none, st, out)
  | fuel + 1, st, out =>
    match iterate inp st out with
    | .done r st' out' => (some r, st', out')
    | .cont st' => loop inp fuel st' out

/-- The initialization block (lines 51–63): dummy root frame, then the initial
state's frame; the initial handle is inserted with priority `0.0` and one
evaluation is counted. -/
def initE (inp : SearchInput) : EState :=
  let frames0 : List Frame := [dummyFrame]
  let initial_index := frames0.length
  let h0 := inp.h inp.init
  { stateIndices := updMap (fun _ => 0) inp.init initial_index
    frames := frames0 ++ [⟨some inp.init, none, -1, 0, 0, h0, false⟩]
    ol := olInsert initial_index 0 []
    expanded := 0
    generated := 0
    evaluated := 1
    lastF := -1
    acceptCount := 0
    events := [] }

/-- `EagerAStarSearch::plan`: fails fatally if the open list is not empty on
entry (lines 26–29), otherwise initializes and runs the loop.  `ol₀` is the
content of the open-list collaborator at entry and `out` the caller's
`out_plan`. -/
def plan (inp : SearchInput) (ol₀ : List (Nat × ℚ)) (out : List GAction) (fuel : Nat) :
    Except String (Option SearchResult × EState × List GAction) :=
  if ol₀.length > 0 then .error "open list is not initially empty"
  else .ok (loop inp fuel (initE inp) out)

/-- The state component of a step result. -/
def Step.state : Step → EState
  | .done _ st _ => st
  | .cont st => st

/-- Paths in the state-space graph: `IsPath inp s π t` says the action list
`π` leads from `s` to `t`, each action drawn from the applicable actions of
the state it is applied in. -/
inductive IsPath (inp : SearchInput) : Nat → List GAction → Nat → Prop
  | nil (s : Nat) : IsPath inp s [] s
  | cons {s t : Nat} {a : GAction} {π : List GAction} :
      a ∈ inp.succs s → IsPath inp a.target π t → IsPath inp s (a :: π) t

/-- Total cost of an action sequence. -/
def pathCost (π : List GAction) : ℚ := (π.map GAction.cost).sum

/-- A path all of whose visited states (including both endpoints) are not
flagged as dead ends by the heuristic. -/
inductive NDPath (inp : SearchInput) : Nat → List GAction → Nat → Prop
  | nil (s : Nat) : inp.dead (inp.h s) = false → NDPath inp s [] s
  | cons {s t : Nat} {a : GAction} {π : List GAction} :
      inp.dead (inp.h s) = false → a ∈ inp.succs s →
      NDPath inp a.target π t → NDPath inp s (a :: π) t

/-- Admissibility: the heuristic never overestimates the true remaining cost.
If a state has a path to a goal, its heuristic value is not the dead-end
sentinel and is at most the path's cost. -/
def Admissible (inp : SearchInput) : Prop :=
  ∀ s π t, IsPath inp s π t → inp.goal t = true →
    inp.dead (inp.h s) = false ∧ inp.h s ≤ pathCost π

/-- Consistency: along every edge between two non-dead states, the heuristic
drops by at most the edge's cost. -/
def Consistent (inp : SearchInput) : Prop :=
  ∀ s a, a ∈ inp.succs s → inp.dead (inp.h s) = false →
    inp.dead (inp.h a.target) = false → inp.h s ≤ a.cost + inp.h a.target

/-! ## Concrete scenarios used as counterexamples and witnesses -/

/-- The plan-reconstruction scenario of the spec: states `A = 0`, `B = 1`,
`C = 2`; `A →(cost 1) B →(cost 1) C`, `C` is the goal; `h(A) = 2`,
`h(B) = 1`, `h(C) = 0`; no dead ends, no abort. -/
def chainInput : SearchInput :=
  { init := 0
    goal := fun s => s == 2
    succs := fun s => if s = 0 then [⟨0, 1, 1⟩] else if s = 1 then [⟨1, 1, 2⟩] else []
    h := fun s => if s = 0 then 2 else if s = 1 then 1 else 0
    dead := fun _ => false
    abortSched := fun _ => false }

/-- Two states `0 →(cost 1) 1` with fractional heuristic values
`h(0) = 3/2`, `h(1) = 3/10`; no goal, no dead ends, no abort.  The second
accepted pop has `f = 13/10 < 3/2`, exposing the `int32_t` truncation in the
layer-boundary test. -/
def layerInput : SearchInput :=
  { init := 0
    goal := fun _ => false
    succs := fun s => if s = 0 then [⟨0, 1, 1⟩] else []
    h := fun s => if s = 0 then 3/2 else 3/10
    dead := fun _ => false
    abortSched := fun _ => false }

/-- A single state whose heuristic value `-1` is the dead-end sentinel
(`is_dead_end = (· < 0)`); no goal, no abort.  The initial state is inserted
into the open list and expanded despite being a dead end. -/
def deadInitInput : SearchInput :=
  { init := 0
    goal := fun _ => false
    succs := fun _ => []
    h := fun _ => -1
    dead := fun q => decide (q < 0)
    abortSched := fun _ => false }

/-- States `0 →(cost 1) 1` where the successor `1` is a dead end
(`h(1) = -1`, `is_dead_end = (· < 0)`); no goal, no abort.  The successor's
frame is allocated with `closed = true` without ever being popped. -/
def deadSuccInput : SearchInput :=
  { init := 0
    goal := fun _ => false
    succs := fun s => if s = 0 then [⟨0, 1, 1⟩] else []
    h := fun s => if s = 0 then 0 else -1
    dead := fun q => decide (q < 0)
    abortSched := fun _ => false }

/-! ## C2: the initial open-list insertion -/

/-- C2, counterexample.  The claim says the initial state's handle is
inserted with priority `0 + h0`.  In the chain scenario `h0 = 2`, but line 61
inserts with priority `0.0`: the single open-list entry after initialization
is `(1, 0)`, and `0 ≠ 0 + h0`. -/
theorem C2_cex :
    (initE chainInput).ol = [(1, 0)] ∧
    chainInput.h chainInput.init = 2 ∧
    ¬ ((0 : ℚ) = 0 + chainInput.h chainInput.init) := by
  refine ⟨by with_unfolding_all rfl, by with_unfolding_all rfl, by with_unfolding_all decide⟩

/-- C2, amended.  During initialization the initial state's frame handle `1`
is inserted into the open list with priority `0.0` (not `0 + h0`), and
exactly one evaluation is counted. -/
theorem C2_init_insert (inp : SearchInput) :
    (initE inp).ol = [(1, 0)] ∧ (initE inp).evaluated = 1 :=
  ⟨rfl, rfl⟩

/-! ## C3: handle layout -/

/-- C3, counterexample.  The claim says the dummy root frame receives handle
1 and the genuine initial-state frame receives handle 2.  In fact after
initialization there are exactly two frames: the dummy root at handle 0 and
the initial state's frame at handle 1 (`state_indices[initial] = 1`). -/
theorem C3_cex :
    (initE chainInput).frames.length = 2 ∧
    (initE chainInput).frames.getD 0 default = dummyFrame ∧
    ((initE chainInput).frames.getD 1 default).state = some chainInput.init ∧
    (initE chainInput).stateIndices chainInput.init = 1 ∧
    ¬ (initE chainInput).stateIndices chainInput.init = 2 := by
  refine ⟨by with_unfolding_all rfl, by with_unfolding_all rfl,
    by with_unfolding_all rfl, by with_unfolding_all rfl, by with_unfolding_all decide⟩

/-- C3, amended.  Handle 0 is both the state-index default value (meaning
"unseen") and the handle of the dummy root frame, which is the first
allocation; the genuine initial-state frame receives handle 1; and every
subsequent allocation receives handle `frame_list.size()` at allocation time,
so handles increment monotonically (the frame list never shrinks and a new
frame is appended exactly when the successor state was unseen). -/
theorem C3_handles (inp : SearchInput) :
    ((initE inp).frames.getD 0 default = dummyFrame ∧
     (initE inp).frames.length = 2 ∧
     ((initE inp).frames.getD 1 default).state = some inp.init ∧
     (initE inp).stateIndices inp.init = 1 ∧
     (∀ s, s ≠ inp.init → (initE inp).stateIndices s = 0)) ∧
    (∀ index st a,
      st.frames.length ≤ (applyAction inp index st a).frames.length ∧
      (st.stateIndices a.target = 0 →
        (applyAction inp index st a).frames.length = st.frames.length + 1 ∧
        (applyAction inp index st a).stateIndices a.target = st.frames.length)) := by
  constructor
  · refine ⟨rfl, rfl, rfl, ?_, ?_⟩
    · simp [initE, updMap]
    · intro s hs
      simp [initE, updMap, hs]
  · intro index st a
    constructor
    · unfold applyAction
      dsimp only
      split
      · simp
      · split
        · split <;> simp
        · simp
    · intro h0
      unfold applyAction
      dsimp only
      rw [if_pos h0]
      simp [updMap]

/-- C3, witness: expanding the initial frame of the chain scenario allocates
state `B = 1` at handle `frame_list.size() = 2`, growing the list by one. -/
theorem C3_handles_witness :
    (applyAction chainInput 1 (initE chainInput) ⟨0, 1, 1⟩).frames.length =
      (initE chainInput).frames.length + 1 ∧
    (applyAction chainInput 1 (initE chainInput) ⟨0, 1, 1⟩).stateIndices 1 =
      (initE chainInput).frames.length :=
  ((C3_handles chainInput).2 1 (initE chainInput) ⟨0, 1, 1⟩).2 (by with_unfolding_all decide)

/-! ## C9: non-empty open list at entry -/

/-- C9.  If the open list is non-empty when `plan()` is invoked, `plan`
fails immediately with the fatal error, before any frame is allocated or
expanded (the error return carries no search state at all). -/
theorem C9_precondition (inp : SearchInput) (ol₀ : List (Nat × ℚ))
    (out : List GAction) (fuel : Nat) (h : ol₀ ≠ []) :
    plan inp ol₀ out fuel = .error "open list is not initially empty" := by
  unfold plan
  rw [if_pos]
  simpa [List.length_pos] using h

/-- C9, witness: invoking `plan` on the chain scenario with a stale open-list
entry fails with the fatal error. -/
theorem C9_precondition_witness :
    plan chainInput [(3, 5)] [] 10 = .error "open list is not initially empty" :=
  C9_precondition chainInput [(3, 5)] [] 10 (by simp)

/-! ## List access helper lemmas -/

/-- Reading back the frame just written by `List.set`. -/
theorem getD_set_self (l : List Frame) (j : Nat) (fr : Frame) (h : j < l.length) :
    (l.set j fr).getD j default = fr := by
  simp [List.getD_eq_getElem?_getD, List.getElem?_set_self h]

/-- `List.set` at one position does not change reads at another. -/
theorem getD_set_ne (l : List Frame) (i j : Nat) (fr : Frame) (h : j ≠ i) :
    (l.set j fr).getD i default = l.getD i default := by
  simp [List.getD_eq_getElem?_getD, List.getElem?_set_ne h]

/-- Appending frames does not change reads below the old length. -/
theorem getD_append_lt (l l' : List Frame) (i : Nat) (h : i < l.length) :
    (l ++ l').getD i default = l.getD i default := by
  simp [List.getD_eq_getElem?_getD, List.getElem?_append_left h]

/-- Reading the single appended frame at the old length. -/
theorem getD_append_len (l : List Frame) (fr : Frame) :
    (l ++ [fr]).getD l.length default = fr := by
  simp [List.getD_eq_getElem?_getD, List.getElem?_concat_length]

/-! ## Characterization lemmas for the loop-body functions -/

/-- `applyAction` on an unseen successor state (lines 120–137). -/
theorem applyAction_new (inp : SearchInput) (index : Nat) (st : EState) (a : GAction)
    (h0 : st.stateIndices a.target = 0) :
    applyAction inp index st a =
      { st with
        stateIndices := updMap st.stateIndices a.target st.frames.length
        evaluated := st.evaluated + 1
        frames := st.frames ++ [newFrameFor inp index a (st.frames.getD index default)]
        ol := if inp.dead (inp.h a.target) then st.ol
          else olInsert st.frames.length
            ((st.frames.getD index default).g_value + a.cost + inp.h a.target) st.ol
        generated := if inp.dead (inp.h a.target) then st.generated else st.generated + 1 } := by
  unfold applyAction
  simp only [h0, if_pos]

/-- `applyAction` on a previously seen successor state reached by a strictly
cheaper path (lines 139–161). -/
theorem applyAction_improve (inp : SearchInput) (index : Nat) (st : EState) (a : GAction)
    (h0 : st.stateIndices a.target ≠ 0)
    (himp : (st.frames.getD index default).g_value + a.cost <
      (st.frames.getD (st.stateIndices a.target) default).g_value) :
    applyAction inp index st a =
      (let sfr := st.frames.getD (st.stateIndices a.target) default
       let succ_g := (st.frames.getD index default).g_value + a.cost
       let st' := { st with frames := st.frames.set (st.stateIndices a.target) (improveFrame index a (st.frames.getD index default) sfr) }
       if inp.dead sfr.h_value then st'
       else { st' with
         ol := olInsert (st.stateIndices a.target) (succ_g + sfr.h_value) st'.ol
         generated := st'.generated + 1 }) := by
  unfold applyAction
  simp only [if_neg h0, if_pos himp]

/-- `applyAction` on a previously seen successor state with no strict
improvement: the state is untouched. -/
theorem applyAction_stay (inp : SearchInput) (index : Nat) (st : EState) (a : GAction)
    (h0 : st.stateIndices a.target ≠ 0)
    (himp : ¬ ((st.frames.getD index default).g_value + a.cost <
      (st.frames.getD (st.stateIndices a.target) default).g_value)) :
    applyAction inp index st a = st := by
  unfold applyAction
  simp only [if_neg h0, if_neg himp]

/-- `applyAction` never touches the statistics fields, the abort clock, the
snapshot history, or the `expanded` counter. -/
theorem applyAction_misc (inp : SearchInput) (index : Nat) (st : EState) (a : GAction) :
    (applyAction inp index st a).events = st.events ∧
    (applyAction inp index st a).lastF = st.lastF ∧
    (applyAction inp index st a).acceptCount = st.acceptCount ∧
    (applyAction inp index st a).expanded = st.expanded := by
  unfold applyAction
  dsimp only
  split
  · exact ⟨rfl, rfl, rfl, rfl⟩
  · split
    · split <;> exact ⟨rfl, rfl, rfl, rfl⟩
    · exact ⟨rfl, rfl, rfl, rfl⟩

/-- The frame list never shrinks under `applyAction`. -/
theorem applyAction_length_le (inp : SearchInput) (index : Nat) (st : EState) (a : GAction) :
    st.frames.length ≤ (applyAction inp index st a).frames.length := by
  unfold applyAction
  dsimp only
  split
  · simp
  · split
    · split <;> simp
    · simp

/-- `applyAction` preserves the `closed`, `state` and `h_value` fields of
every pre-existing frame. -/
theorem applyAction_frame_fields (inp : SearchInput) (index : Nat) (st : EState)
    (a : GAction) (i : Nat) (hi : i < st.frames.length) :
    ((applyAction inp index st a).frames.getD i default).closed =
      (st.frames.getD i default).closed ∧
    ((applyAction inp index st a).frames.getD i default).state =
      (st.frames.getD i default).state ∧
    ((applyAction inp index st a).frames.getD i default).h_value =
      (st.frames.getD i default).h_value := by
  unfold applyAction
  dsimp only
  split
  · rw [getD_append_lt _ _ _ hi]
    exact ⟨rfl, rfl, rfl⟩
  · have hset : ∀ (fr' : Frame) (j : Nat),
        fr'.closed = ((st.frames.getD j default)).closed →
        fr'.state = ((st.frames.getD j default)).state →
        fr'.h_value = ((st.frames.getD j default)).h_value →
        ((st.frames.set j fr').getD i default).closed = (st.frames.getD i default).closed ∧
        ((st.frames.set j fr').getD i default).state = (st.frames.getD i default).state ∧
        ((st.frames.set j fr').getD i default).h_value = (st.frames.getD i default).h_value := by
      intro fr' j hc hs hh
      by_cases hij : j = i
      · subst hij
        by_cases hlt : j < st.frames.length
        · rw [getD_set_self _ _ _ hlt]
          exact ⟨hc, hs, hh⟩
        · rw [List.set_eq_of_length_le (by omega)]
          exact ⟨rfl, rfl, rfl⟩
      · rw [getD_set_ne _ _ _ _ hij]
        exact ⟨rfl, rfl, rfl⟩
    split
    · split
      · exact hset _ _ rfl rfl rfl
      · exact hset _ _ rfl rfl rfl
    · exact ⟨rfl, rfl, rfl⟩

/-- `acceptFrame` only sets the popped frame's `closed` flag in the frame
list. -/
theorem acceptFrame_frames (index : Nat) (st : EState) :
    (acceptFrame index st).frames = st.frames.set index { st.frames.getD index default with closed := true } := by
  unfold acceptFrame
  dsimp only
  split <;> rfl

/-- `acceptFrame` leaves the open list, the three counters and the state
index untouched, and advances the accepted-pop clock by one. -/
theorem acceptFrame_basic (index : Nat) (st : EState) :
    (acceptFrame index st).ol = st.ol ∧
    (acceptFrame index st).expanded = st.expanded ∧
    (acceptFrame index st).generated = st.generated ∧
    (acceptFrame index st).evaluated = st.evaluated ∧
    (acceptFrame index st).stateIndices = st.stateIndices ∧
    (acceptFrame index st).acceptCount = st.acceptCount + 1 := by
  unfold acceptFrame
  dsimp only
  split <;> exact ⟨rfl, rfl, rfl, rfl, rfl, rfl⟩

/-- The snapshot behaviour of `acceptFrame`: a snapshot is pushed (and the
handlers notified) precisely when the accepted frame's f-value strictly
exceeds `last_f_value`, in which case `last_f_value` becomes the f-value
truncated to `int32_t`. -/
theorem acceptFrame_events (index : Nat) (st : EState) :
    ((st.lastF : ℚ) < (st.frames.getD index default).g_value + (st.frames.getD index default).h_value →
      (acceptFrame index st).events =
        ⟨st.expanded, st.generated, st.evaluated, (st.frames.getD index default).depth,
          (st.frames.getD index default).g_value,
          (st.frames.getD index default).g_value + (st.frames.getD index default).h_value⟩ :: st.events ∧
      (acceptFrame index st).lastF =
        truncQ ((st.frames.getD index default).g_value + (st.frames.getD index default).h_value)) ∧
    (¬ ((st.lastF : ℚ) < (st.frames.getD index default).g_value + (st.frames.getD index default).h_value) →
      (acceptFrame index st).events = st.events ∧ (acceptFrame index st).lastF = st.lastF) := by
  unfold acceptFrame
  dsimp only
  constructor
  · intro hlt
    rw [if_pos hlt]
    exact ⟨rfl, rfl⟩
  · intro hge
    rw [if_neg hge]
    exact ⟨rfl, rfl⟩

/-- Folding the successor loop over any action list preserves the snapshot
history, `last_f_value`, the accepted-pop clock and the `expanded` counter. -/
theorem foldl_misc (inp : SearchInput) (index : Nat) (l : List GAction) (st : EState) :
    (l.foldl (applyAction inp index) st).events = st.events ∧
    (l.foldl (applyAction inp index) st).lastF = st.lastF ∧
    (l.foldl (applyAction inp index) st).acceptCount = st.acceptCount ∧
    (l.foldl (applyAction inp index) st).expanded = st.expanded := by
  induction l generalizing st with
  | nil => exact ⟨rfl, rfl, rfl, rfl⟩
  | cons a l ih =>
    have h1 := applyAction_misc inp index st a
    have h2 := ih (applyAction inp index st a)
    simp only [List.foldl_cons]
    exact ⟨h2.1.trans h1.1, h2.2.1.trans h1.2.1, h2.2.2.1.trans h1.2.2.1, h2.2.2.2.trans h1.2.2.2⟩

/-- Folding the successor loop never shrinks the frame list. -/
theorem foldl_length_le (inp : SearchInput) (index : Nat) (l : List GAction) (st : EState) :
    st.frames.length ≤ (l.foldl (applyAction inp index) st).frames.length := by
  induction l generalizing st with
  | nil => exact le_refl _
  | cons a l ih =>
    simp only [List.foldl_cons]
    exact (applyAction_length_le inp index st a).trans (ih _)

/-- Folding the successor loop preserves the `closed`, `state` and `h_value`
fields of every pre-existing frame. -/
theorem foldl_frame_fields (inp : SearchInput) (index : Nat) (l : List GAction) (st : EState)
    (i : Nat) (hi : i < st.frames.length) :
    ((l.foldl (applyAction inp index) st).frames.getD i default).closed =
      (st.frames.getD i default).closed ∧
    ((l.foldl (applyAction inp index) st).frames.getD i default).state =
      (st.frames.getD i default).state ∧
    ((l.foldl (applyAction inp index) st).frames.getD i default).h_value =
      (st.frames.getD i default).h_value := by
  induction l generalizing st with
  | nil => exact ⟨rfl, rfl, rfl⟩
  | cons a l ih =>
    have h1 := applyAction_frame_fields inp index st a i hi
    have h2 := ih (applyAction inp index st a) (lt_of_lt_of_le hi (applyAction_length_le inp index st a))
    simp only [List.foldl_cons]
    exact ⟨h2.1.trans h1.1, h2.2.1.trans h1.2.1, h2.2.2.trans h1.2.2⟩

/-- `expandFrame` increments `expanded` by one, touches neither snapshots nor
`last_f_value` nor the accepted-pop clock, never shrinks the frame list, and
preserves the `closed`/`state`/`h_value` fields of pre-existing frames. -/
theorem expandFrame_fields (inp : SearchInput) (index : Nat) (st : EState) :
    (expandFrame inp index st).expanded = st.expanded + 1 ∧
    (expandFrame inp index st).events = st.events ∧
    (expandFrame inp index st).lastF = st.lastF ∧
    (expandFrame inp index st).acceptCount = st.acceptCount ∧
    st.frames.length ≤ (expandFrame inp index st).frames.length ∧
    (∀ i, i < st.frames.length →
      ((expandFrame inp index st).frames.getD i default).closed = (st.frames.getD i default).closed ∧
      ((expandFrame inp index st).frames.getD i default).state = (st.frames.getD i default).state ∧
      ((expandFrame inp index st).frames.getD i default).h_value = (st.frames.getD i default).h_value) := by
  unfold expandFrame
  dsimp only
  set st4 : EState := { st with expanded := st.expanded + 1 } with hst4
  set acts := inp.succs ((st.frames.getD index default).state.getD 0) with hacts
  have hmisc := foldl_misc inp index acts st4
  refine ⟨hmisc.2.2.2, hmisc.1, hmisc.2.1, hmisc.2.2.1, foldl_length_le inp index acts st4, ?_⟩
  intro i hi
  exact foldl_frame_fields inp index acts st4 i hi

/-- The empty-open-list exit of the main loop (line 166). -/
theorem iterate_empty (inp : SearchInput) (st : EState) (out : List GAction)
    (h : st.ol = []) : iterate inp st out = .done .UNSOLVABLE st out := by
  unfold iterate
  rw [h]

/-- Popping a handle whose frame is already closed discards the stale entry
and performs no other work (lines 70–73). -/
theorem iterate_stale (inp : SearchInput) (st : EState) (out : List GAction)
    (i : Nat) (q : ℚ) (rest : List (Nat × ℚ))
    (h : st.ol = (i, q) :: rest) (hc : (st.frames.getD i default).closed = true) :
    iterate inp st out = .cont { st with ol := rest } := by
  unfold iterate
  rw [h]
  dsimp only
  rw [if_pos hc]

/-- Accepting a pop with the abort flag raised returns `ABORTED` (lines 90–93). -/
theorem iterate_accept_abort (inp : SearchInput) (st : EState) (out : List GAction)
    (i : Nat) (q : ℚ) (rest : List (Nat × ℚ))
    (h : st.ol = (i, q) :: rest) (hc : (st.frames.getD i default).closed = false)
    (hab : inp.abortSched st.acceptCount = true) :
    iterate inp st out = .done .ABORTED (acceptFrame i { st with ol := rest }) out := by
  unfold iterate
  rw [h]
  dsimp only
  rw [if_neg (by simp only [List.getD_eq_getElem?_getD] at hc ⊢; simp [hc]), if_pos hab]

/-- Accepting a pop whose frame satisfies the goal returns `SOLVED` with the
reconstructed plan (lines 95–109). -/
theorem iterate_accept_goal (inp : SearchInput) (st : EState) (out : List GAction)
    (i : Nat) (q : ℚ) (rest : List (Nat × ℚ))
    (h : st.ol = (i, q) :: rest) (hc : (st.frames.getD i default).closed = false)
    (hab : inp.abortSched st.acceptCount = false)
    (hg : (((st.frames.getD i default).state).map inp.goal).getD false = true) :
    iterate inp st out = .done .SOLVED (acceptFrame i { st with ol := rest })
      ((walk (acceptFrame i { st with ol := rest }).frames
        (acceptFrame i { st with ol := rest }).frames.length
        { st.frames.getD i default with closed := true }).reverse) := by
  unfold iterate
  rw [h]
  dsimp only
  rw [if_neg (by simp only [List.getD_eq_getElem?_getD] at hc ⊢; simp [hc]),
    if_neg (by simp [hab]),
    if_pos (by simp only [List.getD_eq_getElem?_getD] at hg ⊢; exact hg)]

/-- Accepting a pop of a non-goal frame with no abort request expands it
(lines 111–163). -/
theorem iterate_accept_expand (inp : SearchInput) (st : EState) (out : List GAction)
    (i : Nat) (q : ℚ) (rest : List (Nat × ℚ))
    (h : st.ol = (i, q) :: rest) (hc : (st.frames.getD i default).closed = false)
    (hab : inp.abortSched st.acceptCount = false)
    (hg : (((st.frames.getD i default).state).map inp.goal).getD false = false) :
    iterate inp st out = .cont (expandFrame inp i (acceptFrame i { st with ol := rest })) := by
  unfold iterate
  rw [h]
  dsimp only
  rw [if_neg (by simp only [List.getD_eq_getElem?_getD] at hc ⊢; simp [hc]),
    if_neg (by simp [hab]),
    if_neg (by simp only [List.getD_eq_getElem?_getD] at hg ⊢; simp [hg])]

/-- A frame read whose `closed` is false is a read in bounds (out-of-bounds
reads give the dummy default, which is closed). -/
theorem getD_closed_false_lt (l : List Frame) (i : Nat)
    (h : (l.getD i default).closed = false) : i < l.length := by
  by_contra hge
  rw [List.getD_eq_default _ _ (by omega)] at h
  exact absurd h (by simp [default, dummyFrame])

/-- `olInsert` keeps every existing entry (it only adds one). -/
theorem olInsert_mem (i : Nat) (p : ℚ) (l : List (Nat × ℚ)) (e : Nat × ℚ)
    (he : e ∈ l) : e ∈ olInsert i p l := by
  induction l with
  | nil => cases he
  | cons x xs ih =>
    unfold olInsert
    rcases List.mem_cons.mp he with rfl | hxs
    · split
      · exact List.mem_cons_self _ _
      · exact List.mem_cons_of_mem _ (List.mem_cons_self _ _)
    · split
      · exact List.mem_cons_of_mem _ (ih hxs)
      · exact List.mem_cons_of_mem _ (List.mem_cons_of_mem _ hxs)

/-- The `closed` flag of the accepted frame and of every other frame after
`acceptFrame`. -/
theorem acceptFrame_closed_getD (i0 i : Nat) (st : EState)
    (hi0 : i0 < st.frames.length) :
    ((acceptFrame i0 st).frames.getD i default) =
      (if i0 = i then { st.frames.getD i default with closed := true }
       else st.frames.getD i default) := by
  rw [acceptFrame_frames]
  by_cases hii : i0 = i
  · subst hii
    rw [if_pos rfl, getD_set_self _ _ _ hi0]
  · rw [if_neg hii, getD_set_ne _ _ _ _ hii]

/-- A `done` step returns the caller's `out_plan` unchanged unless the result
is `SOLVED`. -/
theorem iterate_done_out (inp : SearchInput) (st : EState) (out : List GAction)
    (r : SearchResult) (st' : EState) (out' : List GAction)
    (h : iterate inp st out = .done r st' out') : r = .SOLVED ∨ out' = out := by
  unfold iterate at h
  split at h
  · injection h with h1 h2 h3
    exact Or.inr h3.symm
  · dsimp only at h
    split at h
    · cases h
    · split at h
      · injection h with h1 h2 h3
        exact Or.inr h3.symm
      · split at h
        · injection h with h1 h2 h3
          exact Or.inl h1.symm
        · cases h

/-! ## C10: `out_plan` untouched unless `SOLVED` -/

/-- C10.  Whenever the loop does not return `SOLVED` (including `UNSOLVABLE`,
`ABORTED`, and fuel exhaustion), the caller's `out_plan` is returned exactly
as passed in: only the `SOLVED` path writes it. -/
theorem C10_out_plan (inp : SearchInput) (fuel : Nat) (st : EState) (out : List GAction)
    (h : (loop inp fuel st out).1 ≠ some .SOLVED) : (loop inp fuel st out).2.2 = out := by
  induction fuel generalizing st with
  | zero => rfl
  | succ fuel ih =>
    cases hit : iterate inp st out with
    | done r st' out' =>
      have hl : loop inp (fuel + 1) st out = (some r, st', out') := by rw [loop, hit]
      rw [hl] at h ⊢
      rcases iterate_done_out inp st out r st' out' hit with hr | ho
      · subst hr
        exact absurd rfl h
      · exact ho
    | cont st' =>
      have hl : loop inp (fuel + 1) st out = loop inp fuel st' out := by rw [loop, hit]
      rw [hl] at h ⊢
      exact ih st' h

/-- C10, witness: an `UNSOLVABLE` run (the dead-successor scenario) returns
the caller's `out_plan` `[⟨7, 7, 7⟩]` unchanged. -/
theorem C10_out_plan_witness :
    (loop deadSuccInput 4 (initE deadSuccInput) [⟨7, 7, 7⟩]).1 ≠ some .SOLVED ∧
    (loop deadSuccInput 4 (initE deadSuccInput) [⟨7, 7, 7⟩]).2.2 = [⟨7, 7, 7⟩] :=
  ⟨by with_unfolding_all decide,
   C10_out_plan deadSuccInput 4 (initE deadSuccInput) [⟨7, 7, 7⟩] (by with_unfolding_all decide)⟩

/-- `applyAction` grows the frame list by at most one frame. -/
theorem applyAction_length_le_succ (inp : SearchInput) (index : Nat) (st : EState) (a : GAction) :
    (applyAction inp index st a).frames.length ≤ st.frames.length + 1 := by
  unfold applyAction
  dsimp only
  split
  · simp
  · split
    · split <;> simp
    · simp

/-- On a previously seen successor state the frame list keeps its length. -/
theorem applyAction_length_seen (inp : SearchInput) (index : Nat) (st : EState) (a : GAction)
    (h0 : st.stateIndices a.target ≠ 0) :
    (applyAction inp index st a).frames.length = st.frames.length := by
  unfold applyAction
  dsimp only
  rw [if_neg h0]
  split
  · split <;> simp
  · rfl

/-- Every frame allocated during a successor fold is born with
`closed = is_dead_end(h)`, and keeps that flag (and its h-value) for the rest
of the fold. -/
theorem foldl_new_frames (inp : SearchInput) (index : Nat) (l : List GAction) (st : EState)
    (j : Nat) (hj : st.frames.length ≤ j)
    (hj2 : j < (l.foldl (applyAction inp index) st).frames.length) :
    ((l.foldl (applyAction inp index) st).frames.getD j default).closed =
      inp.dead (((l.foldl (applyAction inp index) st).frames.getD j default).h_value) := by
  induction l generalizing st with
  | nil =>
    simp only [List.foldl_nil] at hj2
    omega
  | cons a l ih =>
    simp only [List.foldl_cons] at hj2 ⊢
    by_cases hlt : j < (applyAction inp index st a).frames.length
    · have hle := applyAction_length_le_succ inp index st a
      have hj' : j = st.frames.length := by omega
      subst hj'
      by_cases h0 : st.stateIndices a.target = 0
      · have hfr : ((applyAction inp index st a).frames.getD st.frames.length default) =
            newFrameFor inp index a (st.frames.getD index default) := by
          rw [applyAction_new inp index st a h0]
          exact getD_append_len _ _
        have hpres := foldl_frame_fields inp index l (applyAction inp index st a)
          st.frames.length hlt
        rw [hpres.1, hpres.2.2, hfr]
        rfl
      · exact absurd (applyAction_length_seen inp index st a h0) (by omega)
    · exact ih (applyAction inp index st a) (by omega) hj2

/-- Frames allocated while expanding a frame are born with
`closed = is_dead_end(h)`. -/
theorem expandFrame_new_frames (inp : SearchInput) (index : Nat) (st : EState)
    (j : Nat) (hj : st.frames.length ≤ j)
    (hj2 : j < (expandFrame inp index st).frames.length) :
    ((expandFrame inp index st).frames.getD j default).closed =
      inp.dead (((expandFrame inp index st).frames.getD j default).h_value) := by
  unfold expandFrame at hj2 ⊢
  dsimp only at hj2 ⊢
  exact foldl_new_frames inp index _ _ j hj hj2

/-! ## C4: discipline of the `closed` flag -/

/-- C4, counterexample.  The claim says `closed` becomes true only at the
moment the frame's handle is popped and accepted.  In the dead-successor
scenario, after the very first iteration (whose only pop is handle 1, the
only entry the open list ever held), the successor frame at handle 2 is
already `closed = true` at allocation, although handle 2 was never popped. -/
theorem C4_cex :
    (initE deadSuccInput).ol = [(1, 0)] ∧
    (initE deadSuccInput).frames.length = 2 ∧
    (iterate deadSuccInput (initE deadSuccInput) []).state.frames.length = 3 ∧
    ((iterate deadSuccInput (initE deadSuccInput) []).state.frames.getD 2 default).closed = true ∧
    (iterate deadSuccInput (initE deadSuccInput) []).state.ol = [] := by
  refine ⟨?_, ?_, ?_, ?_, ?_⟩ <;> with_unfolding_all decide

/-- C4, amended.  In every iteration of the main loop: (i) a pre-existing
frame is closed afterwards iff it was closed before or it was the popped and
accepted frame of this iteration; (ii) every frame allocated during the
iteration is born with `closed` equal to its dead-end status (so dead-end
frames are closed at allocation, without ever being popped); (iii) popping a
handle whose frame is already closed only discards the stale entry — the
frame is not re-expanded even though cheaper paths may have updated its
bookkeeping fields earlier. -/
theorem C4_closed_once (inp : SearchInput) (st : EState) (out : List GAction) :
    (∀ i, i < st.frames.length →
      (((iterate inp st out).state.frames.getD i default).closed = true ↔
        ((st.frames.getD i default).closed = true ∨
         (∃ q rest, st.ol = (i, q) :: rest ∧ (st.frames.getD i default).closed = false)))) ∧
    (∀ j, st.frames.length ≤ j → j < (iterate inp st out).state.frames.length →
      ((iterate inp st out).state.frames.getD j default).closed =
        inp.dead (((iterate inp st out).state.frames.getD j default).h_value)) ∧
    (∀ i q rest, st.ol = (i, q) :: rest → (st.frames.getD i default).closed = true →
      iterate inp st out = .cont { st with ol := rest }) := by
  rcases hol : st.ol with _ | ⟨⟨i0, q0⟩, rest0⟩
  · rw [iterate_empty inp st out hol]
    refine ⟨?_, ?_, ?_⟩
    · intro i hi
      simp [Step.state, hol]
    · intro j hj hj2
      simp only [Step.state] at hj2
      omega
    · intro i q rest heq
      cases heq
  · by_cases hc0 : (st.frames.getD i0 default).closed = true
    · rw [iterate_stale inp st out i0 q0 rest0 hol hc0]
      refine ⟨?_, ?_, ?_⟩
      · intro i hi
        simp only [Step.state]
        constructor
        · exact fun h => Or.inl h
        · rintro (h | ⟨q, rest, heq, hcf⟩)
          · exact h
          · injection heq with h1 h2
            injection h1 with h1a h1b
            rw [← h1a] at hcf
            rw [hcf] at hc0
            cases hc0
      · intro j hj hj2
        simp only [Step.state] at hj2
        omega
      · intro i q rest heq hc
        injection heq with h1 h2
        injection h1 with h1a h1b
        subst h1a h1b h2
        rfl
    · have hc0' : (st.frames.getD i0 default).closed = false := by
        cases h : (st.frames.getD i0 default).closed
        · rfl
        · exact absurd h hc0
      have hi0 : i0 < st.frames.length := getD_closed_false_lt _ _ hc0'
      have hstA : ∀ i, ((acceptFrame i0 { st with ol := rest0 }).frames.getD i default).closed =
          (if i0 = i then true else (st.frames.getD i default).closed) := by
        intro i
        rw [acceptFrame_closed_getD i0 i { st with ol := rest0 } hi0]
        by_cases hii : i0 = i
        · rw [if_pos hii, if_pos hii]
        · rw [if_neg hii, if_neg hii]
      have hlenA : (acceptFrame i0 { st with ol := rest0 }).frames.length = st.frames.length := by
        rw [acceptFrame_frames]
        exact List.length_set _ _ _
      have hmain : ∀ (stF : EState),
          (∀ i, i < st.frames.length →
            ((stF.frames.getD i default).closed = (if i0 = i then true else (st.frames.getD i default).closed))) →
          ∀ i, i < st.frames.length →
            ((stF.frames.getD i default).closed = true ↔
              ((st.frames.getD i default).closed = true ∨
               (∃ q rest, ((i0, q0) : Nat × ℚ) :: rest0 = (i, q) :: rest ∧
                 (st.frames.getD i default).closed = false))) := by
        intro stF hclosed i hi
        rw [hclosed i hi]
        by_cases hii : i0 = i
        · subst hii
          rw [if_pos rfl]
          simp only [true_iff]
          exact Or.inr ⟨q0, rest0, rfl, hc0'⟩
        · rw [if_neg hii]
          constructor
          · exact fun h => Or.inl h
          · rintro (h | ⟨q, rest, heq, hcf⟩)
            · exact h
            · injection heq with h1 h2
              injection h1 with h1a h1b
              exact absurd h1a hii
      have hthird : ∀ (i : Nat) (q : ℚ) (rest : List (Nat × ℚ)),
          ((i0, q0) : Nat × ℚ) :: rest0 = (i, q) :: rest →
          (st.frames.getD i default).closed = true → False := by
        intro i q rest heq hcc
        injection heq with h1 h2
        injection h1 with h1a h1b
        subst h1a
        rw [hcc] at hc0'
        cases hc0'
      rcases hab : inp.abortSched st.acceptCount with _ | _
      · rcases hg : (((st.frames.getD i0 default).state).map inp.goal).getD false with _ | _
        · -- expand branch
          rw [iterate_accept_expand inp st out i0 q0 rest0 hol hc0' hab hg]
          simp only [Step.state]
          have hexp := expandFrame_fields inp i0 (acceptFrame i0 { st with ol := rest0 })
          refine ⟨?_, ?_, ?_⟩
          · exact hmain _ (fun i' hi' => by
              rw [(hexp.2.2.2.2.2 i' (by omega)).1, hstA i'])
          · intro j hj hj2
            exact expandFrame_new_frames inp i0 _ j (by omega) hj2
          · intro i q rest heq hcc
            exact (hthird i q rest heq hcc).elim
        · -- goal branch
          rw [iterate_accept_goal inp st out i0 q0 rest0 hol hc0' hab hg]
          simp only [Step.state]
          refine ⟨?_, ?_, ?_⟩
          · exact hmain _ (fun i' hi' => hstA i')
          · intro j hj hj2
            omega
          · intro i q rest heq hcc
            exact (hthird i q rest heq hcc).elim
      · -- abort branch
        rw [iterate_accept_abort inp st out i0 q0 rest0 hol hc0' hab]
        simp only [Step.state]
        refine ⟨?_, ?_, ?_⟩
        · exact hmain _ (fun i' hi' => hstA i')
        · intro j hj hj2
          omega
        · intro i q rest heq hcc
          exact (hthird i q rest heq hcc).elim

/-- C4, witness: in the chain scenario's first iteration, handle 1 (popped
and accepted) flips to closed, and no allocation is born closed (no dead
ends). -/
theorem C4_closed_once_witness :
    (((iterate chainInput (initE chainInput) []).state.frames.getD 1 default).closed = true) ∧
    ((initE chainInput).frames.getD 1 default).closed = false :=
  ⟨((C4_closed_once chainInput (initE chainInput) []).1 1 (by with_unfolding_all decide)).mpr
      (Or.inr ⟨0, [], by with_unfolding_all rfl, by with_unfolding_all decide⟩),
   by with_unfolding_all decide⟩

/-! ## C6: layer-boundary snapshots -/

/-- C6, counterexample.  The claim says a snapshot is taken exactly when the
accepted frame's f-value strictly exceeds the f-value recorded at the
previous snapshot.  In the fractional scenario the first snapshot records
`max_f_value = 3/2`, and the next accepted pop has `f = 13/10`, which does
not exceed `3/2` — yet a second snapshot is taken, because the comparison is
against the `int32_t`-truncated value `1`. -/
theorem C6_cex :
    (loop layerInput 5 (initE layerInput) []).2.1.events.length = 2 ∧
    ((loop layerInput 5 (initE layerInput) []).2.1.events.getD 1 default).max_f_value = 3/2 ∧
    ((loop layerInput 5 (initE layerInput) []).2.1.events.getD 0 default).max_f_value = 13/10 ∧
    ¬ ((3 : ℚ)/2 < 13/10) := by
  refine ⟨?_, ?_, ?_, ?_⟩ <;> with_unfolding_all decide

/-- C6, amended.  On every accepted pop, the statistics snapshot (with the
progress-handler notification) is taken iff the frame's f-value strictly
exceeds the current value of the `int32_t` variable `last_f_value` — which
holds the *truncation* of the f-value at the previous snapshot, and `-1`
initially (so the first accepted pop snapshots whenever its f-value exceeds
`-1`).  On a snapshot, `last_f_value` becomes `truncQ f`. -/
theorem C6_layer_snapshot (inp : SearchInput) (st : EState) (out : List GAction)
    (i : Nat) (q : ℚ) (rest : List (Nat × ℚ))
    (h : st.ol = (i, q) :: rest) (hc : (st.frames.getD i default).closed = false) :
    (((st.lastF : ℚ) < (st.frames.getD i default).g_value + (st.frames.getD i default).h_value →
       (iterate inp st out).state.events =
         ⟨st.expanded, st.generated, st.evaluated, (st.frames.getD i default).depth,
           (st.frames.getD i default).g_value,
           (st.frames.getD i default).g_value + (st.frames.getD i default).h_value⟩ :: st.events ∧
       (iterate inp st out).state.lastF =
         truncQ ((st.frames.getD i default).g_value + (st.frames.getD i default).h_value)) ∧
     (¬ ((st.lastF : ℚ) < (st.frames.getD i default).g_value + (st.frames.getD i default).h_value) →
       (iterate inp st out).state.events = st.events ∧
       (iterate inp st out).state.lastF = st.lastF)) ∧
    (initE inp).lastF = -1 := by
  have hev := acceptFrame_events i { st with ol := rest }
  have hstep : (iterate inp st out).state.events = (acceptFrame i { st with ol := rest }).events ∧
      (iterate inp st out).state.lastF = (acceptFrame i { st with ol := rest }).lastF := by
    rcases hab : inp.abortSched st.acceptCount with _ | _
    · rcases hg : (((st.frames.getD i default).state).map inp.goal).getD false with _ | _
      · rw [iterate_accept_expand inp st out i q rest h hc hab hg]
        simp only [Step.state]
        have hexp := expandFrame_fields inp i (acceptFrame i { st with ol := rest })
        exact ⟨hexp.2.1, hexp.2.2.1⟩
      · rw [iterate_accept_goal inp st out i q rest h hc hab hg]
        exact ⟨rfl, rfl⟩
    · rw [iterate_accept_abort inp st out i q rest h hc hab]
      exact ⟨rfl, rfl⟩
  refine ⟨⟨?_, ?_⟩, rfl⟩
  · intro hlt
    rw [hstep.1, hstep.2]
    exact hev.1 hlt
  · intro hge
    rw [hstep.1, hstep.2]
    exact hev.2 hge

/-- C6, witness: the first accepted pop of the fractional scenario has
`f = 3/2 > -1`, so a snapshot is taken and `last_f_value` becomes
`truncQ (3/2) = 1`. -/
theorem C6_layer_snapshot_witness :
    (iterate layerInput (initE layerInput) []).state.events =
      [⟨0, 0, 1, 0, 0, 3/2⟩] ∧
    (iterate layerInput (initE layerInput) []).state.lastF = 1 := by
  have happ := (C6_layer_snapshot layerInput (initE layerInput) [] 1 0 []
    (by with_unfolding_all rfl) (by with_unfolding_all rfl)).1.1
    (by with_unfolding_all decide)
  refine ⟨?_, ?_⟩
  · rw [happ.1]
    with_unfolding_all decide
  · rw [happ.2]
    with_unfolding_all decide

/-! ## C8: rediscovery of a previously seen state -/

/-- C8.  When an expansion step generates a previously seen successor state:
with `g_candidate = g + action.cost`, a strict improvement updates the
existing frame's predecessor link, depth and g-value in place
(`improveFrame`), then, if its stored h-value is not a dead end, inserts
`(handle, g_candidate + h)` into the open list and increments `generated`,
and otherwise inserts nothing; without a strict improvement the whole search
state is untouched; and in every case all previously queued entries remain in
the open list (stale entries are never actively removed). -/
theorem C8_rediscovery (inp : SearchInput) (index : Nat) (st : EState) (a : GAction)
    (hseen : st.stateIndices a.target ≠ 0) :
    ((st.frames.getD index default).g_value + a.cost <
       (st.frames.getD (st.stateIndices a.target) default).g_value →
      (applyAction inp index st a).frames =
        st.frames.set (st.stateIndices a.target)
          (improveFrame index a (st.frames.getD index default)
            (st.frames.getD (st.stateIndices a.target) default)) ∧
      (inp.dead (st.frames.getD (st.stateIndices a.target) default).h_value = false →
        (applyAction inp index st a).ol =
          olInsert (st.stateIndices a.target)
            ((st.frames.getD index default).g_value + a.cost +
              (st.frames.getD (st.stateIndices a.target) default).h_value) st.ol ∧
        (applyAction inp index st a).generated = st.generated + 1) ∧
      (inp.dead (st.frames.getD (st.stateIndices a.target) default).h_value = true →
        (applyAction inp index st a).ol = st.ol ∧
        (applyAction inp index st a).generated = st.generated)) ∧
    (¬ ((st.frames.getD index default).g_value + a.cost <
        (st.frames.getD (st.stateIndices a.target) default).g_value) →
      applyAction inp index st a = st) ∧
    (∀ e ∈ st.ol, e ∈ (applyAction inp index st a).ol) := by
  refine ⟨?_, ?_, ?_⟩
  · intro himp
    rw [applyAction_improve inp index st a hseen himp]
    dsimp only
    refine ⟨?_, ?_, ?_⟩
    · split <;> rfl
    · intro hdead
      rw [if_neg (by simp only [List.getD_eq_getElem?_getD] at hdead ⊢; simp [hdead])]
      exact ⟨rfl, rfl⟩
    · intro hdead
      rw [if_pos (by simp only [List.getD_eq_getElem?_getD] at hdead ⊢; exact hdead)]
      exact ⟨rfl, rfl⟩
  · intro himp
    exact applyAction_stay inp index st a hseen himp
  · intro e he
    by_cases himp : (st.frames.getD index default).g_value + a.cost <
        (st.frames.getD (st.stateIndices a.target) default).g_value
    · rw [applyAction_improve inp index st a hseen himp]
      dsimp only
      split
      · exact he
      · exact olInsert_mem _ _ _ _ he
    · rw [applyAction_stay inp index st a hseen himp]
      exact he

/-- A concrete engine state for the C8 witness: the dummy frame, a closed
parent frame at handle 1 (state 3, `g = 0`) and an open frame at handle 2
(state 7, `g = 5`, `h = 1`), with one stale open-list entry `(2, 6)`. -/
def rediscoveryState : EState :=
  { stateIndices := fun s => if s = 7 then 2 else if s = 3 then 1 else 0
    frames := [dummyFrame, ⟨some 3, none, -1, 0, 0, 2, true⟩, ⟨some 7, none, -1, 0, 5, 1, false⟩]
    ol := [(2, 6)]
    expanded := 1
    generated := 1
    evaluated := 2
    lastF := 2
    acceptCount := 1
    events := [] }

/-- C8, witness: rediscovering state 7 from handle 1 via an action of cost 2
(`g_candidate = 2 < 5`) re-links its frame, inserts `(2, 2 + 1)` ahead of the
stale entry `(2, 6)` — which stays queued — and increments `generated`. -/
theorem C8_rediscovery_witness :
    (applyAction chainInput 1 rediscoveryState ⟨9, 2, 7⟩).ol = [(2, 3), (2, 6)] ∧
    (applyAction chainInput 1 rediscoveryState ⟨9, 2, 7⟩).generated = 2 ∧
    (2, 6) ∈ (applyAction chainInput 1 rediscoveryState ⟨9, 2, 7⟩).ol := by
  have h8 := C8_rediscovery chainInput 1 rediscoveryState ⟨9, 2, 7⟩
    (by with_unfolding_all decide)
  have himp := h8.1 (by with_unfolding_all decide)
  have hins := himp.2.1 (by with_unfolding_all decide)
  refine ⟨?_, ?_, h8.2.2 (2, 6) (by with_unfolding_all decide)⟩
  · rw [hins.1]
    with_unfolding_all decide
  · rw [hins.2]
    with_unfolding_all decide

/-- Any `SOLVED` step returns the state produced by `acceptFrame` on a goal
frame, and the plan is the reversed predecessor-chain walk from that frame. -/
theorem iterate_solved_shape (inp : SearchInput) (st : EState) (out : List GAction)
    (st' : EState) (out' : List GAction)
    (h : iterate inp st out = .done .SOLVED st' out') :
    ∃ i, (st'.frames.getD i default).closed = true ∧
      (((st'.frames.getD i default).state).map inp.goal).getD false = true ∧
      out' = (walk st'.frames st'.frames.length (st'.frames.getD i default)).reverse := by
  rcases hol : st.ol with _ | ⟨⟨i0, q0⟩, rest0⟩
  · rw [iterate_empty inp st out hol] at h
    injection h with h1
    cases h1
  · by_cases hc : (st.frames.getD i0 default).closed = true
    · rw [iterate_stale inp st out i0 q0 rest0 hol hc] at h
      cases h
    · have hc' : (st.frames.getD i0 default).closed = false := by
        cases hcc : (st.frames.getD i0 default).closed
        · rfl
        · exact absurd hcc hc
      have hi0 : i0 < st.frames.length := getD_closed_false_lt _ _ hc'
      rcases hab : inp.abortSched st.acceptCount with _ | _
      · rcases hg : (((st.frames.getD i0 default).state).map inp.goal).getD false with _ | _
        · rw [iterate_accept_expand inp st out i0 q0 rest0 hol hc' hab hg] at h
          cases h
        · rw [iterate_accept_goal inp st out i0 q0 rest0 hol hc' hab hg] at h
          injection h with h1 h2 h3
          subst h2 h3
          refine ⟨i0, ?_, ?_, ?_⟩
          · rw [acceptFrame_closed_getD i0 i0 { st with ol := rest0 } hi0, if_pos rfl]
          · rw [acceptFrame_closed_getD i0 i0 { st with ol := rest0 } hi0, if_pos rfl]
            exact hg
          · rw [acceptFrame_closed_getD i0 i0 { st with ol := rest0 } hi0, if_pos rfl]
      · rw [iterate_accept_abort inp st out i0 q0 rest0 hol hc' hab] at h
        injection h with h1
        cases h1

/-! ## C7: plan reconstruction -/

/-- C7.  Whenever `plan` returns `SOLVED`, `out_plan` is exactly the reversed
predecessor-chain walk from the accepted goal frame (i.e. the chain's actions
in forward, initial-to-goal, order); and on the concrete chain scenario the
search returns `SOLVED` with `out_plan = [A→B, B→C]`, `expanded = 2`,
`evaluated = 3` and `generated = 2`. -/
theorem C7_plan_reconstruction :
    (∀ (inp : SearchInput) (fuel : Nat) (st : EState) (out : List GAction)
        (st' : EState) (out' : List GAction),
      loop inp fuel st out = (some .SOLVED, st', out') →
      ∃ i, (st'.frames.getD i default).closed = true ∧
        (((st'.frames.getD i default).state).map inp.goal).getD false = true ∧
        out' = (walk st'.frames st'.frames.length (st'.frames.getD i default)).reverse) ∧
    ((loop chainInput 10 (initE chainInput) []).1 = some .SOLVED ∧
     (loop chainInput 10 (initE chainInput) []).2.2 = [⟨0, 1, 1⟩, ⟨1, 1, 2⟩] ∧
     (loop chainInput 10 (initE chainInput) []).2.1.expanded = 2 ∧
     (loop chainInput 10 (initE chainInput) []).2.1.evaluated = 3 ∧
     (loop chainInput 10 (initE chainInput) []).2.1.generated = 2) := by
  constructor
  · intro inp fuel
    induction fuel with
    | zero =>
      intro st out st' out' h
      rw [loop] at h
      injection h with h1
      cases h1
    | succ fuel ih =>
      intro st out st' out' h
      cases hit : iterate inp st out with
      | done r st2 out2 =>
        have hl : loop inp (fuel + 1) st out = (some r, st2, out2) := by rw [loop, hit]
        rw [hl] at h
        injection h with h1 h2
        injection h1 with h1
        injection h2 with h2a h2b
        subst h1 h2a h2b
        exact iterate_solved_shape inp st out st2 out2 hit
      | cont st2 =>
        have hl : loop inp (fuel + 1) st out = loop inp fuel st2 out := by rw [loop, hit]
        rw [hl] at h
        exact ih st2 out st' out' h
  · refine ⟨?_, ?_, ?_, ?_, ?_⟩ <;> with_unfolding_all decide

/-- C7, witness: the general reconstruction shape applied to the chain
scenario's `SOLVED` run. -/
theorem C7_plan_reconstruction_witness :
    ∃ i, (((loop chainInput 10 (initE chainInput) []).2.1.frames.getD i default).closed = true) ∧
      ((((loop chainInput 10 (initE chainInput) []).2.1.frames.getD i default).state).map
        chainInput.goal).getD false = true ∧
      (loop chainInput 10 (initE chainInput) []).2.2 =
        (walk (loop chainInput 10 (initE chainInput) []).2.1.frames
          (loop chainInput 10 (initE chainInput) []).2.1.frames.length
          ((loop chainInput 10 (initE chainInput) []).2.1.frames.getD i default)).reverse :=
  C7_plan_reconstruction.1 chainInput 10 (initE chainInput) [] _ _ (by
    have h1 : (loop chainInput 10 (initE chainInput) []).1 = some .SOLVED := by
      with_unfolding_all rfl
    rw [← h1])

/-! ## C5: dead-end exclusion -/

/-- Engine states reachable from a given state by `cont` iterations of the
main loop. -/
inductive Reaches (inp : SearchInput) : EState → EState → Prop
  | refl (st : EState) : Reaches inp st st
  | step (st₁ st₂ st₃ : EState) (out : List GAction) :
      Reaches inp st₁ st₂ → iterate inp st₂ out = .cont st₃ → Reaches inp st₁ st₃

/-- The dead-end invariant: every open-list entry is in bounds and refers
either to the initial frame (handle 1) or to a frame that is not a dead end;
every dead-end frame other than handle 1 is closed (so it can never be
accepted for expansion); and the state index is in bounds. -/
def DeadEndInvariant (inp : SearchInput) (st : EState) : Prop :=
  (∀ e ∈ st.ol, e.1 < st.frames.length ∧
    (e.1 = 1 ∨ inp.dead ((st.frames.getD e.1 default).h_value) = false)) ∧
  (∀ i, i ≠ 1 → i < st.frames.length →
    inp.dead ((st.frames.getD i default).h_value) = true →
    (st.frames.getD i default).closed = true) ∧
  (∀ s, st.stateIndices s < st.frames.length)

/-- Membership after `olInsert`: an entry is an old one or the new pair. -/
theorem mem_olInsert (i : Nat) (p : ℚ) (l : List (Nat × ℚ)) (e : Nat × ℚ)
    (he : e ∈ olInsert i p l) : e ∈ l ∨ e = (i, p) := by
  induction l with
  | nil =>
    unfold olInsert at he
    rcases List.mem_singleton.mp he with rfl
    exact Or.inr rfl
  | cons x xs ih =>
    unfold olInsert at he
    split at he
    · rcases List.mem_cons.mp he with rfl | hxs
      · exact Or.inl (List.mem_cons_self _ _)
      · rcases ih hxs with h | h
        · exact Or.inl (List.mem_cons_of_mem _ h)
        · exact Or.inr h
    · rcases List.mem_cons.mp he with rfl | hxs
      · exact Or.inr rfl
      · exact Or.inl hxs

/-- `applyAction` preserves the dead-end invariant. -/
theorem applyAction_deadInv (inp : SearchInput) (index : Nat) (st : EState) (a : GAction)
    (hinv : DeadEndInvariant inp st) :
    DeadEndInvariant inp (applyAction inp index st a) := by
  obtain ⟨h1, h2, h3⟩ := hinv
  by_cases h0 : st.stateIndices a.target = 0
  · rw [applyAction_new inp index st a h0]
    have hlen : (st.frames ++ [newFrameFor inp index a (st.frames.getD index default)]).length =
        st.frames.length + 1 := by simp
    refine ⟨?_, ?_, ?_⟩
    · intro e he
      dsimp only at he ⊢
      rcases hd : inp.dead (inp.h a.target) with _ | _
      · rw [hd] at he
        simp only [Bool.false_eq_true, if_false] at he
        rcases mem_olInsert _ _ _ _ he with hold | hnew
        · obtain ⟨hb, hdisj⟩ := h1 e hold
          refine ⟨by omega, ?_⟩
          rw [getD_append_lt _ _ _ hb]
          exact hdisj
        · subst hnew
          refine ⟨by simp [hlen], Or.inr ?_⟩
          dsimp only
          rw [getD_append_len]
          exact hd
      · rw [hd] at he
        simp only [if_true] at he
        obtain ⟨hb, hdisj⟩ := h1 e he
        refine ⟨by omega, ?_⟩
        rw [getD_append_lt _ _ _ hb]
        exact hdisj
    · intro i hi1 hilen hdead
      dsimp only at hilen hdead ⊢
      rw [hlen] at hilen
      by_cases hilt : i < st.frames.length
      · rw [getD_append_lt _ _ _ hilt] at hdead ⊢
        exact h2 i hi1 hilt hdead
      · have hieq : i = st.frames.length := by omega
        subst hieq
        rw [getD_append_len] at hdead ⊢
        exact hdead
    · intro s
      dsimp only
      unfold updMap
      by_cases hs : s = a.target
      · rw [if_pos hs]
        simp [hlen]
      · rw [if_neg hs]
        have := h3 s
        simp only [hlen]
        omega
  · by_cases himp : (st.frames.getD index default).g_value + a.cost <
        (st.frames.getD (st.stateIndices a.target) default).g_value
    · have hjlt : st.stateIndices a.target < st.frames.length := h3 a.target
      have hsetlen : (st.frames.set (st.stateIndices a.target)
          (improveFrame index a (st.frames.getD index default)
            (st.frames.getD (st.stateIndices a.target) default))).length = st.frames.length :=
        List.length_set _ _ _
      have hfieldsj : ∀ i,
          (((st.frames.set (st.stateIndices a.target)
            (improveFrame index a (st.frames.getD index default)
              (st.frames.getD (st.stateIndices a.target) default))).getD i default).closed =
            (st.frames.getD i default).closed) ∧
          (((st.frames.set (st.stateIndices a.target)
            (improveFrame index a (st.frames.getD index default)
              (st.frames.getD (st.stateIndices a.target) default))).getD i default).h_value =
            (st.frames.getD i default).h_value) := by
        intro i
        by_cases hij : st.stateIndices a.target = i
        · subst hij
          rw [getD_set_self _ _ _ hjlt]
          exact ⟨rfl, rfl⟩
        · rw [getD_set_ne _ _ _ _ hij]
          exact ⟨rfl, rfl⟩
      rw [applyAction_improve inp index st a h0 himp]
      dsimp only
      split
      · -- dead successor: frame updated in place, nothing inserted
        refine ⟨?_, ?_, ?_⟩
        · intro e he
          dsimp only at he ⊢
          obtain ⟨hb, hdisj⟩ := h1 e he
          refine ⟨by omega, ?_⟩
          rcases hdisj with h | h
          · exact Or.inl h
          · rw [(hfieldsj e.1).2]
            exact Or.inr h
        · intro i hi1 hilen hdead
          dsimp only at hilen hdead ⊢
          rw [hsetlen] at hilen
          rw [(hfieldsj i).2] at hdead
          rw [(hfieldsj i).1]
          exact h2 i hi1 hilen hdead
        · intro s
          dsimp only
          have := h3 s
          omega
      · -- live successor: new open-list entry for the improved frame
        refine ⟨?_, ?_, ?_⟩
        · intro e he
          dsimp only at he ⊢
          rcases mem_olInsert _ _ _ _ he with hold | hnew
          · obtain ⟨hb, hdisj⟩ := h1 e hold
            refine ⟨by omega, ?_⟩
            rcases hdisj with h | h
            · exact Or.inl h
            · rw [(hfieldsj e.1).2]
              exact Or.inr h
          · subst hnew
            dsimp only
            refine ⟨by omega, Or.inr ?_⟩
            rw [(hfieldsj (st.stateIndices a.target)).2]
            rename_i hcond
            cases hdd : inp.dead ((st.frames.getD (st.stateIndices a.target) default).h_value)
            · rfl
            · exact absurd hdd (by simpa using hcond)
        · intro i hi1 hilen hdead
          dsimp only at hilen hdead ⊢
          rw [hsetlen] at hilen
          rw [(hfieldsj i).2] at hdead
          rw [(hfieldsj i).1]
          exact h2 i hi1 hilen hdead
        · intro s
          dsimp only
          have := h3 s
          omega
    · rw [applyAction_stay inp index st a h0 himp]
      exact ⟨h1, h2, h3⟩

/-- The successor fold preserves the dead-end invariant. -/
theorem foldl_deadInv (inp : SearchInput) (index : Nat) (l : List GAction) (st : EState)
    (hinv : DeadEndInvariant inp st) :
    DeadEndInvariant inp (l.foldl (applyAction inp index) st) := by
  induction l generalizing st with
  | nil => exact hinv
  | cons a l ih =>
    simp only [List.foldl_cons]
    exact ih _ (applyAction_deadInv inp index st a hinv)

/-- `acceptFrame` preserves the dead-end invariant (closing a frame only
strengthens it). -/
theorem acceptFrame_deadInv (inp : SearchInput) (index : Nat) (st : EState)
    (hinv : DeadEndInvariant inp st) :
    DeadEndInvariant inp (acceptFrame index st) := by
  obtain ⟨h1, h2, h3⟩ := hinv
  have hfr : (acceptFrame index st).frames =
      st.frames.set index { st.frames.getD index default with closed := true } :=
    acceptFrame_frames index st
  have hol := (acceptFrame_basic index st).1
  have hidx := (acceptFrame_basic index st).2.2.2.2.1
  have hlen : (acceptFrame index st).frames.length = st.frames.length := by
    rw [hfr]
    exact List.length_set _ _ _
  have hfields : ∀ i, ((acceptFrame index st).frames.getD i default).h_value =
      (st.frames.getD i default).h_value := by
    intro i
    rw [hfr]
    by_cases hij : index = i
    · subst hij
      by_cases hlt : index < st.frames.length
      · rw [getD_set_self _ _ _ hlt]
      · rw [List.set_eq_of_length_le (by omega)]
    · rw [getD_set_ne _ _ _ _ hij]
  refine ⟨?_, ?_, ?_⟩
  · intro e he
    rw [hol] at he
    obtain ⟨hb, hdisj⟩ := h1 e he
    refine ⟨by omega, ?_⟩
    rcases hdisj with h | h
    · exact Or.inl h
    · rw [hfields e.1]
      exact Or.inr h
  · intro i hi1 hilen hdead
    rw [hfields i] at hdead
    rw [hlen] at hilen
    rw [hfr]
    by_cases hij : index = i
    · subst hij
      rw [getD_set_self _ _ _ hilen]
    · rw [getD_set_ne _ _ _ _ hij]
      exact h2 i hi1 hilen hdead
  · intro s
    rw [hidx, hlen]
    exact h3 s

/-- A `cont` iteration preserves the dead-end invariant. -/
theorem iterate_deadInv (inp : SearchInput) (st : EState) (out : List GAction)
    (st₃ : EState) (h : iterate inp st out = .cont st₃)
    (hinv : DeadEndInvariant inp st) : DeadEndInvariant inp st₃ := by
  obtain ⟨h1, h2, h3⟩ := hinv
  rcases hol : st.ol with _ | ⟨⟨i0, q0⟩, rest0⟩
  · rw [iterate_empty inp st out hol] at h
    cases h
  · have hpop : DeadEndInvariant inp { st with ol := rest0 } := by
      refine ⟨?_, h2, h3⟩
      intro e he
      exact h1 e (by rw [hol]; exact List.mem_cons_of_mem _ he)
    by_cases hc : (st.frames.getD i0 default).closed = true
    · rw [iterate_stale inp st out i0 q0 rest0 hol hc] at h
      injection h with h'
      subst h'
      exact hpop
    · have hc' : (st.frames.getD i0 default).closed = false := by
        cases hcc : (st.frames.getD i0 default).closed
        · rfl
        · exact absurd hcc hc
      rcases hab : inp.abortSched st.acceptCount with _ | _
      · rcases hg : (((st.frames.getD i0 default).state).map inp.goal).getD false with _ | _
        · rw [iterate_accept_expand inp st out i0 q0 rest0 hol hc' hab hg] at h
          injection h with h'
          subst h'
          have hacc := acceptFrame_deadInv inp i0 { st with ol := rest0 } hpop
          unfold expandFrame
          dsimp only
          apply foldl_deadInv
          exact ⟨hacc.1, hacc.2.1, hacc.2.2⟩
        · rw [iterate_accept_goal inp st out i0 q0 rest0 hol hc' hab hg] at h
          cases h
      · rw [iterate_accept_abort inp st out i0 q0 rest0 hol hc' hab] at h
        cases h

/-- The dead-end invariant holds after initialization. -/
theorem initE_deadInv (inp : SearchInput) : DeadEndInvariant inp (initE inp) := by
  refine ⟨?_, ?_, ?_⟩
  · intro e he
    have : e = (1, 0) := by
      simpa [initE, olInsert] using he
    subst this
    exact ⟨by simp [initE], Or.inl rfl⟩
  · intro i hi1 hilen hdead
    have : i = 0 := by
      simp only [initE] at hilen
      simp at hilen
      omega
    subst this
    rfl
  · intro s
    simp only [initE, updMap]
    split <;> simp

/-- C5, counterexample.  The claim says a frame whose heuristic value is the
dead-end sentinel never gets an open-list entry and is never expanded.  If
the *initial* state is a dead end (`h0 = -1`, sentinel `(· < 0)`), its handle
is nevertheless inserted with priority `0.0` (line 61 has no dead-end check)
and the frame is subsequently expanded: `expanded` reaches `1`. -/
theorem C5_cex :
    deadInitInput.dead ((initE deadInitInput).frames.getD 1 default).h_value = true ∧
    (initE deadInitInput).ol = [(1, 0)] ∧
    (loop deadInitInput 3 (initE deadInitInput) []).2.1.expanded = 1 := by
  refine ⟨?_, ?_, ?_⟩ <;> with_unfolding_all decide

/-- C5, amended.  In every reachable engine state, every open-list entry
refers (in bounds) either to handle 1 — the initial-state frame, which is
exempt — or to a frame that is not a dead end; every dead-end frame other
than handle 1 is closed from birth (hence never accepted for expansion, and
`expanded` is never incremented for it); and consequently any pop that can
still be accepted (frame not closed) is of handle 1 or of a non-dead-end
frame, no matter how often its state was rediscovered. -/
theorem C5_dead_end_exclusion (inp : SearchInput) (st : EState)
    (hr : Reaches inp (initE inp) st) :
    DeadEndInvariant inp st ∧
    (∀ i q rest, st.ol = (i, q) :: rest →
      i = 1 ∨ inp.dead ((st.frames.getD i default).h_value) = false) := by
  have hinv : DeadEndInvariant inp st := by
    induction hr with
    | refl => exact initE_deadInv inp
    | step st₂ st₃ out hr' hit ih => exact iterate_deadInv inp st₂ out st₃ hit ih
  refine ⟨hinv, ?_⟩
  intro i q rest holh
  exact (hinv.1 (i, q) (by rw [holh]; exact List.mem_cons_self _ _)).2

/-- C5, witness: one step into the dead-successor scenario, the dead
successor frame (handle 2) is closed at birth, as the invariant demands. -/
theorem C5_dead_end_exclusion_witness :
    ((iterate deadSuccInput (initE deadSuccInput) []).state.frames.getD 2 default).closed = true := by
  have hreach : Reaches deadSuccInput (initE deadSuccInput)
      (iterate deadSuccInput (initE deadSuccInput) []).state :=
    Reaches.step _ _ _ [] (Reaches.refl _) (by with_unfolding_all rfl)
  exact (C5_dead_end_exclusion deadSuccInput _ hreach).1.2.1 2 (by decide)
    (by with_unfolding_all decide) (by with_unfolding_all decide)

/-! ## C1: towards A* optimality — paths and heuristics -/

/-- Nonnegative action costs, as required by the spec's data model. -/
def CostOK (inp : SearchInput) : Prop :=
  ∀ s, ∀ a ∈ inp.succs s, 0 ≤ a.cost

/-- Nonnegative heuristic values outside dead ends, as required by the spec's
data model (`h_value: real ≥ 0 (or dead-end sentinel)`). -/
def HNonneg (inp : SearchInput) : Prop :=
  ∀ s, inp.dead (inp.h s) = false → 0 ≤ inp.h s

/-- A goal state is reachable from the initial state. -/
def GoalReachable (inp : SearchInput) : Prop :=
  ∃ t π, IsPath inp inp.init π t ∧ inp.goal t = true

theorem pathCost_nil : pathCost [] = 0 := rfl

theorem pathCost_cons (a : GAction) (π : List GAction) :
    pathCost (a :: π) = a.cost + pathCost π := by
  unfold pathCost
  simp

theorem pathCost_append (π₁ π₂ : List GAction) :
    pathCost (π₁ ++ π₂) = pathCost π₁ + pathCost π₂ := by
  unfold pathCost
  simp

theorem pathCost_reverse (π : List GAction) : pathCost π.reverse = pathCost π := by
  unfold pathCost
  simp [List.sum_reverse]

theorem IsPath.append_path {inp : SearchInput} {s m t : Nat} {π₁ π₂ : List GAction}
    (h1 : IsPath inp s π₁ m) (h2 : IsPath inp m π₂ t) : IsPath inp s (π₁ ++ π₂) t := by
  induction h1 with
  | nil => exact h2
  | cons ha hp ih => exact IsPath.cons ha (ih h2)

/-- Paths are deterministic: an action list fixes its endpoint. -/
theorem IsPath.endpoint {inp : SearchInput} {s t₁ t₂ : Nat} {π : List GAction}
    (h1 : IsPath inp s π t₁) (h2 : IsPath inp s π t₂) : t₁ = t₂ := by
  induction π generalizing s with
  | nil =>
    cases h1
    cases h2
    rfl
  | cons a π ih =>
    cases h1 with
    | cons ha1 hp1 =>
      cases h2 with
      | cons ha2 hp2 => exact ih hp1 hp2

theorem IsPath.cost_nonneg {inp : SearchInput} (hc : CostOK inp) {s t : Nat}
    {π : List GAction} (h : IsPath inp s π t) : 0 ≤ pathCost π := by
  induction h with
  | nil => simp [pathCost_nil]
  | cons ha hp ih =>
    rw [pathCost_cons]
    have := hc _ _ ha
    linarith

theorem NDPath.isPath {inp : SearchInput} {s t : Nat} {π : List GAction}
    (h : NDPath inp s π t) : IsPath inp s π t := by
  induction h with
  | nil => exact IsPath.nil _
  | cons hs ha hp ih => exact IsPath.cons ha ih

theorem NDPath.head_nondead {inp : SearchInput} {s t : Nat} {π : List GAction}
    (h : NDPath inp s π t) : inp.dead (inp.h s) = false := by
  cases h with
  | nil s hs => exact hs
  | cons hs ha hp => exact hs

theorem NDPath.last_nondead {inp : SearchInput} {s t : Nat} {π : List GAction}
    (h : NDPath inp s π t) : inp.dead (inp.h t) = false := by
  induction h with
  | nil s hs => exact hs
  | cons hs ha hp ih => exact ih

theorem NDPath.append_valid {inp : SearchInput} {s m t : Nat} {π₁ π₂ : List GAction}
    (h1 : NDPath inp s π₁ m) (h2 : NDPath inp m π₂ t) : NDPath inp s (π₁ ++ π₂) t := by
  induction h1 with
  | nil => exact h2
  | cons hs ha hp ih => exact NDPath.cons hs ha (ih h2)

theorem NDPath.snoc {inp : SearchInput} {s m : Nat} {π : List GAction} {a : GAction}
    (h1 : NDPath inp s π m) (ha : a ∈ inp.succs m) (ht : inp.dead (inp.h a.target) = false) :
    NDPath inp s (π ++ [a]) a.target := by
  refine h1.append_valid ?_
  exact NDPath.cons h1.last_nondead ha (NDPath.nil _ ht)

/-- Every path to a goal is dead-end free, by admissibility. -/
theorem ndpath_of_goal_path {inp : SearchInput} (hadm : Admissible inp)
    {s t : Nat} {π : List GAction} (h : IsPath inp s π t) (hg : inp.goal t = true) :
    NDPath inp s π t := by
  induction h with
  | nil s' =>
    exact NDPath.nil _ (hadm s' [] s' (IsPath.nil _) hg).1
  | @cons s' t' a π' ha hp ih =>
    refine NDPath.cons ?_ ha (ih hg)
    exact (hadm s' (a :: π') t' (IsPath.cons ha hp) hg).1

/-- Consistency telescopes along a dead-end-free path. -/
theorem consistent_telescope {inp : SearchInput} (hcons : Consistent inp)
    {s t : Nat} {π : List GAction} (h : NDPath inp s π t) :
    inp.h s ≤ pathCost π + inp.h t := by
  induction h with
  | nil => simp [pathCost_nil]
  | @cons s' t' a π' hs ha hp ih =>
    rw [pathCost_cons]
    have hstep := hcons s' a ha hs hp.head_nondead
    linarith

/-! ## C1: predecessor chains -/

/-- The predecessor chain of a frame: `ChainL frames i L π` says that
following predecessor links from frame `i` visits exactly the frames `L`
(starting with `i`) and collects the actions `π` (goal-to-initial order),
ending at a frame with no predecessor action. -/
inductive ChainL (frames : List Frame) : Nat → List Nat → List GAction → Prop
  | base (i : Nat) : (frames.getD i default).predAction = none → ChainL frames i [i] []
  | step (i : Nat) (a : GAction) (L : List Nat) (π : List GAction) :
      (frames.getD i default).predAction = some a →
      ChainL frames ((frames.getD i default).predIndex.toNat) L π →
      ChainL frames i (i :: L) (a :: π)

theorem ChainL.head_mem {frames : List Frame} {i : Nat} {L : List Nat} {π : List GAction}
    (h : ChainL frames i L π) : i ∈ L := by
  cases h with
  | base i hi => exact List.mem_singleton_self i
  | step i a L π hi hsub => exact List.mem_cons_self _ _

theorem ChainL.len_eq {frames : List Frame} {i : Nat} {L : List Nat} {π : List GAction}
    (h : ChainL frames i L π) : L.length = π.length + 1 := by
  induction h with
  | base i hi => rfl
  | step i a L π hi hsub ih => simp [ih]

theorem ChainL.unique {frames : List Frame} {i : Nat} {L₁ L₂ : List Nat}
    {π₁ π₂ : List GAction} (h1 : ChainL frames i L₁ π₁) (h2 : ChainL frames i L₂ π₂) :
    L₁ = L₂ ∧ π₁ = π₂ := by
  induction h1 generalizing L₂ π₂ with
  | base i hi =>
    cases h2 with
    | base _ _ => exact ⟨rfl, rfl⟩
    | step _ a _ _ ha _ => rw [hi] at ha; cases ha
  | step i a L π hi hsub ih =>
    cases h2 with
    | base _ hnone => rw [hi] at hnone; cases hnone
    | step _ a' L' π' ha' hsub' =>
      rw [hi] at ha'
      injection ha' with ha'
      subst ha'
      obtain ⟨hL, hπ⟩ := ih hsub'
      rw [hL, hπ]
      exact ⟨rfl, rfl⟩

/-- A chain survives any frame-list modification that keeps the predecessor
fields of its members. -/
theorem ChainL.congr {frames frames' : List Frame} {i : Nat} {L : List Nat}
    {π : List GAction} (h : ChainL frames i L π)
    (hsame : ∀ m ∈ L, (frames'.getD m default).predAction = (frames.getD m default).predAction ∧
      (frames'.getD m default).predIndex = (frames.getD m default).predIndex) :
    ChainL frames' i L π := by
  induction h with
  | base i hi =>
    refine ChainL.base i ?_
    rw [(hsame i (List.mem_singleton_self i)).1, hi]
  | step i a L π hi hsub ih =>
    have hi' := hsame i (List.mem_cons_self _ _)
    refine ChainL.step i a L π (by rw [hi'.1, hi]) ?_
    rw [hi'.2]
    exact ih (fun m hm => hsame m (List.mem_cons_of_mem _ hm))

/-- Along a chain, g-values are bounded by the g-value of the top frame,
provided every member's predecessor edge satisfies the local g-inequality
with a nonnegative cost. -/
theorem ChainL.g_le {frames : List Frame} {i : Nat} {L : List Nat} {π : List GAction}
    (h : ChainL frames i L π)
    (hedge : ∀ m ∈ L, ∀ b, (frames.getD m default).predAction = some b →
      (frames.getD ((frames.getD m default).predIndex.toNat) default).g_value + b.cost ≤
        (frames.getD m default).g_value ∧ 0 ≤ b.cost) :
    ∀ m ∈ L, (frames.getD m default).g_value ≤ (frames.getD i default).g_value := by
  induction h with
  | base i hi =>
    intro m hm
    rw [List.mem_singleton.mp hm]
  | step i a L π hi hsub ih =>
    intro m hm
    rcases List.mem_cons.mp hm with rfl | hm'
    · exact le_refl _
    · have hstep := hedge i (List.mem_cons_self _ _) a hi
      have hsubedge : ∀ m' ∈ L, ∀ b, (frames.getD m' default).predAction = some b →
          (frames.getD ((frames.getD m' default).predIndex.toNat) default).g_value + b.cost ≤
            (frames.getD m' default).g_value ∧ 0 ≤ b.cost :=
        fun m' hm' => hedge m' (List.mem_cons_of_mem _ hm')
      have := ih hsubedge m hm'
      linarith [hstep.1, hstep.2]

/-- The reconstruction walk computes exactly the predecessor chain, given
enough fuel. -/
theorem walk_eq_chain {frames : List Frame} {i : Nat} {L : List Nat} {π : List GAction}
    (h : ChainL frames i L π) :
    ∀ fuel, π.length < fuel → walk frames fuel (frames.getD i default) = π := by
  induction h with
  | base i hi =>
    intro fuel hf
    cases fuel with
    | zero => omega
    | succ fuel =>
      unfold walk
      rw [hi]
  | step i a L π hi hsub ih =>
    intro fuel hf
    cases fuel with
    | zero => omega
    | succ fuel =>
      unfold walk
      rw [hi]
      simp only [List.length_cons] at hf
      rw [ih fuel (by omega)]

/-- The full per-frame chain property carried by the search invariant: a
duplicate-free, in-bounds predecessor chain whose reversed action list is a
real path from the initial state to the frame's state, of cost at most the
frame's g-value. -/
def ChainBundle (inp : SearchInput) (frames : List Frame) (i : Nat) : Prop :=
  ∃ L π, ChainL frames i L π ∧ L.Nodup ∧ (∀ j ∈ L, 1 ≤ j ∧ j < frames.length) ∧
    (∀ s, (frames.getD i default).state = some s → IsPath inp inp.init π.reverse s) ∧
    pathCost π ≤ (frames.getD i default).g_value

/-! ## C1: the search invariant -/

/-- All the listed actions of state `s` have been relaxed: their successor
states have frames, whose g-values are bounded by (any dead-end-free path
cost to `s`) plus the action cost.  This is the per-edge consequence of
having expanded a frame for `s`. -/
def EdgesDone (inp : SearchInput) (st : EState) (s : Nat) (acts : List GAction) : Prop :=
  ∀ a ∈ acts, st.stateIndices a.target ≠ 0 ∧
    ∀ π, NDPath inp inp.init π s →
      (st.frames.getD (st.stateIndices a.target) default).g_value ≤ pathCost π + a.cost

/-- The main-loop invariant of the A* search, holding at the top of every
iteration after the first (initial-state) expansion.  `N` bounds the state
space. -/
structure InvBase (inp : SearchInput) (N : Nat) (st : EState) : Prop where
  len2 : 2 ≤ st.frames.length
  state0 : (st.frames.getD 0 default).state = none
  state1 : (st.frames.getD 1 default).state = some inp.init
  g1 : (st.frames.getD 1 default).g_value = 0
  closed1 : (st.frames.getD 1 default).closed = true
  idx_init : st.stateIndices inp.init = 1
  idx_lt : ∀ s, st.stateIndices s < st.frames.length
  idx_state : ∀ s, st.stateIndices s ≠ 0 →
    (st.frames.getD (st.stateIndices s) default).state = some s
  state_idx : ∀ i, 1 ≤ i → i < st.frames.length →
    ∀ s, (st.frames.getD i default).state = some s → st.stateIndices s = i
  state_some : ∀ i, 1 ≤ i → i < st.frames.length →
    ∃ s, (st.frames.getD i default).state = some s ∧ s < N
  hval : ∀ i, 1 ≤ i → i < st.frames.length →
    ∀ s, (st.frames.getD i default).state = some s →
    (st.frames.getD i default).h_value = inp.h s
  g_nonneg : ∀ i, i < st.frames.length → 0 ≤ (st.frames.getD i default).g_value
  ol_sorted : st.ol.Pairwise (fun e e' => e.2 ≤ e'.2)
  ol_idx : ∀ e ∈ st.ol, 1 ≤ e.1 ∧ e.1 < st.frames.length
  ol_lb : ∀ e ∈ st.ol,
    (st.frames.getD e.1 default).g_value + (st.frames.getD e.1 default).h_value ≤ e.2
  open_cover : ∀ i, 1 ≤ i → i < st.frames.length →
    (st.frames.getD i default).closed = false →
    ∃ e ∈ st.ol, e.1 = i ∧
      e.2 ≤ (st.frames.getD i default).g_value + (st.frames.getD i default).h_value
  unclosed_nondead : ∀ i, 1 ≤ i → i < st.frames.length →
    (st.frames.getD i default).closed = false →
    ∀ s, (st.frames.getD i default).state = some s → inp.dead (inp.h s) = false
  closed_not_goal : ∀ i, 1 ≤ i → i < st.frames.length →
    (st.frames.getD i default).closed = true →
    ∀ s, (st.frames.getD i default).state = some s → inp.goal s = false
  closed_opt : ∀ i, 1 ≤ i → i < st.frames.length →
    (st.frames.getD i default).closed = true →
    ∀ s, (st.frames.getD i default).state = some s →
    ∀ π, NDPath inp inp.init π s → (st.frames.getD i default).g_value ≤ pathCost π
  gchain : ∀ i, 1 ≤ i → i < st.frames.length →
    ∀ b, (st.frames.getD i default).predAction = some b →
    1 ≤ (st.frames.getD i default).predIndex.toNat ∧
    (st.frames.getD i default).predIndex.toNat < st.frames.length ∧
    (st.frames.getD ((st.frames.getD i default).predIndex.toNat) default).g_value + b.cost ≤
      (st.frames.getD i default).g_value ∧ 0 ≤ b.cost
  chains : ∀ i, 1 ≤ i → i < st.frames.length → ChainBundle inp st.frames i

/-- The full invariant: the base invariant plus the guarantee that every
closed dead-end-free frame has had all its outgoing edges relaxed. -/
structure AStarInv (inp : SearchInput) (N : Nat) (st : EState)
    extends InvBase inp N st : Prop where
  closed_edges : ∀ i, 1 ≤ i → i < st.frames.length →
    (st.frames.getD i default).closed = true →
    ∀ s, (st.frames.getD i default).state = some s → inp.dead (inp.h s) = false →
    EdgesDone inp st s (inp.succs s)

/-! ## C1: open-list order and the termination measure -/

theorem olInsert_length (i : Nat) (p : ℚ) (l : List (Nat × ℚ)) :
    (olInsert i p l).length = l.length + 1 := by
  induction l with
  | nil => rfl
  | cons x xs ih =>
    unfold olInsert
    split
    · simp [ih]
    · simp

theorem olInsert_self_mem (i : Nat) (p : ℚ) (l : List (Nat × ℚ)) :
    (i, p) ∈ olInsert i p l := by
  induction l with
  | nil => exact List.mem_singleton_self _
  | cons x xs ih =>
    unfold olInsert
    split
    · exact List.mem_cons_of_mem _ ih
    · exact List.mem_cons_self _ _

theorem olInsert_sorted (i : Nat) (p : ℚ) (l : List (Nat × ℚ))
    (h : l.Pairwise (fun e e' => e.2 ≤ e'.2)) :
    (olInsert i p l).Pairwise (fun e e' => e.2 ≤ e'.2) := by
  induction l with
  | nil => exact List.pairwise_singleton _ _
  | cons x xs ih =>
    rcases List.pairwise_cons.mp h with ⟨hx, hxs⟩
    unfold olInsert
    split
    · refine List.pairwise_cons.mpr ⟨?_, ih hxs⟩
      intro e he
      rcases mem_olInsert _ _ _ _ he with hold | rfl
      · exact hx e hold
      · assumption
    · rename_i hxp
      refine List.pairwise_cons.mpr ⟨?_, h⟩
      intro e he
      rcases List.mem_cons.mp he with rfl | hold
      · linarith
      · have := hx e hold
        linarith

/-- A state is covered by a closed frame. -/
def closedState (st : EState) (s : Nat) : Bool :=
  (List.range st.frames.length).any (fun i =>
    ((st.frames.getD i default).state == some s) && (st.frames.getD i default).closed)

theorem closedState_iff (st : EState) (s : Nat) : closedState st s = true ↔
    ∃ i, i < st.frames.length ∧ (st.frames.getD i default).state = some s ∧
      (st.frames.getD i default).closed = true := by
  unfold closedState
  rw [List.any_eq_true]
  constructor
  · rintro ⟨i, hi, hp⟩
    rw [Bool.and_eq_true, beq_iff_eq] at hp
    exact ⟨i, List.mem_range.mp hi, hp.1, hp.2⟩
  · rintro ⟨i, hi, hs, hc⟩
    refine ⟨i, List.mem_range.mpr hi, ?_⟩
    rw [Bool.and_eq_true, beq_iff_eq]
    exact ⟨hs, hc⟩

/-- One plus the out-degree of a state: its contribution to the termination
measure while no closed frame covers it. -/
def degPlus (inp : SearchInput) (s : Nat) : Nat := 1 + (inp.succs s).length

/-- The termination measure: open-list length plus the total remaining work
of all states not yet covered by a closed frame. -/
def Phi (inp : SearchInput) (N : Nat) (st : EState) : Nat :=
  st.ol.length + ∑ s ∈ Finset.range N, (if closedState st s then 0 else degPlus inp s)

/-- `closedState` is monotone under frame-list transformations that keep
states and only strengthen `closed`. -/
theorem closedState_mono (st st' : EState)
    (hlen : st.frames.length ≤ st'.frames.length)
    (hfields : ∀ i, i < st.frames.length →
      (st'.frames.getD i default).state = (st.frames.getD i default).state ∧
      ((st.frames.getD i default).closed = true → (st'.frames.getD i default).closed = true))
    (s : Nat) (h : closedState st s = true) : closedState st' s = true := by
  rw [closedState_iff] at h ⊢
  obtain ⟨i, hi, hs, hc⟩ := h
  exact ⟨i, by omega, by rw [(hfields i hi).1]; exact hs, (hfields i hi).2 hc⟩

/-- The branch-uniform bound: one `applyAction` adds at most one open-list
entry. -/
theorem applyAction_ol_len (inp : SearchInput) (index : Nat) (st : EState) (a : GAction) :
    (applyAction inp index st a).ol.length ≤ st.ol.length + 1 := by
  unfold applyAction
  dsimp only
  split
  · split
    · simp
    · simp [olInsert_length]
  · split
    · split
      · simp
      · simp [olInsert_length]
    · simp

/-- Strengthening the closed-cover only shrinks a state's measure term. -/
theorem ite_deg_mono (b b' : Bool) (d : Nat) (himp : b = true → b' = true) :
    (if b' then 0 else d) ≤ (if b then 0 else d) := by
  cases b
  · cases b' <;> simp
  · simp [himp rfl]

/-- One `applyAction` increases the termination measure by at most one. -/
theorem Phi_applyAction_le (inp : SearchInput) (N : Nat) (index : Nat) (st : EState)
    (a : GAction) : Phi inp N (applyAction inp index st a) ≤ Phi inp N st + 1 := by
  unfold Phi
  have hol := applyAction_ol_len inp index st a
  have hsum : ∑ s ∈ Finset.range N, (if closedState (applyAction inp index st a) s then 0 else degPlus inp s) ≤
      ∑ s ∈ Finset.range N, (if closedState st s then 0 else degPlus inp s) := by
    refine Finset.sum_le_sum ?_
    intro s hs
    refine ite_deg_mono _ _ _ ?_
    intro hcs
    refine closedState_mono st _ (applyAction_length_le inp index st a) ?_ s hcs
    intro i hi
    have hf := applyAction_frame_fields inp index st a i hi
    exact ⟨hf.2.1, fun hcc => by rw [hf.1]; exact hcc⟩
  omega

theorem Phi_foldl_le (inp : SearchInput) (N : Nat) (index : Nat) (l : List GAction)
    (st : EState) : Phi inp N (l.foldl (applyAction inp index) st) ≤ Phi inp N st + l.length := by
  induction l generalizing st with
  | nil => simp
  | cons a l ih =>
    simp only [List.foldl_cons, List.length_cons]
    have h1 := Phi_applyAction_le inp N index st a
    have h2 := ih (applyAction inp index st a)
    omega

/-- Accepting an unclosed frame whose state is in range removes that state's
contribution from the termination measure. -/
theorem Phi_accept_drop (inp : SearchInput) (N : Nat) (st : EState) (i0 s0 : Nat)
    (hi0 : i0 < st.frames.length)
    (hs : (st.frames.getD i0 default).state = some s0) (hsN : s0 < N)
    (hc : (st.frames.getD i0 default).closed = false)
    (huniq : ∀ i, i < st.frames.length → (st.frames.getD i default).state = some s0 →
      (st.frames.getD i default).closed = true → False) :
    Phi inp N (acceptFrame i0 st) + degPlus inp s0 ≤ Phi inp N st := by
  unfold Phi
  have holen : (acceptFrame i0 st).ol.length = st.ol.length := by
    rw [(acceptFrame_basic i0 st).1]
  have hlen : (acceptFrame i0 st).frames.length = st.frames.length := by
    rw [acceptFrame_frames]
    exact List.length_set _ _ _
  have hcls0 : closedState st s0 = false := by
    rcases hcc : closedState st s0 with _ | _
    · rfl
    · obtain ⟨i, hi, his, hicl⟩ := (closedState_iff st s0).mp hcc
      exact absurd (huniq i hi his hicl) not_false
  have hcls0' : closedState (acceptFrame i0 st) s0 = true := by
    rw [closedState_iff]
    refine ⟨i0, by omega, ?_, ?_⟩
    · rw [acceptFrame_closed_getD i0 i0 st hi0, if_pos rfl]
      exact hs
    · rw [acceptFrame_closed_getD i0 i0 st hi0, if_pos rfl]
  have hpoint : ∀ s ∈ Finset.range N,
      (if closedState (acceptFrame i0 st) s then 0 else degPlus inp s) ≤
      (if closedState st s then 0 else degPlus inp s) := by
    intro s hsr
    refine ite_deg_mono _ _ _ ?_
    intro hcc
    refine closedState_mono st _ (by omega) ?_ s hcc
    intro i hi
    rw [acceptFrame_closed_getD i0 i st hi0]
    by_cases hii : i0 = i
    · rw [if_pos hii]
      exact ⟨rfl, fun _ => rfl⟩
    · rw [if_neg hii]
      exact ⟨rfl, fun h => h⟩
  have hs0mem : s0 ∈ Finset.range N := Finset.mem_range.mpr hsN
  have hdrop : (∑ s ∈ Finset.range N, (if closedState (acceptFrame i0 st) s then 0 else degPlus inp s))
      + degPlus inp s0 ≤
      ∑ s ∈ Finset.range N, (if closedState st s then 0 else degPlus inp s) := by
    have e1 : (if closedState (acceptFrame i0 st) s0 then 0 else degPlus inp s0) = 0 := by
      rw [hcls0']
      simp
    have e2 : (if closedState st s0 then 0 else degPlus inp s0) = degPlus inp s0 := by
      rw [hcls0]
      simp
    have hrest : ∑ s ∈ (Finset.range N).erase s0,
        (if closedState (acceptFrame i0 st) s then 0 else degPlus inp s) ≤
        ∑ s ∈ (Finset.range N).erase s0, (if closedState st s then 0 else degPlus inp s) :=
      Finset.sum_le_sum (fun s hsr => hpoint s (Finset.mem_of_mem_erase hsr))
    rw [← Finset.add_sum_erase _ _ hs0mem,
      ← Finset.add_sum_erase _ (fun s => if closedState st s then 0 else degPlus inp s) hs0mem,
      e1, e2]
    omega
  omega

/-! ## C1: the frontier argument -/

/-- The frontier lemma: walking a dead-end-free path from a state with a
closed frame towards a state with no closed frame, some open-list entry
bounds the path's f-value.  `π₀` is a dead-end-free path from the initial
state to the walk's start. -/
theorem astar_frontier (inp : SearchInput) (N : Nat) (st : EState) (hinv : AStarInv inp N st)
    (hcons : Consistent inp) :
    ∀ (π : List GAction) (x s : Nat), NDPath inp x π s →
      (st.stateIndices x ≠ 0 ∧ (st.frames.getD (st.stateIndices x) default).closed = true) →
      ∀ π₀, NDPath inp inp.init π₀ x →
      ¬ (st.stateIndices s ≠ 0 ∧ (st.frames.getD (st.stateIndices s) default).closed = true) →
      ∃ e ∈ st.ol, e.2 ≤ pathCost π₀ + pathCost π + inp.h s := by
  intro π
  induction π with
  | nil =>
    intro x s hpath hcx π₀ hπ₀ hcs
    cases hpath
    exact absurd hcx hcs
  | cons a π' ih =>
    intro x s hpath hcx π₀ hπ₀ hcs
    cases hpath with
    | cons hxnd ha hsub =>
      have hix0 : st.stateIndices x ≠ 0 := hcx.1
      have hix1 : 1 ≤ st.stateIndices x := Nat.one_le_iff_ne_zero.mpr hix0
      have hixlt : st.stateIndices x < st.frames.length := hinv.idx_lt x
      have hstates : (st.frames.getD (st.stateIndices x) default).state = some x :=
        hinv.idx_state x hix0
      have hedges := hinv.closed_edges (st.stateIndices x) hix1 hixlt hcx.2 x hstates hxnd
      obtain ⟨hu0, hubound⟩ := hedges a ha
      have hu1 : 1 ≤ st.stateIndices a.target := Nat.one_le_iff_ne_zero.mpr hu0
      have hult : st.stateIndices a.target < st.frames.length := hinv.idx_lt a.target
      have hustate : (st.frames.getD (st.stateIndices a.target) default).state = some a.target :=
        hinv.idx_state a.target hu0
      have hgub : (st.frames.getD (st.stateIndices a.target) default).g_value ≤
          pathCost π₀ + a.cost := hubound π₀ hπ₀
      rcases hclosed₁ : (st.frames.getD (st.stateIndices a.target) default).closed with _ | _
      · -- the successor's frame is still open: it is covered by an entry
        obtain ⟨e, he, heq, hebound⟩ :=
          hinv.open_cover (st.stateIndices a.target) hu1 hult hclosed₁
        have hh : (st.frames.getD (st.stateIndices a.target) default).h_value =
            inp.h a.target := hinv.hval _ hu1 hult _ hustate
        have htel : inp.h a.target ≤ pathCost π' + inp.h s := consistent_telescope hcons hsub
        refine ⟨e, he, ?_⟩
        rw [pathCost_cons]
        rw [hh] at hebound
        linarith
      · -- the successor's frame is closed: advance the walk
        have hsnoc : NDPath inp inp.init (π₀ ++ [a]) a.target :=
          hπ₀.snoc ha hsub.head_nondead
        obtain ⟨e, he, hebound⟩ := ih a.target s hsub ⟨hu0, hclosed₁⟩ (π₀ ++ [a]) hsnoc hcs
        refine ⟨e, he, ?_⟩
        rw [pathCost_append] at hebound
        rw [pathCost_cons]
        simp only [pathCost_cons, pathCost_nil] at hebound
        linarith

/-- When an unclosed frame is popped from the head of the (sorted) open
list, its g-value is optimal among dead-end-free paths to its state. -/
theorem pop_opt (inp : SearchInput) (N : Nat) (st : EState) (hinv : AStarInv inp N st)
    (hcons : Consistent inp) (i0 : Nat) (q0 : ℚ) (rest : List (Nat × ℚ))
    (hol : st.ol = (i0, q0) :: rest)
    (hc : (st.frames.getD i0 default).closed = false)
    (s0 : Nat) (hs : (st.frames.getD i0 default).state = some s0) :
    ∀ π, NDPath inp inp.init π s0 → (st.frames.getD i0 default).g_value ≤ pathCost π := by
  intro π hπ
  have hhead : ((i0, q0) : Nat × ℚ) ∈ st.ol := by rw [hol]; exact List.mem_cons_self _ _
  obtain ⟨hi1, hilt⟩ := hinv.ol_idx _ hhead
  have hsidx : st.stateIndices s0 = i0 := hinv.state_idx i0 hi1 hilt s0 hs
  have hnotc : ¬ (st.stateIndices s0 ≠ 0 ∧
      (st.frames.getD (st.stateIndices s0) default).closed = true) := by
    rintro ⟨h1, h2⟩
    rw [hsidx] at h2
    rw [h2] at hc
    cases hc
  have hcinit : st.stateIndices inp.init ≠ 0 ∧
      (st.frames.getD (st.stateIndices inp.init) default).closed = true := by
    rw [hinv.idx_init]
    exact ⟨one_ne_zero, hinv.closed1⟩
  obtain ⟨e, he, hebound⟩ := astar_frontier inp N st hinv hcons π inp.init s0 hπ hcinit []
    (NDPath.nil _ hπ.head_nondead) hnotc
  have hsorted : ((i0, q0) :: rest).Pairwise (fun e e' => e.2 ≤ e'.2) := by
    rw [← hol]
    exact hinv.ol_sorted
  have hmin : q0 ≤ e.2 := by
    rw [hol] at he
    rcases List.mem_cons.mp he with rfl | hrest
    · exact le_refl _
    · exact (List.pairwise_cons.mp hsorted).1 e hrest
  have hlb := hinv.ol_lb _ hhead
  have hh : (st.frames.getD i0 default).h_value = inp.h s0 := hinv.hval i0 hi1 hilt s0 hs
  rw [pathCost_nil] at hebound
  rw [hh] at hlb
  dsimp only at hlb
  linarith

/-- When an unclosed frame is popped from the head of the open list, its
g-value is also a lower bound for every path to every goal state. -/
theorem pop_opt_goal (inp : SearchInput) (N : Nat) (st : EState) (hinv : AStarInv inp N st)
    (hcons : Consistent inp) (hadm : Admissible inp) (hnn : HNonneg inp)
    (i0 : Nat) (q0 : ℚ) (rest : List (Nat × ℚ)) (hol : st.ol = (i0, q0) :: rest)
    (hc : (st.frames.getD i0 default).closed = false)
    (s0 : Nat) (hs : (st.frames.getD i0 default).state = some s0) :
    ∀ t π, IsPath inp inp.init π t → inp.goal t = true →
      (st.frames.getD i0 default).g_value ≤ pathCost π := by
  intro t π hπ hg
  have hnd : NDPath inp inp.init π t := ndpath_of_goal_path hadm hπ hg
  have hhead : ((i0, q0) : Nat × ℚ) ∈ st.ol := by rw [hol]; exact List.mem_cons_self _ _
  obtain ⟨hi1, hilt⟩ := hinv.ol_idx _ hhead
  have hnotct : ¬ (st.stateIndices t ≠ 0 ∧
      (st.frames.getD (st.stateIndices t) default).closed = true) := by
    rintro ⟨h1, h2⟩
    have hstate := hinv.idx_state t h1
    have hng := hinv.closed_not_goal (st.stateIndices t) (Nat.one_le_iff_ne_zero.mpr h1)
      (hinv.idx_lt t) h2 t hstate
    rw [hng] at hg
    cases hg
  have hcinit : st.stateIndices inp.init ≠ 0 ∧
      (st.frames.getD (st.stateIndices inp.init) default).closed = true := by
    rw [hinv.idx_init]
    exact ⟨one_ne_zero, hinv.closed1⟩
  obtain ⟨e, he, hebound⟩ := astar_frontier inp N st hinv hcons π inp.init t hnd hcinit []
    (NDPath.nil _ hnd.head_nondead) hnotct
  have hsorted : ((i0, q0) :: rest).Pairwise (fun e e' => e.2 ≤ e'.2) := by
    rw [← hol]
    exact hinv.ol_sorted
  have hmin : q0 ≤ e.2 := by
    rw [hol] at he
    rcases List.mem_cons.mp he with rfl | hrest
    · exact le_refl _
    · exact (List.pairwise_cons.mp hsorted).1 e hrest
  have hlb := hinv.ol_lb _ hhead
  have hh : (st.frames.getD i0 default).h_value = inp.h s0 := hinv.hval i0 hi1 hilt s0 hs
  have hs0nd : inp.dead (inp.h s0) = false := hinv.unclosed_nondead i0 hi1 hilt hc s0 hs
  have hs0nn : 0 ≤ inp.h s0 := hnn s0 hs0nd
  have htnd := (hadm t [] t (IsPath.nil t) hg).1
  have htle := (hadm t [] t (IsPath.nil t) hg).2
  rw [pathCost_nil] at htle
  have htnn := hnn t htnd
  have ht0 : inp.h t = 0 := le_antisymm htle htnn
  rw [pathCost_nil, ht0] at hebound
  rw [hh] at hlb
  dsimp only at hlb
  linarith

/-- With the invariant and an empty open list, no goal is reachable. -/
theorem empty_unreachable (inp : SearchInput) (N : Nat) (st : EState)
    (hinv : AStarInv inp N st) (hcons : Consistent inp) (hadm : Admissible inp)
    (hol : st.ol = []) : ¬ GoalReachable inp := by
  rintro ⟨t, π, hπ, hg⟩
  have hnd : NDPath inp inp.init π t := ndpath_of_goal_path hadm hπ hg
  have hnotct : ¬ (st.stateIndices t ≠ 0 ∧
      (st.frames.getD (st.stateIndices t) default).closed = true) := by
    rintro ⟨h1, h2⟩
    have hstate := hinv.idx_state t h1
    have hng := hinv.closed_not_goal (st.stateIndices t) (Nat.one_le_iff_ne_zero.mpr h1)
      (hinv.idx_lt t) h2 t hstate
    rw [hng] at hg
    cases hg
  have hcinit : st.stateIndices inp.init ≠ 0 ∧
      (st.frames.getD (st.stateIndices inp.init) default).closed = true := by
    rw [hinv.idx_init]
    exact ⟨one_ne_zero, hinv.closed1⟩
  obtain ⟨e, he, _⟩ := astar_frontier inp N st hinv hcons π inp.init t hnd hcinit []
    (NDPath.nil _ hnd.head_nondead) hnotct
  rw [hol] at he
  cases he

/-! ## C1: chain preservation and rebuilding -/

theorem IsPath.snoc_inv {inp : SearchInput} {s t : Nat} {π : List GAction} {a : GAction}
    (h : IsPath inp s (π ++ [a]) t) :
    ∃ m, IsPath inp s π m ∧ a ∈ inp.succs m ∧ a.target = t := by
  induction π generalizing s with
  | nil =>
    cases h with
    | cons ha hp =>
      cases hp
      exact ⟨s, IsPath.nil s, ha, rfl⟩
  | cons b π ih =>
    cases h with
    | cons hb hp =>
      obtain ⟨m, hm, ham, hat⟩ := ih hp
      exact ⟨m, IsPath.cons hb hm, ham, hat⟩

/-- Chain bundles survive frame-list modifications that keep the predecessor
link, state and g-value of all old frames (appending and closing do). -/
theorem ChainBundle_congr (inp : SearchInput) (frames frames' : List Frame) (i : Nat)
    (hlen : frames.length ≤ frames'.length)
    (hsame : ∀ m, m < frames.length →
      (frames'.getD m default).predAction = (frames.getD m default).predAction ∧
      (frames'.getD m default).predIndex = (frames.getD m default).predIndex ∧
      (frames'.getD m default).state = (frames.getD m default).state ∧
      (frames'.getD m default).g_value = (frames.getD m default).g_value)
    (h : ChainBundle inp frames i) : ChainBundle inp frames' i := by
  obtain ⟨L, π, hchain, hnd, hbounds, hpath, hcost⟩ := h
  have hi : i ∈ L := hchain.head_mem
  have hilt : i < frames.length := (hbounds i hi).2
  refine ⟨L, π, ?_, hnd, ?_, ?_, ?_⟩
  · exact hchain.congr (fun m hm => ⟨(hsame m (hbounds m hm).2).1, (hsame m (hbounds m hm).2).2.1⟩)
  · intro j hj
    exact ⟨(hbounds j hj).1, by have := (hbounds j hj).2; omega⟩
  · intro s hs
    rw [(hsame i hilt).2.2.1] at hs
    exact hpath s hs
  · rw [(hsame i hilt).2.2.2]
    exact hcost

/-- The chain bundle of a freshly allocated successor frame. -/
theorem ChainBundle_new (inp : SearchInput) (frames : List Frame) (parent : Nat)
    (a : GAction) (s0 : Nat)
    (hpb : 1 ≤ parent) (hplt : parent < frames.length)
    (hparent : ChainBundle inp frames parent)
    (hpstate : (frames.getD parent default).state = some s0)
    (ha : a ∈ inp.succs s0) :
    ChainBundle inp (frames ++ [newFrameFor inp parent a (frames.getD parent default)])
      frames.length := by
  obtain ⟨L, π, hchain, hnd, hbounds, hpath, hcost⟩ := hparent
  have htrans : ChainL (frames ++ [newFrameFor inp parent a (frames.getD parent default)])
      parent L π := by
    refine hchain.congr ?_
    intro m hm
    rw [getD_append_lt _ _ _ (hbounds m hm).2]
    exact ⟨rfl, rfl⟩
  have hgetnew : (frames ++ [newFrameFor inp parent a (frames.getD parent default)]).getD
      frames.length default = newFrameFor inp parent a (frames.getD parent default) :=
    getD_append_len _ _
  refine ⟨frames.length :: L, a :: π, ?_, ?_, ?_, ?_, ?_⟩
  · refine ChainL.step _ a L π ?_ ?_
    · rw [hgetnew]
      rfl
    · rw [hgetnew]
      have : (newFrameFor inp parent a (frames.getD parent default)).predIndex.toNat = parent := by
        unfold newFrameFor
        simp
      rw [this]
      exact htrans
  · refine List.nodup_cons.mpr ⟨?_, hnd⟩
    intro hmem
    exact absurd (hbounds _ hmem).2 (by omega)
  · intro j hj
    rcases List.mem_cons.mp hj with rfl | hj'
    · constructor
      · omega
      · simp
    · have := hbounds j hj'
      constructor
      · omega
      · simp
        omega
  · intro s hs
    rw [hgetnew] at hs
    have hsa : s = a.target := by
      unfold newFrameFor at hs
      injection hs with hs
      exact hs.symm
    subst hsa
    simp only [List.reverse_cons]
    exact (hpath s0 hpstate).append_path (IsPath.cons ha (IsPath.nil _))
  · rw [hgetnew]
    unfold newFrameFor
    dsimp only
    rw [pathCost_cons]
    linarith

/-- Rebuilding all predecessor chains after the in-place improvement of frame
`u` to point at `parent` via action `a`.  The primed frame list `frames'`
agrees with `frames` everywhere except at `u`, whose predecessor fields now
point at `parent` and whose g-value dropped to `g(parent) + a.cost`. -/
theorem chain_rebuild_main (inp : SearchInput) (frames frames' : List Frame)
    (u parent : Nat) (a : GAction)
    (hpb : 1 ≤ parent) (hplt : parent < frames.length)
    (hann : 0 ≤ a.cost)
    (himp : (frames.getD parent default).g_value + a.cost < (frames.getD u default).g_value)
    (hlen' : frames'.length = frames.length)
    (hfu_pred : (frames'.getD u default).predAction = some a)
    (hfu_idx : (frames'.getD u default).predIndex.toNat = parent)
    (hfu_g : (frames'.getD u default).g_value =
      (frames.getD parent default).g_value + a.cost)
    (hfu_state : (frames'.getD u default).state = (frames.getD u default).state)
    (hne : ∀ m, m ≠ u → frames'.getD m default = frames.getD m default)
    (hgch : ∀ i, 1 ≤ i → i < frames.length →
      ∀ b, (frames.getD i default).predAction = some b →
      1 ≤ (frames.getD i default).predIndex.toNat ∧
      (frames.getD i default).predIndex.toNat < frames.length ∧
      (frames.getD ((frames.getD i default).predIndex.toNat) default).g_value + b.cost ≤
        (frames.getD i default).g_value ∧ 0 ≤ b.cost)
    (hstates : ∀ i, 1 ≤ i → i < frames.length →
      ∃ s, (frames.getD i default).state = some s)
    (hchAll : ∀ i, 1 ≤ i → i < frames.length → ChainBundle inp frames i)
    (L_p : List Nat) (π_p : List GAction)
    (pchain : ChainL frames parent L_p π_p) (pnd : L_p.Nodup)
    (pbounds : ∀ j ∈ L_p, 1 ≤ j ∧ j < frames.length)
    (ppath : ∀ s, (frames.getD parent default).state = some s →
      IsPath inp inp.init π_p.reverse s)
    (pcost : pathCost π_p ≤ (frames.getD parent default).g_value)
    (hunotp : u ∉ L_p)
    (hanew : ∀ s, (frames.getD parent default).state = some s → a ∈ inp.succs s)
    (hustate_target : (frames.getD u default).state = some a.target) :
    ∀ (i : Nat) (L : List Nat) (π : List GAction), ChainL frames i L π →
      1 ≤ i → i < frames.length → L.Nodup → (∀ j ∈ L, 1 ≤ j ∧ j < frames.length) →
      (∀ s, (frames.getD i default).state = some s → IsPath inp inp.init π.reverse s) →
      pathCost π ≤ (frames.getD i default).g_value →
      ∃ L' π', ChainL frames' i L' π' ∧ L'.Nodup ∧
        (∀ j ∈ L', 1 ≤ j ∧ j < frames.length) ∧
        (∀ m ∈ L', m ∈ L ∨ (u ∈ L ∧ (m = u ∨ m ∈ L_p))) ∧
        (∀ s, (frames'.getD i default).state = some s → IsPath inp inp.init π'.reverse s) ∧
        pathCost π' ≤ (frames'.getD i default).g_value := by
  have hg'_le : ∀ m, (frames'.getD m default).g_value ≤ (frames.getD m default).g_value := by
    intro m
    by_cases hm : m = u
    · subst hm
      rw [hfu_g]
      linarith
    · rw [hne m hm]
  have hbuild_u : ∀ (L : List Nat), u ∈ L → 1 ≤ u → u < frames.length →
      ∃ L' π', ChainL frames' u L' π' ∧ L'.Nodup ∧
        (∀ j ∈ L', 1 ≤ j ∧ j < frames.length) ∧
        (∀ m ∈ L', m ∈ L ∨ (u ∈ L ∧ (m = u ∨ m ∈ L_p))) ∧
        (∀ s, (frames'.getD u default).state = some s → IsPath inp inp.init π'.reverse s) ∧
        pathCost π' ≤ (frames'.getD u default).g_value := by
    intro L huL hu1 hult
    refine ⟨u :: L_p, a :: π_p, ?_, ?_, ?_, ?_, ?_, ?_⟩
    · refine ChainL.step u a L_p π_p hfu_pred ?_
      rw [hfu_idx]
      refine pchain.congr ?_
      intro m hm
      have : m ≠ u := fun h => hunotp (h ▸ hm)
      rw [hne m this]
      exact ⟨rfl, rfl⟩
    · exact List.nodup_cons.mpr ⟨hunotp, pnd⟩
    · intro j hj
      rcases List.mem_cons.mp hj with rfl | hj'
      · exact ⟨hu1, hult⟩
      · exact pbounds j hj'
    · intro m hm
      rcases List.mem_cons.mp hm with rfl | hm'
      · exact Or.inr ⟨huL, Or.inl rfl⟩
      · exact Or.inr ⟨huL, Or.inr hm'⟩
    · intro s hs
      rw [hfu_state, hustate_target] at hs
      injection hs with hs
      subst hs
      obtain ⟨sp, hsp⟩ := hstates parent hpb hplt
      simp only [List.reverse_cons]
      exact (ppath sp hsp).append_path (IsPath.cons (hanew sp hsp) (IsPath.nil _))
    · rw [hfu_g, pathCost_cons]
      linarith
  intro i L π h
  induction h with
  | base i hb =>
    intro hi1 hilt hnd hbounds hpath hcost
    by_cases hiu : i = u
    · subst hiu
      exact hbuild_u [i] (List.mem_singleton_self i) hi1 hilt
    · refine ⟨[i], [], ?_, List.nodup_singleton i, ?_, ?_, ?_, ?_⟩
      · exact ChainL.base i (by rw [hne i hiu, hb])
      · intro j hj
        rw [List.mem_singleton.mp hj]
        exact ⟨hi1, hilt⟩
      · intro m hm
        rw [List.mem_singleton.mp hm]
        exact Or.inl (List.mem_singleton_self i)
      · intro s hs
        rw [hne i hiu] at hs
        exact hpath s hs
      · rw [hne i hiu]
        exact hcost
  | step i act Lw πw hpredact hsub ih =>
    intro hi1 hilt hnd hbounds hpath hcost
    by_cases hiu : i = u
    · subst hiu
      exact hbuild_u (i :: Lw) (List.mem_cons_self _ _) hi1 hilt
    · obtain ⟨hw1, hwlt, hwg, hactnn⟩ := hgch i hi1 hilt act hpredact
      obtain ⟨Lw2, πw2, wchain, wnd, wbounds, wpath, wcost⟩ := hchAll _ hw1 hwlt
      obtain ⟨hLeq, hπeq⟩ := ChainL.unique wchain hsub
      rw [hLeq] at wnd wbounds
      rw [hπeq] at wpath wcost
      rw [hLeq, hπeq] at wchain
      obtain ⟨Lw', πw', wchain', wnd', wbounds', wmembers', wpath', wcost'⟩ :=
        ih hw1 hwlt wnd wbounds wpath wcost
      have hedge_i : ∀ m ∈ i :: Lw, ∀ b, (frames.getD m default).predAction = some b →
          (frames.getD ((frames.getD m default).predIndex.toNat) default).g_value + b.cost ≤
            (frames.getD m default).g_value ∧ 0 ≤ b.cost := by
        intro m hm b hb
        have hbm := hbounds m hm
        have := hgch m hbm.1 hbm.2 b hb
        exact ⟨this.2.2.1, this.2.2.2⟩
      have hchain_i : ChainL frames i (i :: Lw) (act :: πw) :=
        ChainL.step i act Lw πw hpredact hsub
      refine ⟨i :: Lw', act :: πw', ?_, ?_, ?_, ?_, ?_, ?_⟩
      · refine ChainL.step i act Lw' πw' ?_ ?_
        · rw [hne i hiu, hpredact]
        · rw [hne i hiu]
          exact wchain'
      · refine List.nodup_cons.mpr ⟨?_, wnd'⟩
        intro hmem
        rcases wmembers' i hmem with him | ⟨huLw, hm2⟩
        · exact absurd him (List.nodup_cons.mp hnd).1
        · rcases hm2 with rfl | hiLp
          · exact hiu rfl
          · -- i ∈ L_p together with u below i forces a cost contradiction
            have hgu_le : (frames.getD u default).g_value ≤ (frames.getD i default).g_value :=
              hchain_i.g_le hedge_i u (List.mem_cons_of_mem _ huLw)
            have hedge_p : ∀ m ∈ L_p, ∀ b, (frames.getD m default).predAction = some b →
                (frames.getD ((frames.getD m default).predIndex.toNat) default).g_value + b.cost ≤
                  (frames.getD m default).g_value ∧ 0 ≤ b.cost := by
              intro m hm b hb
              have hbm := pbounds m hm
              have := hgch m hbm.1 hbm.2 b hb
              exact ⟨this.2.2.1, this.2.2.2⟩
            have hgi_le : (frames.getD i default).g_value ≤
                (frames.getD parent default).g_value := pchain.g_le hedge_p i hiLp
            linarith
      · intro j hj
        rcases List.mem_cons.mp hj with rfl | hj'
        · exact ⟨hi1, hilt⟩
        · exact wbounds' j hj'
      · intro m hm
        rcases List.mem_cons.mp hm with rfl | hm'
        · exact Or.inl (List.mem_cons_self _ _)
        · rcases wmembers' m hm' with him | ⟨huLw, hm2⟩
          · exact Or.inl (List.mem_cons_of_mem _ him)
          · exact Or.inr ⟨List.mem_cons_of_mem _ huLw, hm2⟩
      · intro s hs
        rw [hne i hiu] at hs
        have hold := hpath s hs
        simp only [List.reverse_cons] at hold ⊢
        obtain ⟨mid, hmid, hactmem, htarget⟩ := hold.snoc_inv
        obtain ⟨sw, hsw⟩ := hstates _ hw1 hwlt
        have hmid_eq : mid = sw := hmid.endpoint (wpath sw hsw)
        rw [hmid_eq] at hactmem
        have hsw' : (frames'.getD ((frames.getD i default).predIndex.toNat) default).state =
            some sw := by
          by_cases hwu : (frames.getD i default).predIndex.toNat = u
          · rw [hwu, hfu_state, ← hwu]
            exact hsw
          · rw [hne _ hwu]
            exact hsw
        have := wpath' sw hsw'
        refine this.append_path (IsPath.cons ?_ ?_)
        · exact hactmem
        · rw [htarget]
          exact IsPath.nil s
      · rw [pathCost_cons, hne i hiu]
        have h1 : pathCost πw' ≤
            (frames'.getD ((frames.getD i default).predIndex.toNat) default).g_value := wcost'
        have h2 := hg'_le ((frames.getD i default).predIndex.toNat)
        linarith

/-- All chain bundles survive the in-place improvement of frame `u`. -/
theorem ChainBundle_improve (inp : SearchInput) (frames : List Frame) (u parent : Nat)
    (a : GAction) (s0 : Nat)
    (hpb : 1 ≤ parent) (hplt : parent < frames.length)
    (hub : 1 ≤ u) (hult : u < frames.length)
    (hann : 0 ≤ a.cost)
    (hpstate : (frames.getD parent default).state = some s0)
    (ha : a ∈ inp.succs s0)
    (hustate : (frames.getD u default).state = some a.target)
    (himp : (frames.getD parent default).g_value + a.cost <
      (frames.getD u default).g_value)
    (hgch : ∀ i, 1 ≤ i → i < frames.length →
      ∀ b, (frames.getD i default).predAction = some b →
      1 ≤ (frames.getD i default).predIndex.toNat ∧
      (frames.getD i default).predIndex.toNat < frames.length ∧
      (frames.getD ((frames.getD i default).predIndex.toNat) default).g_value + b.cost ≤
        (frames.getD i default).g_value ∧ 0 ≤ b.cost)
    (hstates : ∀ i, 1 ≤ i → i < frames.length →
      ∃ s, (frames.getD i default).state = some s)
    (hchAll : ∀ i, 1 ≤ i → i < frames.length → ChainBundle inp frames i) :
    ∀ i, 1 ≤ i → i < frames.length →
      ChainBundle inp
        (frames.set u (improveFrame parent a (frames.getD parent default)
          (frames.getD u default))) i := by
  have hget_u : (frames.set u (improveFrame parent a (frames.getD parent default)
      (frames.getD u default))).getD u default =
      improveFrame parent a (frames.getD parent default) (frames.getD u default) :=
    getD_set_self _ _ _ hult
  have hne : ∀ m, m ≠ u → (frames.set u (improveFrame parent a (frames.getD parent default)
      (frames.getD u default))).getD m default = frames.getD m default := by
    intro m hm
    exact getD_set_ne _ _ _ _ (fun h => hm h.symm)
  obtain ⟨L_p, π_p, pchain, pnd, pbounds, ppath, pcost⟩ := hchAll parent hpb hplt
  have hedge_p : ∀ m ∈ L_p, ∀ b, (frames.getD m default).predAction = some b →
      (frames.getD ((frames.getD m default).predIndex.toNat) default).g_value + b.cost ≤
        (frames.getD m default).g_value ∧ 0 ≤ b.cost := by
    intro m hm b hb
    have hbm := pbounds m hm
    have := hgch m hbm.1 hbm.2 b hb
    exact ⟨this.2.2.1, this.2.2.2⟩
  have hunotp : u ∉ L_p := by
    intro hmem
    have := pchain.g_le hedge_p u hmem
    linarith
  have hanew : ∀ s, (frames.getD parent default).state = some s → a ∈ inp.succs s := by
    intro s hs
    rw [hpstate] at hs
    injection hs with hs
    subst hs
    exact ha
  have hmain := chain_rebuild_main inp frames
    (frames.set u (improveFrame parent a (frames.getD parent default)
      (frames.getD u default))) u parent a hpb hplt hann himp
    (List.length_set _ _ _) (by rw [hget_u]; rfl) (by rw [hget_u]; simp [improveFrame])
    (by rw [hget_u]; rfl) (by rw [hget_u]; rfl) hne hgch hstates hchAll
    L_p π_p pchain pnd pbounds ppath pcost hunotp hanew hustate
  intro i hi1 hilt
  obtain ⟨L, π, hchain, hnd, hbounds, hpath, hcost⟩ := hchAll i hi1 hilt
  obtain ⟨L', π', hchain', hnd', hbounds', _, hpath', hcost'⟩ :=
    hmain i L π hchain hi1 hilt hnd hbounds hpath hcost
  refine ⟨L', π', hchain', hnd', ?_, hpath', hcost'⟩
  intro j hj
  have := hbounds' j hj
  rw [List.length_set]
  exact this

/-! ## C1: invariant preservation through the successor loop -/

/-- What one successor-loop step must preserve: the base invariant, the
expanding frame itself, the relaxed-edge guarantees of the other closed
frames, and the extended relaxed-edge guarantee of the expanding frame. -/
def AppPreserved (inp : SearchInput) (N : Nat) (i0 s0 : Nat) (st st' : EState)
    (done : List GAction) (a : GAction) : Prop :=
  InvBase inp N st' ∧
  st'.frames.getD i0 default = st.frames.getD i0 default ∧
  (∀ i, 1 ≤ i → i < st'.frames.length →
    (st'.frames.getD i default).closed = true →
    ∀ s, (st'.frames.getD i default).state = some s → s ≠ s0 →
    inp.dead (inp.h s) = false → EdgesDone inp st' s (inp.succs s)) ∧
  EdgesDone inp st' s0 (done ++ [a])

/-- Preservation through the successor-loop body when the successor state is
newly seen (a fresh frame is allocated). -/
theorem applyAction_preserve_new (inp : SearchInput) (N : Nat)
    (hcost : CostOK inp) (hadm : Admissible inp)
    (hclosure : ∀ s, s < N → ∀ b ∈ inp.succs s, b.target < N)
    (i0 s0 : Nat) (st : EState) (a : GAction) (done : List GAction)
    (hbase : InvBase inp N st)
    (hpar1 : 1 ≤ i0) (hparlt : i0 < st.frames.length)
    (hpstate : (st.frames.getD i0 default).state = some s0)
    (hs0N : s0 < N)
    (hopt : ∀ π, NDPath inp inp.init π s0 →
      (st.frames.getD i0 default).g_value ≤ pathCost π)
    (hedgeso : ∀ i, 1 ≤ i → i < st.frames.length →
      (st.frames.getD i default).closed = true →
      ∀ s, (st.frames.getD i default).state = some s → s ≠ s0 →
      inp.dead (inp.h s) = false → EdgesDone inp st s (inp.succs s))
    (hdone : EdgesDone inp st s0 done)
    (ha : a ∈ inp.succs s0)
    (h0 : st.stateIndices a.target = 0) :
    AppPreserved inp N i0 s0 st (applyAction inp i0 st a) done a := by
  have heq := applyAction_new inp i0 st a h0
  have hfr : (applyAction inp i0 st a).frames =
      st.frames ++ [newFrameFor inp i0 a (st.frames.getD i0 default)] := by rw [heq]
  have hsi : (applyAction inp i0 st a).stateIndices =
      updMap st.stateIndices a.target st.frames.length := by rw [heq]
  have hlen : (applyAction inp i0 st a).frames.length = st.frames.length + 1 := by
    rw [hfr]; simp
  have hKget : (applyAction inp i0 st a).frames.getD st.frames.length default =
      newFrameFor inp i0 a (st.frames.getD i0 default) := by
    rw [hfr]; exact getD_append_len _ _
  have holdm : ∀ m, m < st.frames.length →
      (applyAction inp i0 st a).frames.getD m default = st.frames.getD m default := by
    intro m hm; rw [hfr]; exact getD_append_lt _ _ _ hm
  have hsit : (applyAction inp i0 st a).stateIndices a.target = st.frames.length := by
    rw [hsi]; unfold updMap; simp
  have hsio : ∀ s, s ≠ a.target →
      (applyAction inp i0 st a).stateIndices s = st.stateIndices s := by
    intro s hs; rw [hsi]; unfold updMap; simp [hs]
  have h2K : 2 ≤ st.frames.length := hbase.len2
  have hg0 : 0 ≤ (st.frames.getD i0 default).g_value := hbase.g_nonneg i0 hparlt
  have hac : 0 ≤ a.cost := hcost s0 a ha
  have hnfstate : (newFrameFor inp i0 a (st.frames.getD i0 default)).state = some a.target := rfl
  have hnfg : (newFrameFor inp i0 a (st.frames.getD i0 default)).g_value =
      (st.frames.getD i0 default).g_value + a.cost := rfl
  have hnfh : (newFrameFor inp i0 a (st.frames.getD i0 default)).h_value = inp.h a.target := rfl
  have hnfc : (newFrameFor inp i0 a (st.frames.getD i0 default)).closed =
      inp.dead (inp.h a.target) := rfl
  have hnfpa : (newFrameFor inp i0 a (st.frames.getD i0 default)).predAction = some a := rfl
  have hnfpi : (newFrameFor inp i0 a (st.frames.getD i0 default)).predIndex.toNat = i0 := by
    unfold newFrameFor; simp
  have htno : ∀ i, 1 ≤ i → i < st.frames.length →
      ∀ s, (st.frames.getD i default).state = some s → s ≠ a.target := by
    intro i hi1 hilt s hs hcontra
    subst hcontra
    have := hbase.state_idx i hi1 hilt _ hs
    omega
  have hinitne : inp.init ≠ a.target := by
    intro hcontra
    have h1 := hbase.idx_init
    rw [hcontra] at h1
    omega
  have htrans : ∀ s' acts, EdgesDone inp st s' acts →
      EdgesDone inp (applyAction inp i0 st a) s' acts := by
    intro s' acts hED b hb
    obtain ⟨hb0, hbb⟩ := hED b hb
    have hbt : b.target ≠ a.target := by
      intro hcontra
      rw [hcontra] at hb0
      exact hb0 h0
    refine ⟨?_, ?_⟩
    · rw [hsio _ hbt]; exact hb0
    · intro π hπ
      rw [hsio _ hbt, holdm _ (hbase.idx_lt b.target)]
      exact hbb π hπ
  have f_len2 : 2 ≤ (applyAction inp i0 st a).frames.length := by rw [hlen]; omega
  have f_state0 : ((applyAction inp i0 st a).frames.getD 0 default).state = none := by
    rw [holdm 0 (by omega)]; exact hbase.state0
  have f_state1 : ((applyAction inp i0 st a).frames.getD 1 default).state = some inp.init := by
    rw [holdm 1 (by omega)]; exact hbase.state1
  have f_g1 : ((applyAction inp i0 st a).frames.getD 1 default).g_value = 0 := by
    rw [holdm 1 (by omega)]; exact hbase.g1
  have f_closed1 : ((applyAction inp i0 st a).frames.getD 1 default).closed = true := by
    rw [holdm 1 (by omega)]; exact hbase.closed1
  have f_idx_init : (applyAction inp i0 st a).stateIndices inp.init = 1 := by
    rw [hsio _ hinitne]; exact hbase.idx_init
  have f_idx_lt : ∀ s, (applyAction inp i0 st a).stateIndices s <
      (applyAction inp i0 st a).frames.length := by
    intro s
    rw [hlen]
    by_cases hs : s = a.target
    · subst hs; rw [hsit]; omega
    · rw [hsio _ hs]; have := hbase.idx_lt s; omega
  have f_idx_state : ∀ s, (applyAction inp i0 st a).stateIndices s ≠ 0 →
      ((applyAction inp i0 st a).frames.getD
        ((applyAction inp i0 st a).stateIndices s) default).state = some s := by
    intro s hne0
    by_cases hs : s = a.target
    · subst hs; rw [hsit, hKget]; exact hnfstate
    · rw [hsio _ hs] at hne0 ⊢
      rw [holdm _ (hbase.idx_lt s)]
      exact hbase.idx_state s hne0
  have f_state_idx : ∀ i, 1 ≤ i → i < (applyAction inp i0 st a).frames.length →
      ∀ s, ((applyAction inp i0 st a).frames.getD i default).state = some s →
      (applyAction inp i0 st a).stateIndices s = i := by
    intro i hi1 hilt s hs
    rw [hlen] at hilt
    by_cases hiK : i = st.frames.length
    · subst hiK
      rw [hKget, hnfstate] at hs
      injection hs with hs
      rw [← hs]
      exact hsit
    · have hilt' : i < st.frames.length := by omega
      rw [holdm i hilt'] at hs
      have hne := htno i hi1 hilt' s hs
      rw [hsio _ hne]
      exact hbase.state_idx i hi1 hilt' s hs
  have f_state_some : ∀ i, 1 ≤ i → i < (applyAction inp i0 st a).frames.length →
      ∃ s, ((applyAction inp i0 st a).frames.getD i default).state = some s ∧ s < N := by
    intro i hi1 hilt
    rw [hlen] at hilt
    by_cases hiK : i = st.frames.length
    · subst hiK
      exact ⟨a.target, by rw [hKget]; exact hnfstate, hclosure s0 hs0N a ha⟩
    · have hilt' : i < st.frames.length := by omega
      obtain ⟨s, hs, hsN⟩ := hbase.state_some i hi1 hilt'
      exact ⟨s, by rw [holdm i hilt']; exact hs, hsN⟩
  have f_hval : ∀ i, 1 ≤ i → i < (applyAction inp i0 st a).frames.length →
      ∀ s, ((applyAction inp i0 st a).frames.getD i default).state = some s →
      ((applyAction inp i0 st a).frames.getD i default).h_value = inp.h s := by
    intro i hi1 hilt s hs
    rw [hlen] at hilt
    by_cases hiK : i = st.frames.length
    · subst hiK
      rw [hKget] at hs ⊢
      rw [hnfstate] at hs
      injection hs with hs
      rw [← hs]
      exact hnfh
    · have hilt' : i < st.frames.length := by omega
      rw [holdm i hilt'] at hs ⊢
      exact hbase.hval i hi1 hilt' s hs
  have f_g_nonneg : ∀ i, i < (applyAction inp i0 st a).frames.length →
      0 ≤ ((applyAction inp i0 st a).frames.getD i default).g_value := by
    intro i hilt
    rw [hlen] at hilt
    by_cases hiK : i = st.frames.length
    · subst hiK
      rw [hKget, hnfg]
      linarith
    · have hilt' : i < st.frames.length := by omega
      rw [holdm i hilt']
      exact hbase.g_nonneg i hilt'
  have f_unclosed_nondead : ∀ i, 1 ≤ i → i < (applyAction inp i0 st a).frames.length →
      ((applyAction inp i0 st a).frames.getD i default).closed = false →
      ∀ s, ((applyAction inp i0 st a).frames.getD i default).state = some s →
      inp.dead (inp.h s) = false := by
    intro i hi1 hilt hopen s hs
    rw [hlen] at hilt
    by_cases hiK : i = st.frames.length
    · subst hiK
      rw [hKget] at hopen hs
      rw [hnfstate] at hs
      injection hs with hs
      rw [← hs]
      rw [hnfc] at hopen
      exact hopen
    · have hilt' : i < st.frames.length := by omega
      rw [holdm i hilt'] at hopen hs
      exact hbase.unclosed_nondead i hi1 hilt' hopen s hs
  have f_closed_not_goal : ∀ i, 1 ≤ i → i < (applyAction inp i0 st a).frames.length →
      ((applyAction inp i0 st a).frames.getD i default).closed = true →
      ∀ s, ((applyAction inp i0 st a).frames.getD i default).state = some s →
      inp.goal s = false := by
    intro i hi1 hilt hclosed s hs
    rw [hlen] at hilt
    by_cases hiK : i = st.frames.length
    · subst hiK
      rw [hKget] at hclosed hs
      rw [hnfstate] at hs
      injection hs with hs
      rw [hnfc] at hclosed
      rw [← hs]
      cases hg : inp.goal a.target with
      | false => rfl
      | true =>
        have hndt := (hadm a.target [] a.target (IsPath.nil _) hg).1
        rw [hndt] at hclosed
        cases hclosed
    · have hilt' : i < st.frames.length := by omega
      rw [holdm i hilt'] at hclosed hs
      exact hbase.closed_not_goal i hi1 hilt' hclosed s hs
  have f_closed_opt : ∀ i, 1 ≤ i → i < (applyAction inp i0 st a).frames.length →
      ((applyAction inp i0 st a).frames.getD i default).closed = true →
      ∀ s, ((applyAction inp i0 st a).frames.getD i default).state = some s →
      ∀ π, NDPath inp inp.init π s →
      ((applyAction inp i0 st a).frames.getD i default).g_value ≤ pathCost π := by
    intro i hi1 hilt hclosed s hs π hπ
    rw [hlen] at hilt
    by_cases hiK : i = st.frames.length
    · subst hiK
      rw [hKget] at hclosed hs
      rw [hnfstate] at hs
      injection hs with hs
      rw [hnfc] at hclosed
      have hnd := hπ.last_nondead
      rw [← hs] at hnd
      rw [hclosed] at hnd
      cases hnd
    · have hilt' : i < st.frames.length := by omega
      rw [holdm i hilt'] at hclosed hs ⊢
      exact hbase.closed_opt i hi1 hilt' hclosed s hs π hπ
  have f_gchain : ∀ i, 1 ≤ i → i < (applyAction inp i0 st a).frames.length →
      ∀ b, ((applyAction inp i0 st a).frames.getD i default).predAction = some b →
      1 ≤ ((applyAction inp i0 st a).frames.getD i default).predIndex.toNat ∧
      ((applyAction inp i0 st a).frames.getD i default).predIndex.toNat <
        (applyAction inp i0 st a).frames.length ∧
      ((applyAction inp i0 st a).frames.getD
        (((applyAction inp i0 st a).frames.getD i default).predIndex.toNat) default).g_value
        + b.cost ≤ ((applyAction inp i0 st a).frames.getD i default).g_value ∧
      0 ≤ b.cost := by
    intro i hi1 hilt b hb
    rw [hlen] at hilt
    by_cases hiK : i = st.frames.length
    · subst hiK
      rw [hKget] at hb ⊢
      rw [hnfpa] at hb
      injection hb with hb
      subst hb
      rw [hnfpi, hnfg, hlen, holdm i0 hparlt]
      exact ⟨hpar1, by omega, le_refl _, hac⟩
    · have hilt' : i < st.frames.length := by omega
      rw [holdm i hilt'] at hb ⊢
      obtain ⟨p1, p2, p3, p4⟩ := hbase.gchain i hi1 hilt' b hb
      refine ⟨p1, ?_, ?_, p4⟩
      · rw [hlen]; omega
      · rw [holdm _ p2]; exact p3
  have f_chains : ∀ i, 1 ≤ i → i < (applyAction inp i0 st a).frames.length →
      ChainBundle inp (applyAction inp i0 st a).frames i := by
    intro i hi1 hilt
    rw [hlen] at hilt
    rw [hfr]
    by_cases hiK : i = st.frames.length
    · subst hiK
      exact ChainBundle_new inp st.frames i0 a s0 hpar1 hparlt
        (hbase.chains i0 hpar1 hparlt) hpstate ha
    · have hilt' : i < st.frames.length := by omega
      refine ChainBundle_congr inp st.frames _ i (by simp) ?_ (hbase.chains i hi1 hilt')
      intro m hm
      rw [getD_append_lt _ _ _ hm]
      exact ⟨rfl, rfl, rfl, rfl⟩
  have f_parent : (applyAction inp i0 st a).frames.getD i0 default =
      st.frames.getD i0 default := holdm i0 hparlt
  have f_other : ∀ i, 1 ≤ i → i < (applyAction inp i0 st a).frames.length →
      ((applyAction inp i0 st a).frames.getD i default).closed = true →
      ∀ s, ((applyAction inp i0 st a).frames.getD i default).state = some s → s ≠ s0 →
      inp.dead (inp.h s) = false →
      EdgesDone inp (applyAction inp i0 st a) s (inp.succs s) := by
    intro i hi1 hilt hclosed s hs hsne hsnd
    rw [hlen] at hilt
    by_cases hiK : i = st.frames.length
    · subst hiK
      rw [hKget] at hclosed hs
      rw [hnfstate] at hs
      injection hs with hs
      rw [hnfc] at hclosed
      rw [← hs] at hsnd
      rw [hclosed] at hsnd
      cases hsnd
    · have hilt' : i < st.frames.length := by omega
      rw [holdm i hilt'] at hclosed hs
      exact htrans s _ (hedgeso i hi1 hilt' hclosed s hs hsne hsnd)
  have f_done : EdgesDone inp (applyAction inp i0 st a) s0 (done ++ [a]) := by
    intro b hb
    rcases List.mem_append.mp hb with hbd | hba
    · exact htrans s0 done hdone b hbd
    · rw [List.mem_singleton] at hba
      subst hba
      constructor
      · rw [hsit]
        omega
      · intro π hπ
        rw [hsit, hKget, hnfg]
        have := hopt π hπ
        linarith
  cases hdead : inp.dead (inp.h a.target) with
  | true =>
    have hol : (applyAction inp i0 st a).ol = st.ol := by
      rw [heq]
      dsimp only
      rw [if_pos hdead]
    refine ⟨⟨f_len2, f_state0, f_state1, f_g1, f_closed1, f_idx_init, f_idx_lt, f_idx_state,
      f_state_idx, f_state_some, f_hval, f_g_nonneg, ?_, ?_, ?_, ?_,
      f_unclosed_nondead, f_closed_not_goal, f_closed_opt, f_gchain, f_chains⟩,
      f_parent, f_other, f_done⟩
    · rw [hol]; exact hbase.ol_sorted
    · intro e he
      rw [hol] at he
      obtain ⟨he1, he2⟩ := hbase.ol_idx e he
      exact ⟨he1, by rw [hlen]; omega⟩
    · intro e he
      rw [hol] at he
      rw [holdm _ (hbase.ol_idx e he).2]
      exact hbase.ol_lb e he
    · intro i hi1 hilt hopen
      rw [hlen] at hilt
      by_cases hiK : i = st.frames.length
      · subst hiK
        rw [hKget, hnfc, hdead] at hopen
        cases hopen
      · have hilt' : i < st.frames.length := by omega
        rw [holdm i hilt'] at hopen
        obtain ⟨e, he, he1, he2⟩ := hbase.open_cover i hi1 hilt' hopen
        refine ⟨e, by rw [hol]; exact he, he1, ?_⟩
        rw [holdm i hilt']
        exact he2
  | false =>
    have hol : (applyAction inp i0 st a).ol = olInsert st.frames.length
        ((st.frames.getD i0 default).g_value + a.cost + inp.h a.target) st.ol := by
      rw [heq]
      dsimp only
      rw [if_neg (by simp [hdead])]
    refine ⟨⟨f_len2, f_state0, f_state1, f_g1, f_closed1, f_idx_init, f_idx_lt, f_idx_state,
      f_state_idx, f_state_some, f_hval, f_g_nonneg, ?_, ?_, ?_, ?_,
      f_unclosed_nondead, f_closed_not_goal, f_closed_opt, f_gchain, f_chains⟩,
      f_parent, f_other, f_done⟩
    · rw [hol]; exact olInsert_sorted _ _ _ hbase.ol_sorted
    · intro e he
      rw [hol] at he
      rcases mem_olInsert _ _ _ _ he with hold | rfl
      · obtain ⟨he1, he2⟩ := hbase.ol_idx e hold
        exact ⟨he1, by rw [hlen]; omega⟩
      · constructor
        · show 1 ≤ st.frames.length
          omega
        · show st.frames.length < (applyAction inp i0 st a).frames.length
          rw [hlen]; omega
    · intro e he
      rw [hol] at he
      rcases mem_olInsert _ _ _ _ he with hold | rfl
      · rw [holdm _ (hbase.ol_idx e hold).2]
        exact hbase.ol_lb e hold
      · dsimp only
        rw [hKget, hnfg, hnfh]
    · intro i hi1 hilt hopen
      rw [hlen] at hilt
      by_cases hiK : i = st.frames.length
      · subst hiK
        refine ⟨(st.frames.length,
          (st.frames.getD i0 default).g_value + a.cost + inp.h a.target), ?_, rfl, ?_⟩
        · rw [hol]
          exact olInsert_self_mem _ _ _
        · dsimp only
          rw [hKget, hnfg, hnfh]
      · have hilt' : i < st.frames.length := by omega
        rw [holdm i hilt'] at hopen
        obtain ⟨e, he, he1, he2⟩ := hbase.open_cover i hi1 hilt' hopen
        refine ⟨e, ?_, he1, ?_⟩
        · rw [hol]
          exact olInsert_mem _ _ _ _ he
        · rw [holdm i hilt']
          exact he2

/-- Frame-list and index-map projections of `applyAction` in the improvement
branch (both dead-end sub-branches). -/
theorem applyAction_improve_proj (inp : SearchInput) (index : Nat) (st : EState)
    (a : GAction) (h0 : st.stateIndices a.target ≠ 0)
    (himp : (st.frames.getD index default).g_value + a.cost <
      (st.frames.getD (st.stateIndices a.target) default).g_value) :
    (applyAction inp index st a).frames = st.frames.set (st.stateIndices a.target)
      (improveFrame index a (st.frames.getD index default)
        (st.frames.getD (st.stateIndices a.target) default)) ∧
    (applyAction inp index st a).stateIndices = st.stateIndices := by
  unfold applyAction
  dsimp only
  rw [if_neg h0, if_pos himp]
  split <;> exact ⟨rfl, rfl⟩

/-- Open-list projection of `applyAction` in the improvement branch when the
rediscovered frame is a dead end: no new entry. -/
theorem applyAction_improve_ol_dead (inp : SearchInput) (index : Nat) (st : EState)
    (a : GAction) (h0 : st.stateIndices a.target ≠ 0)
    (himp : (st.frames.getD index default).g_value + a.cost <
      (st.frames.getD (st.stateIndices a.target) default).g_value)
    (hdead : inp.dead (st.frames.getD (st.stateIndices a.target) default).h_value = true) :
    (applyAction inp index st a).ol = st.ol := by
  unfold applyAction
  dsimp only
  rw [if_neg h0, if_pos himp, if_pos hdead]

/-- Open-list projection of `applyAction` in the improvement branch when the
rediscovered frame is not a dead end: its handle is re-inserted with the new
f-value. -/
theorem applyAction_improve_ol_live (inp : SearchInput) (index : Nat) (st : EState)
    (a : GAction) (h0 : st.stateIndices a.target ≠ 0)
    (himp : (st.frames.getD index default).g_value + a.cost <
      (st.frames.getD (st.stateIndices a.target) default).g_value)
    (hdead : inp.dead (st.frames.getD (st.stateIndices a.target) default).h_value = false) :
    (applyAction inp index st a).ol = olInsert (st.stateIndices a.target)
      ((st.frames.getD index default).g_value + a.cost +
        (st.frames.getD (st.stateIndices a.target) default).h_value) st.ol := by
  unfold applyAction
  dsimp only
  rw [if_neg h0, if_pos himp, if_neg (by intro hc; rw [hdead] at hc; cases hc)]

/-- Preservation through the successor-loop body when the successor state was
seen before and the new path is strictly cheaper (in-place improvement). -/
theorem applyAction_preserve_improve (inp : SearchInput) (N : Nat)
    (hcost : CostOK inp)
    (i0 s0 : Nat) (st : EState) (a : GAction) (done : List GAction)
    (hbase : InvBase inp N st)
    (hpar1 : 1 ≤ i0) (hparlt : i0 < st.frames.length)
    (hpstate : (st.frames.getD i0 default).state = some s0)
    (hopt : ∀ π, NDPath inp inp.init π s0 →
      (st.frames.getD i0 default).g_value ≤ pathCost π)
    (hedgeso : ∀ i, 1 ≤ i → i < st.frames.length →
      (st.frames.getD i default).closed = true →
      ∀ s, (st.frames.getD i default).state = some s → s ≠ s0 →
      inp.dead (inp.h s) = false → EdgesDone inp st s (inp.succs s))
    (hdone : EdgesDone inp st s0 done)
    (ha : a ∈ inp.succs s0)
    (j : Nat) (hj : st.stateIndices a.target = j) (hj0 : j ≠ 0)
    (himp : (st.frames.getD i0 default).g_value + a.cost <
      (st.frames.getD j default).g_value) :
    AppPreserved inp N i0 s0 st (applyAction inp i0 st a) done a := by
  have hg0 : 0 ≤ (st.frames.getD i0 default).g_value := hbase.g_nonneg i0 hparlt
  have hac : 0 ≤ a.cost := hcost s0 a ha
  have hj1 : 1 ≤ j := by omega
  have hjlt : j < st.frames.length := by
    have := hbase.idx_lt a.target
    rw [hj] at this
    exact this
  have hjstate : (st.frames.getD j default).state = some a.target := by
    have := hbase.idx_state a.target (by rw [hj]; exact hj0)
    rw [hj] at this
    exact this
  have himp' : (st.frames.getD i0 default).g_value + a.cost <
      (st.frames.getD (st.stateIndices a.target) default).g_value := by
    rw [hj]; exact himp
  have h0' : st.stateIndices a.target ≠ 0 := by rw [hj]; exact hj0
  obtain ⟨hfr, hsi⟩ := applyAction_improve_proj inp i0 st a h0' himp'
  rw [hj] at hfr
  have hlen : (applyAction inp i0 st a).frames.length = st.frames.length := by
    rw [hfr]; exact List.length_set _ _ _
  have hjget : (applyAction inp i0 st a).frames.getD j default =
      improveFrame i0 a (st.frames.getD i0 default) (st.frames.getD j default) := by
    rw [hfr]; exact getD_set_self _ _ _ hjlt
  have hne : ∀ m, m ≠ j →
      (applyAction inp i0 st a).frames.getD m default = st.frames.getD m default := by
    intro m hm
    rw [hfr]
    exact getD_set_ne _ _ _ _ (Ne.symm hm)
  have hufg : (improveFrame i0 a (st.frames.getD i0 default)
      (st.frames.getD j default)).g_value =
      (st.frames.getD i0 default).g_value + a.cost := rfl
  have hufh : (improveFrame i0 a (st.frames.getD i0 default)
      (st.frames.getD j default)).h_value = (st.frames.getD j default).h_value := rfl
  have hufc : (improveFrame i0 a (st.frames.getD i0 default)
      (st.frames.getD j default)).closed = (st.frames.getD j default).closed := rfl
  have hufstate : (improveFrame i0 a (st.frames.getD i0 default)
      (st.frames.getD j default)).state = (st.frames.getD j default).state := rfl
  have hufpa : (improveFrame i0 a (st.frames.getD i0 default)
      (st.frames.getD j default)).predAction = some a := rfl
  have hufpi : (improveFrame i0 a (st.frames.getD i0 default)
      (st.frames.getD j default)).predIndex.toNat = i0 := by
    unfold improveFrame
    simp
  have hji0 : j ≠ i0 := by
    intro hcontra
    rw [hcontra] at himp
    linarith
  have hj1ne : j ≠ 1 := by
    intro hcontra
    rw [hcontra, hbase.g1] at himp
    linarith
  have hts0 : a.target ≠ s0 := by
    intro hcontra
    have h2 := hbase.state_idx i0 hpar1 hparlt s0 hpstate
    rw [hcontra] at hj
    omega
  have hgle : ∀ m, m < st.frames.length →
      ((applyAction inp i0 st a).frames.getD m default).g_value ≤
        (st.frames.getD m default).g_value := by
    intro m hm
    by_cases hmj : m = j
    · subst hmj
      rw [hjget, hufg]
      linarith
    · rw [hne m hmj]
  have hfields : ∀ m,
      ((applyAction inp i0 st a).frames.getD m default).state =
        (st.frames.getD m default).state ∧
      ((applyAction inp i0 st a).frames.getD m default).closed =
        (st.frames.getD m default).closed ∧
      ((applyAction inp i0 st a).frames.getD m default).h_value =
        (st.frames.getD m default).h_value := by
    intro m
    by_cases hmj : m = j
    · subst hmj
      rw [hjget]
      exact ⟨hufstate, hufc, hufh⟩
    · rw [hne m hmj]
      exact ⟨rfl, rfl, rfl⟩
  have htrans : ∀ s' acts, EdgesDone inp st s' acts →
      EdgesDone inp (applyAction inp i0 st a) s' acts := by
    intro s' acts hED b hb
    obtain ⟨hb0, hbb⟩ := hED b hb
    refine ⟨by rw [hsi]; exact hb0, ?_⟩
    intro π hπ
    rw [hsi]
    have hle := hgle (st.stateIndices b.target) (hbase.idx_lt b.target)
    have := hbb π hπ
    linarith
  have f_len2 : 2 ≤ (applyAction inp i0 st a).frames.length := by
    rw [hlen]; exact hbase.len2
  have f_state0 : ((applyAction inp i0 st a).frames.getD 0 default).state = none := by
    rw [hne 0 (by omega)]; exact hbase.state0
  have f_state1 : ((applyAction inp i0 st a).frames.getD 1 default).state = some inp.init := by
    rw [hne 1 (fun h => hj1ne h.symm)]; exact hbase.state1
  have f_g1 : ((applyAction inp i0 st a).frames.getD 1 default).g_value = 0 := by
    rw [hne 1 (fun h => hj1ne h.symm)]; exact hbase.g1
  have f_closed1 : ((applyAction inp i0 st a).frames.getD 1 default).closed = true := by
    rw [hne 1 (fun h => hj1ne h.symm)]; exact hbase.closed1
  have f_idx_init : (applyAction inp i0 st a).stateIndices inp.init = 1 := by
    rw [hsi]; exact hbase.idx_init
  have f_idx_lt : ∀ s, (applyAction inp i0 st a).stateIndices s <
      (applyAction inp i0 st a).frames.length := by
    intro s
    rw [hsi, hlen]
    exact hbase.idx_lt s
  have f_idx_state : ∀ s, (applyAction inp i0 st a).stateIndices s ≠ 0 →
      ((applyAction inp i0 st a).frames.getD
        ((applyAction inp i0 st a).stateIndices s) default).state = some s := by
    intro s hne0
    rw [hsi] at hne0 ⊢
    rw [(hfields (st.stateIndices s)).1]
    exact hbase.idx_state s hne0
  have f_state_idx : ∀ i, 1 ≤ i → i < (applyAction inp i0 st a).frames.length →
      ∀ s, ((applyAction inp i0 st a).frames.getD i default).state = some s →
      (applyAction inp i0 st a).stateIndices s = i := by
    intro i hi1 hilt s hs
    rw [hlen] at hilt
    rw [(hfields i).1] at hs
    rw [hsi]
    exact hbase.state_idx i hi1 hilt s hs
  have f_state_some : ∀ i, 1 ≤ i → i < (applyAction inp i0 st a).frames.length →
      ∃ s, ((applyAction inp i0 st a).frames.getD i default).state = some s ∧ s < N := by
    intro i hi1 hilt
    rw [hlen] at hilt
    obtain ⟨s, hs, hsN⟩ := hbase.state_some i hi1 hilt
    exact ⟨s, by rw [(hfields i).1]; exact hs, hsN⟩
  have f_hval : ∀ i, 1 ≤ i → i < (applyAction inp i0 st a).frames.length →
      ∀ s, ((applyAction inp i0 st a).frames.getD i default).state = some s →
      ((applyAction inp i0 st a).frames.getD i default).h_value = inp.h s := by
    intro i hi1 hilt s hs
    rw [hlen] at hilt
    rw [(hfields i).1] at hs
    rw [(hfields i).2.2]
    exact hbase.hval i hi1 hilt s hs
  have f_g_nonneg : ∀ i, i < (applyAction inp i0 st a).frames.length →
      0 ≤ ((applyAction inp i0 st a).frames.getD i default).g_value := by
    intro i hilt
    rw [hlen] at hilt
    by_cases hij : i = j
    · subst hij
      rw [hjget, hufg]
      linarith
    · rw [hne i hij]
      exact hbase.g_nonneg i hilt
  have f_unclosed_nondead : ∀ i, 1 ≤ i → i < (applyAction inp i0 st a).frames.length →
      ((applyAction inp i0 st a).frames.getD i default).closed = false →
      ∀ s, ((applyAction inp i0 st a).frames.getD i default).state = some s →
      inp.dead (inp.h s) = false := by
    intro i hi1 hilt hopen s hs
    rw [hlen] at hilt
    rw [(hfields i).2.1] at hopen
    rw [(hfields i).1] at hs
    exact hbase.unclosed_nondead i hi1 hilt hopen s hs
  have f_closed_not_goal : ∀ i, 1 ≤ i → i < (applyAction inp i0 st a).frames.length →
      ((applyAction inp i0 st a).frames.getD i default).closed = true →
      ∀ s, ((applyAction inp i0 st a).frames.getD i default).state = some s →
      inp.goal s = false := by
    intro i hi1 hilt hclosed s hs
    rw [hlen] at hilt
    rw [(hfields i).2.1] at hclosed
    rw [(hfields i).1] at hs
    exact hbase.closed_not_goal i hi1 hilt hclosed s hs
  have f_closed_opt : ∀ i, 1 ≤ i → i < (applyAction inp i0 st a).frames.length →
      ((applyAction inp i0 st a).frames.getD i default).closed = true →
      ∀ s, ((applyAction inp i0 st a).frames.getD i default).state = some s →
      ∀ π, NDPath inp inp.init π s →
      ((applyAction inp i0 st a).frames.getD i default).g_value ≤ pathCost π := by
    intro i hi1 hilt hclosed s hs π hπ
    rw [hlen] at hilt
    rw [(hfields i).2.1] at hclosed
    rw [(hfields i).1] at hs
    have hold := hbase.closed_opt i hi1 hilt hclosed s hs π hπ
    have := hgle i hilt
    linarith
  have f_gchain : ∀ i, 1 ≤ i → i < (applyAction inp i0 st a).frames.length →
      ∀ b, ((applyAction inp i0 st a).frames.getD i default).predAction = some b →
      1 ≤ ((applyAction inp i0 st a).frames.getD i default).predIndex.toNat ∧
      ((applyAction inp i0 st a).frames.getD i default).predIndex.toNat <
        (applyAction inp i0 st a).frames.length ∧
      ((applyAction inp i0 st a).frames.getD
        (((applyAction inp i0 st a).frames.getD i default).predIndex.toNat) default).g_value
        + b.cost ≤ ((applyAction inp i0 st a).frames.getD i default).g_value ∧
      0 ≤ b.cost := by
    intro i hi1 hilt b hb
    rw [hlen] at hilt
    by_cases hij : i = j
    · subst hij
      rw [hjget] at hb ⊢
      rw [hufpa] at hb
      injection hb with hb
      subst hb
      rw [hufpi, hufg, hlen, hne i0 (fun h => hji0 h.symm)]
      exact ⟨hpar1, hparlt, le_refl _, hac⟩
    · rw [hne i hij] at hb ⊢
      obtain ⟨p1, p2, p3, p4⟩ := hbase.gchain i hi1 hilt b hb
      refine ⟨p1, by rw [hlen]; exact p2, ?_, p4⟩
      have hle := hgle _ p2
      linarith
  have f_chains : ∀ i, 1 ≤ i → i < (applyAction inp i0 st a).frames.length →
      ChainBundle inp (applyAction inp i0 st a).frames i := by
    intro i hi1 hilt
    rw [hlen] at hilt
    rw [hfr]
    exact ChainBundle_improve inp st.frames j i0 a s0 hpar1 hparlt hj1 hjlt hac
      hpstate ha hjstate himp hbase.gchain
      (fun m hm1 hm2 => (hbase.state_some m hm1 hm2).imp (fun s hs => hs.1))
      hbase.chains i hi1 hilt
  have f_parent : (applyAction inp i0 st a).frames.getD i0 default =
      st.frames.getD i0 default := hne i0 (fun h => hji0 h.symm)
  have f_other : ∀ i, 1 ≤ i → i < (applyAction inp i0 st a).frames.length →
      ((applyAction inp i0 st a).frames.getD i default).closed = true →
      ∀ s, ((applyAction inp i0 st a).frames.getD i default).state = some s → s ≠ s0 →
      inp.dead (inp.h s) = false →
      EdgesDone inp (applyAction inp i0 st a) s (inp.succs s) := by
    intro i hi1 hilt hclosed s hs hsne hsnd
    rw [hlen] at hilt
    rw [(hfields i).2.1] at hclosed
    rw [(hfields i).1] at hs
    exact htrans s _ (hedgeso i hi1 hilt hclosed s hs hsne hsnd)
  have f_done : EdgesDone inp (applyAction inp i0 st a) s0 (done ++ [a]) := by
    intro b hb
    rcases List.mem_append.mp hb with hbd | hba
    · exact htrans s0 done hdone b hbd
    · rw [List.mem_singleton] at hba
      subst hba
      constructor
      · rw [hsi, hj]
        exact hj0
      · intro π hπ
        rw [hsi, hj, hjget, hufg]
        have := hopt π hπ
        linarith
  cases hdead : inp.dead (st.frames.getD j default).h_value with
  | true =>
    have hdead' : inp.dead (st.frames.getD (st.stateIndices a.target) default).h_value
        = true := by rw [hj]; exact hdead
    have hol := applyAction_improve_ol_dead inp i0 st a h0' himp' hdead'
    have hjclosed : (st.frames.getD j default).closed = true := by
      cases hc : (st.frames.getD j default).closed with
      | true => rfl
      | false =>
        have hnd := hbase.unclosed_nondead j hj1 hjlt hc a.target hjstate
        have hhv := hbase.hval j hj1 hjlt a.target hjstate
        rw [hhv, hnd] at hdead
        cases hdead
    refine ⟨⟨f_len2, f_state0, f_state1, f_g1, f_closed1, f_idx_init, f_idx_lt, f_idx_state,
      f_state_idx, f_state_some, f_hval, f_g_nonneg, ?_, ?_, ?_, ?_,
      f_unclosed_nondead, f_closed_not_goal, f_closed_opt, f_gchain, f_chains⟩,
      f_parent, f_other, f_done⟩
    · rw [hol]; exact hbase.ol_sorted
    · intro e he
      rw [hol] at he
      obtain ⟨he1, he2⟩ := hbase.ol_idx e he
      exact ⟨he1, by rw [hlen]; exact he2⟩
    · intro e he
      rw [hol] at he
      have hlb := hbase.ol_lb e he
      have hle := hgle e.1 (hbase.ol_idx e he).2
      rw [(hfields e.1).2.2]
      linarith
    · intro i hi1 hilt hopen
      rw [hlen] at hilt
      by_cases hij : i = j
      · subst hij
        rw [(hfields i).2.1, hjclosed] at hopen
        cases hopen
      · rw [hne i hij] at hopen
        obtain ⟨e, he, he1, he2⟩ := hbase.open_cover i hi1 hilt hopen
        refine ⟨e, by rw [hol]; exact he, he1, ?_⟩
        rw [hne i hij]
        exact he2
  | false =>
    have hdead' : inp.dead (st.frames.getD (st.stateIndices a.target) default).h_value
        = false := by rw [hj]; exact hdead
    have hol := applyAction_improve_ol_live inp i0 st a h0' himp' hdead'
    rw [hj] at hol
    refine ⟨⟨f_len2, f_state0, f_state1, f_g1, f_closed1, f_idx_init, f_idx_lt, f_idx_state,
      f_state_idx, f_state_some, f_hval, f_g_nonneg, ?_, ?_, ?_, ?_,
      f_unclosed_nondead, f_closed_not_goal, f_closed_opt, f_gchain, f_chains⟩,
      f_parent, f_other, f_done⟩
    · rw [hol]; exact olInsert_sorted _ _ _ hbase.ol_sorted
    · intro e he
      rw [hol] at he
      rcases mem_olInsert _ _ _ _ he with hold | rfl
      · obtain ⟨he1, he2⟩ := hbase.ol_idx e hold
        exact ⟨he1, by rw [hlen]; exact he2⟩
      · constructor
        · show 1 ≤ j
          exact hj1
        · show j < (applyAction inp i0 st a).frames.length
          rw [hlen]
          exact hjlt
    · intro e he
      rw [hol] at he
      rcases mem_olInsert _ _ _ _ he with hold | rfl
      · have hlb := hbase.ol_lb e hold
        have hle := hgle e.1 (hbase.ol_idx e hold).2
        rw [(hfields e.1).2.2]
        linarith
      · dsimp only
        rw [hjget, hufg, hufh]
    · intro i hi1 hilt hopen
      rw [hlen] at hilt
      by_cases hij : i = j
      · subst hij
        refine ⟨(i, (st.frames.getD i0 default).g_value + a.cost +
          (st.frames.getD i default).h_value), ?_, rfl, ?_⟩
        · rw [hol]
          exact olInsert_self_mem _ _ _
        · dsimp only
          rw [hjget, hufg, hufh]
      · rw [hne i hij] at hopen
        obtain ⟨e, he, he1, he2⟩ := hbase.open_cover i hi1 hilt hopen
        refine ⟨e, ?_, he1, ?_⟩
        · rw [hol]
          exact olInsert_mem _ _ _ _ he
        · rw [hne i hij]
          exact he2

/-- Preservation through the successor-loop body when the successor state was
seen before and the new path is not cheaper: nothing changes. -/
theorem applyAction_preserve_stay (inp : SearchInput) (N : Nat)
    (i0 s0 : Nat) (st : EState) (a : GAction) (done : List GAction)
    (hbase : InvBase inp N st)
    (hopt : ∀ π, NDPath inp inp.init π s0 →
      (st.frames.getD i0 default).g_value ≤ pathCost π)
    (hedgeso : ∀ i, 1 ≤ i → i < st.frames.length →
      (st.frames.getD i default).closed = true →
      ∀ s, (st.frames.getD i default).state = some s → s ≠ s0 →
      inp.dead (inp.h s) = false → EdgesDone inp st s (inp.succs s))
    (hdone : EdgesDone inp st s0 done)
    (h0 : st.stateIndices a.target ≠ 0)
    (himp : ¬ ((st.frames.getD i0 default).g_value + a.cost <
      (st.frames.getD (st.stateIndices a.target) default).g_value)) :
    AppPreserved inp N i0 s0 st (applyAction inp i0 st a) done a := by
  rw [applyAction_stay inp i0 st a h0 himp]
  refine ⟨hbase, rfl, hedgeso, ?_⟩
  intro b hb
  rcases List.mem_append.mp hb with hbd | hba
  · exact hdone b hbd
  · rw [List.mem_singleton] at hba
    subst hba
    refine ⟨h0, ?_⟩
    intro π hπ
    have hnotlt := not_lt.mp himp
    have := hopt π hπ
    linarith

/-- Preservation through one full successor-loop body, all branches. -/
theorem applyAction_preserve (inp : SearchInput) (N : Nat)
    (hcost : CostOK inp) (hadm : Admissible inp)
    (hclosure : ∀ s, s < N → ∀ b ∈ inp.succs s, b.target < N)
    (i0 s0 : Nat) (st : EState) (a : GAction) (done : List GAction)
    (hbase : InvBase inp N st)
    (hpar1 : 1 ≤ i0) (hparlt : i0 < st.frames.length)
    (hpstate : (st.frames.getD i0 default).state = some s0)
    (hs0N : s0 < N)
    (hopt : ∀ π, NDPath inp inp.init π s0 →
      (st.frames.getD i0 default).g_value ≤ pathCost π)
    (hedgeso : ∀ i, 1 ≤ i → i < st.frames.length →
      (st.frames.getD i default).closed = true →
      ∀ s, (st.frames.getD i default).state = some s → s ≠ s0 →
      inp.dead (inp.h s) = false → EdgesDone inp st s (inp.succs s))
    (hdone : EdgesDone inp st s0 done)
    (ha : a ∈ inp.succs s0) :
    AppPreserved inp N i0 s0 st (applyAction inp i0 st a) done a := by
  by_cases h0 : st.stateIndices a.target = 0
  · exact applyAction_preserve_new inp N hcost hadm hclosure i0 s0 st a done hbase
      hpar1 hparlt hpstate hs0N hopt hedgeso hdone ha h0
  · by_cases himp : (st.frames.getD i0 default).g_value + a.cost <
        (st.frames.getD (st.stateIndices a.target) default).g_value
    · exact applyAction_preserve_improve inp N hcost i0 s0 st a done hbase
        hpar1 hparlt hpstate hopt hedgeso hdone ha (st.stateIndices a.target) rfl h0 himp
    · exact applyAction_preserve_stay inp N i0 s0 st a done hbase hopt hedgeso hdone h0 himp

/-- Preservation through the whole successor loop (fold over the applicable
actions). -/
theorem foldl_preserve (inp : SearchInput) (N : Nat)
    (hcost : CostOK inp) (hadm : Admissible inp)
    (hclosure : ∀ s, s < N → ∀ b ∈ inp.succs s, b.target < N)
    (i0 s0 : Nat) (acts : List GAction) :
    ∀ (st : EState) (done : List GAction),
    InvBase inp N st →
    i0 < st.frames.length →
    (st.frames.getD i0 default).state = some s0 →
    s0 < N →
    1 ≤ i0 →
    (∀ π, NDPath inp inp.init π s0 → (st.frames.getD i0 default).g_value ≤ pathCost π) →
    (∀ i, 1 ≤ i → i < st.frames.length →
      (st.frames.getD i default).closed = true →
      ∀ s, (st.frames.getD i default).state = some s → s ≠ s0 →
      inp.dead (inp.h s) = false → EdgesDone inp st s (inp.succs s)) →
    EdgesDone inp st s0 done →
    (∀ b ∈ acts, b ∈ inp.succs s0) →
    InvBase inp N (acts.foldl (applyAction inp i0) st) ∧
    (acts.foldl (applyAction inp i0) st).frames.getD i0 default =
      st.frames.getD i0 default ∧
    (∀ i, 1 ≤ i → i < (acts.foldl (applyAction inp i0) st).frames.length →
      ((acts.foldl (applyAction inp i0) st).frames.getD i default).closed = true →
      ∀ s, ((acts.foldl (applyAction inp i0) st).frames.getD i default).state = some s →
      s ≠ s0 → inp.dead (inp.h s) = false →
      EdgesDone inp (acts.foldl (applyAction inp i0) st) s (inp.succs s)) ∧
    EdgesDone inp (acts.foldl (applyAction inp i0) st) s0 (done ++ acts) := by
  induction acts with
  | nil =>
    intro st done hbase hparlt hpstate hs0N hpar1 hopt hedgeso hdone hsub
    simp only [List.foldl_nil, List.append_nil]
    exact ⟨hbase, trivial, hedgeso, hdone⟩
  | cons a acts ih =>
    intro st done hbase hparlt hpstate hs0N hpar1 hopt hedgeso hdone hsub
    have ha : a ∈ inp.succs s0 := hsub a (List.mem_cons_self _ _)
    have hP := applyAction_preserve inp N hcost hadm hclosure i0 s0 st a done hbase
      hpar1 hparlt hpstate hs0N hopt hedgeso hdone ha
    unfold AppPreserved at hP
    obtain ⟨hbase', hpar', hother', hdone'⟩ := hP
    simp only [List.foldl_cons]
    have hparlt' : i0 < (applyAction inp i0 st a).frames.length :=
      lt_of_lt_of_le hparlt (applyAction_length_le inp i0 st a)
    have hres := ih (applyAction inp i0 st a) (done ++ [a]) hbase' hparlt'
      (by rw [hpar']; exact hpstate) hs0N hpar1
      (by intro π hπ; rw [hpar']; exact hopt π hπ) hother' hdone'
      (fun b hb => hsub b (List.mem_cons_of_mem _ hb))
    obtain ⟨r1, r2, r3, r4⟩ := hres
    refine ⟨r1, by rw [r2, hpar'], r3, ?_⟩
    have hassoc : done ++ [a] ++ acts = done ++ (a :: acts) := by simp
    rw [hassoc] at r4
    exact r4

/-- Accepting an unclosed, non-goal pop and expanding it preserves the full
invariant and strictly decreases the termination measure. -/
theorem accept_expand_preserve (inp : SearchInput) (N : Nat)
    (hcost : CostOK inp) (hcons : Consistent inp) (hadm : Admissible inp)
    (hclosure : ∀ s, s < N → ∀ b ∈ inp.succs s, b.target < N)
    (st : EState) (hinv : AStarInv inp N st)
    (i0 : Nat) (q0 : ℚ) (rest : List (Nat × ℚ))
    (hol : st.ol = (i0, q0) :: rest)
    (hc : (st.frames.getD i0 default).closed = false)
    (s0 : Nat) (hs : (st.frames.getD i0 default).state = some s0)
    (hgoal : inp.goal s0 = false) :
    AStarInv inp N (expandFrame inp i0 (acceptFrame i0 { st with ol := rest })) ∧
    Phi inp N (expandFrame inp i0 (acceptFrame i0 { st with ol := rest })) <
      Phi inp N st := by
  have hhead : ((i0, q0) : Nat × ℚ) ∈ st.ol := by
    rw [hol]; exact List.mem_cons_self _ _
  obtain ⟨hi1, hilt⟩ := hinv.ol_idx _ hhead
  have hne10 : i0 ≠ 1 := by
    intro hcontra
    rw [hcontra, hinv.closed1] at hc
    cases hc
  have hs0N : s0 < N := by
    obtain ⟨s, hss, hsN⟩ := hinv.state_some i0 hi1 hilt
    rw [hs] at hss
    injection hss with hss
    rw [hss]
    exact hsN
  have hpop := pop_opt inp N st hinv hcons i0 q0 rest hol hc s0 hs
  have hfrA : (acceptFrame i0 { st with ol := rest }).frames =
      st.frames.set i0 { st.frames.getD i0 default with closed := true } :=
    acceptFrame_frames i0 { st with ol := rest }
  have holA : (acceptFrame i0 { st with ol := rest }).ol = rest :=
    (acceptFrame_basic i0 { st with ol := rest }).1
  have hsiA : (acceptFrame i0 { st with ol := rest }).stateIndices = st.stateIndices :=
    (acceptFrame_basic i0 { st with ol := rest }).2.2.2.2.1
  have hlenA : (acceptFrame i0 { st with ol := rest }).frames.length = st.frames.length := by
    rw [hfrA]; exact List.length_set _ _ _
  have hgetA : (acceptFrame i0 { st with ol := rest }).frames.getD i0 default =
      { st.frames.getD i0 default with closed := true } := by
    rw [hfrA]; exact getD_set_self _ _ _ hilt
  have hgetAne : ∀ m, m ≠ i0 →
      (acceptFrame i0 { st with ol := rest }).frames.getD m default =
        st.frames.getD m default := by
    intro m hm
    rw [hfrA]
    exact getD_set_ne _ _ _ _ (Ne.symm hm)
  have hAfields : ∀ m,
      ((acceptFrame i0 { st with ol := rest }).frames.getD m default).state =
        (st.frames.getD m default).state ∧
      ((acceptFrame i0 { st with ol := rest }).frames.getD m default).g_value =
        (st.frames.getD m default).g_value ∧
      ((acceptFrame i0 { st with ol := rest }).frames.getD m default).h_value =
        (st.frames.getD m default).h_value ∧
      ((acceptFrame i0 { st with ol := rest }).frames.getD m default).predAction =
        (st.frames.getD m default).predAction ∧
      ((acceptFrame i0 { st with ol := rest }).frames.getD m default).predIndex =
        (st.frames.getD m default).predIndex := by
    intro m
    by_cases hm : m = i0
    · subst hm
      rw [hgetA]
      exact ⟨rfl, rfl, rfl, rfl, rfl⟩
    · rw [hgetAne m hm]
      exact ⟨rfl, rfl, rfl, rfl, rfl⟩
  have hAclosed : ∀ m, m ≠ i0 →
      ((acceptFrame i0 { st with ol := rest }).frames.getD m default).closed =
        (st.frames.getD m default).closed := by
    intro m hm
    rw [hgetAne m hm]
  have hAclosedi0 :
      ((acceptFrame i0 { st with ol := rest }).frames.getD i0 default).closed = true := by
    rw [hgetA]
  have hpstateA : ((acceptFrame i0 { st with ol := rest }).frames.getD i0 default).state =
      some s0 := by
    rw [hgetA]; exact hs
  have hrest_sorted : rest.Pairwise (fun e e' => e.2 ≤ e'.2) := by
    have hso := hinv.ol_sorted
    rw [hol] at hso
    exact (List.pairwise_cons.mp hso).2
  have hbaseA : InvBase inp N (acceptFrame i0 { st with ol := rest }) := by
    refine ⟨?_, ?_, ?_, ?_, ?_, ?_, ?_, ?_, ?_, ?_, ?_, ?_, ?_, ?_, ?_, ?_, ?_, ?_,
      ?_, ?_, ?_⟩
    · rw [hlenA]; exact hinv.len2
    · rw [(hAfields 0).1]; exact hinv.state0
    · rw [(hAfields 1).1]; exact hinv.state1
    · rw [(hAfields 1).2.1]; exact hinv.g1
    · rw [hAclosed 1 (Ne.symm hne10)]; exact hinv.closed1
    · rw [hsiA]; exact hinv.idx_init
    · intro s; rw [hsiA, hlenA]; exact hinv.idx_lt s
    · intro s h0
      rw [hsiA] at h0 ⊢
      rw [(hAfields _).1]
      exact hinv.idx_state s h0
    · intro i h1 hlt s hss
      rw [hlenA] at hlt
      rw [(hAfields i).1] at hss
      rw [hsiA]
      exact hinv.state_idx i h1 hlt s hss
    · intro i h1 hlt
      rw [hlenA] at hlt
      obtain ⟨s, hss, hsN'⟩ := hinv.state_some i h1 hlt
      exact ⟨s, by rw [(hAfields i).1]; exact hss, hsN'⟩
    · intro i h1 hlt s hss
      rw [hlenA] at hlt
      rw [(hAfields i).1] at hss
      rw [(hAfields i).2.2.1]
      exact hinv.hval i h1 hlt s hss
    · intro i hlt
      rw [hlenA] at hlt
      rw [(hAfields i).2.1]
      exact hinv.g_nonneg i hlt
    · rw [holA]; exact hrest_sorted
    · intro e he
      rw [holA] at he
      have hem : e ∈ st.ol := by rw [hol]; exact List.mem_cons_of_mem _ he
      obtain ⟨a1, a2⟩ := hinv.ol_idx e hem
      exact ⟨a1, by rw [hlenA]; exact a2⟩
    · intro e he
      rw [holA] at he
      have hem : e ∈ st.ol := by rw [hol]; exact List.mem_cons_of_mem _ he
      rw [(hAfields e.1).2.1, (hAfields e.1).2.2.1]
      exact hinv.ol_lb e hem
    · intro i h1 hlt hopen
      rw [hlenA] at hlt
      by_cases hii : i = i0
      · subst hii
        rw [hAclosedi0] at hopen
        cases hopen
      · rw [hAclosed i hii] at hopen
        obtain ⟨e, he, he1, he2⟩ := hinv.open_cover i h1 hlt hopen
        have herest : e ∈ rest := by
          rw [hol] at he
          rcases List.mem_cons.mp he with rfl | hr
          · have hii' : i0 = i := he1
            exact absurd hii'.symm hii
          · exact hr
        refine ⟨e, by rw [holA]; exact herest, he1, ?_⟩
        rw [(hAfields i).2.1, (hAfields i).2.2.1]
        exact he2
    · intro i h1 hlt hopen s hss
      rw [hlenA] at hlt
      by_cases hii : i = i0
      · subst hii
        rw [hAclosedi0] at hopen
        cases hopen
      · rw [hAclosed i hii] at hopen
        rw [(hAfields i).1] at hss
        exact hinv.unclosed_nondead i h1 hlt hopen s hss
    · intro i h1 hlt hclosed s hss
      rw [hlenA] at hlt
      rw [(hAfields i).1] at hss
      by_cases hii : i = i0
      · subst hii
        rw [hs] at hss
        injection hss with hss
        rw [← hss]
        exact hgoal
      · rw [hAclosed i hii] at hclosed
        exact hinv.closed_not_goal i h1 hlt hclosed s hss
    · intro i h1 hlt hclosed s hss π hπ
      rw [hlenA] at hlt
      rw [(hAfields i).1] at hss
      rw [(hAfields i).2.1]
      by_cases hii : i = i0
      · subst hii
        rw [hs] at hss
        injection hss with hss
        rw [← hss] at hπ
        exact hpop π hπ
      · rw [hAclosed i hii] at hclosed
        exact hinv.closed_opt i h1 hlt hclosed s hss π hπ
    · intro i h1 hlt b hb
      rw [hlenA] at hlt
      rw [(hAfields i).2.2.2.1] at hb
      obtain ⟨p1, p2, p3, p4⟩ := hinv.gchain i h1 hlt b hb
      rw [(hAfields i).2.2.2.2, (hAfields i).2.1, hlenA,
        (hAfields ((st.frames.getD i default).predIndex.toNat)).2.1]
      exact ⟨p1, p2, p3, p4⟩
    · intro i h1 hlt
      rw [hlenA] at hlt
      rw [hfrA]
      refine ChainBundle_congr inp st.frames _ i (by rw [List.length_set]) ?_
        (hinv.chains i h1 hlt)
      intro m hm
      by_cases hmi : m = i0
      · subst hmi
        rw [getD_set_self _ _ _ hilt]
        exact ⟨rfl, rfl, rfl, rfl⟩
      · rw [getD_set_ne _ _ _ _ (Ne.symm hmi)]
        exact ⟨rfl, rfl, rfl, rfl⟩
  have hoptA : ∀ π, NDPath inp inp.init π s0 →
      ((acceptFrame i0 { st with ol := rest }).frames.getD i0 default).g_value ≤
        pathCost π := by
    intro π hπ
    rw [hgetA]
    exact hpop π hπ
  have hedgesoA : ∀ i, 1 ≤ i → i < (acceptFrame i0 { st with ol := rest }).frames.length →
      ((acceptFrame i0 { st with ol := rest }).frames.getD i default).closed = true →
      ∀ s, ((acceptFrame i0 { st with ol := rest }).frames.getD i default).state = some s →
      s ≠ s0 → inp.dead (inp.h s) = false →
      EdgesDone inp (acceptFrame i0 { st with ol := rest }) s (inp.succs s) := by
    intro i h1 hlt hclosed s hss hsne hsnd
    rw [hlenA] at hlt
    rw [(hAfields i).1] at hss
    have hii : i ≠ i0 := by
      intro hcontra
      subst hcontra
      rw [hs] at hss
      injection hss with hss
      exact hsne hss.symm
    rw [hAclosed i hii] at hclosed
    have hED := hinv.closed_edges i h1 hlt hclosed s hss hsnd
    intro b hb
    obtain ⟨hb0, hbb⟩ := hED b hb
    refine ⟨by rw [hsiA]; exact hb0, ?_⟩
    intro π hπ
    rw [hsiA, (hAfields (st.stateIndices b.target)).2.1]
    exact hbb π hπ
  have hbaseA4 : InvBase inp N
      { acceptFrame i0 { st with ol := rest } with
        expanded := (acceptFrame i0 { st with ol := rest }).expanded + 1 } :=
    ⟨hbaseA.len2, hbaseA.state0, hbaseA.state1, hbaseA.g1, hbaseA.closed1,
      hbaseA.idx_init, hbaseA.idx_lt, hbaseA.idx_state, hbaseA.state_idx,
      hbaseA.state_some, hbaseA.hval, hbaseA.g_nonneg, hbaseA.ol_sorted,
      hbaseA.ol_idx, hbaseA.ol_lb, hbaseA.open_cover, hbaseA.unclosed_nondead,
      hbaseA.closed_not_goal, hbaseA.closed_opt, hbaseA.gchain, hbaseA.chains⟩
  have hfold := foldl_preserve inp N hcost hadm hclosure i0 s0 (inp.succs s0)
    { acceptFrame i0 { st with ol := rest } with
      expanded := (acceptFrame i0 { st with ol := rest }).expanded + 1 } []
    hbaseA4 (by rw [hlenA]; exact hilt) hpstateA hs0N hi1 hoptA hedgesoA
    (fun b hb => absurd hb (List.not_mem_nil b)) (fun b hb => hb)
  obtain ⟨r1, r2, r3, r4⟩ := hfold
  rw [List.nil_append] at r4
  have hexp : expandFrame inp i0 (acceptFrame i0 { st with ol := rest }) =
      (inp.succs s0).foldl (applyAction inp i0)
        { acceptFrame i0 { st with ol := rest } with
          expanded := (acceptFrame i0 { st with ol := rest }).expanded + 1 } := by
    unfold expandFrame
    dsimp only
    rw [hpstateA]
    rfl
  constructor
  · rw [hexp]
    refine ⟨r1, ?_⟩
    intro i h1 hlt hclosed s hss hsnd
    by_cases hss0 : s = s0
    · subst hss0
      exact r4
    · exact r3 i h1 hlt hclosed s hss hss0 hsnd
  · rw [hexp]
    have hP1 := Phi_foldl_le inp N i0 (inp.succs s0)
      { acceptFrame i0 { st with ol := rest } with
        expanded := (acceptFrame i0 { st with ol := rest }).expanded + 1 }
    have hP2 : Phi inp N
        { acceptFrame i0 { st with ol := rest } with
          expanded := (acceptFrame i0 { st with ol := rest }).expanded + 1 } =
        Phi inp N (acceptFrame i0 { st with ol := rest }) := rfl
    have huniq : ∀ i, i < ({ st with ol := rest } : EState).frames.length →
        (({ st with ol := rest } : EState).frames.getD i default).state = some s0 →
        (({ st with ol := rest } : EState).frames.getD i default).closed = true → False := by
      intro i hi his hicl
      rcases Nat.eq_zero_or_pos i with hz | hpos
      · subst hz
        have his' : (st.frames.getD 0 default).state = some s0 := his
        rw [hinv.state0] at his'
        cases his'
      · have his' : (st.frames.getD i default).state = some s0 := his
        have hicl' : (st.frames.getD i default).closed = true := hicl
        have hi' : i < st.frames.length := hi
        have hu1 := hinv.state_idx i hpos hi' s0 his'
        have hu2 := hinv.state_idx i0 hi1 hilt s0 hs
        have hii0 : i = i0 := by omega
        subst hii0
        rw [hicl'] at hc
        cases hc
    have hP3 := Phi_accept_drop inp N { st with ol := rest } i0 s0 hilt hs hs0N hc huniq
    have hP4 : Phi inp N ({ st with ol := rest } : EState) + 1 = Phi inp N st := by
      unfold Phi closedState
      dsimp only
      rw [hol]
      simp [List.length_cons]
      omega
    have hdeg : degPlus inp s0 = 1 + (inp.succs s0).length := rfl
    omega

/-- A duplicate-free list of handles drawn from `[1, n)` is shorter than `n`. -/
theorem nodup_bounded_length (L : List Nat) (n : Nat) (hn : 1 ≤ n) (hnd : L.Nodup)
    (hb : ∀ j ∈ L, 1 ≤ j ∧ j < n) : L.length < n := by
  have hsub : L.toFinset ⊆ Finset.Ico 1 n := by
    intro x hx
    rw [List.mem_toFinset] at hx
    obtain ⟨h1, h2⟩ := hb x hx
    exact Finset.mem_Ico.mpr ⟨h1, h2⟩
  have hcard := Finset.card_le_card hsub
  rw [List.toFinset_card_of_nodup hnd, Nat.card_Ico] at hcard
  omega

/-- Discarding a stale pop preserves the invariant and decreases the measure. -/
theorem stale_preserve (inp : SearchInput) (N : Nat) (st : EState)
    (hinv : AStarInv inp N st) (i : Nat) (q : ℚ) (rest : List (Nat × ℚ))
    (hol : st.ol = (i, q) :: rest)
    (hc : (st.frames.getD i default).closed = true) :
    AStarInv inp N { st with ol := rest } ∧
    Phi inp N ({ st with ol := rest } : EState) + 1 = Phi inp N st := by
  constructor
  · refine ⟨⟨hinv.len2, hinv.state0, hinv.state1, hinv.g1, hinv.closed1, hinv.idx_init,
      hinv.idx_lt, hinv.idx_state, hinv.state_idx, hinv.state_some, hinv.hval,
      hinv.g_nonneg, ?_, ?_, ?_, ?_, hinv.unclosed_nondead, hinv.closed_not_goal,
      hinv.closed_opt, hinv.gchain, hinv.chains⟩, hinv.closed_edges⟩
    · show rest.Pairwise _
      have hso := hinv.ol_sorted
      rw [hol] at hso
      exact (List.pairwise_cons.mp hso).2
    · intro e he
      have he' : e ∈ rest := he
      have hem : e ∈ st.ol := by rw [hol]; exact List.mem_cons_of_mem _ he'
      exact hinv.ol_idx e hem
    · intro e he
      have he' : e ∈ rest := he
      have hem : e ∈ st.ol := by rw [hol]; exact List.mem_cons_of_mem _ he'
      exact hinv.ol_lb e hem
    · intro j h1 hlt hopen
      obtain ⟨e, he, he1, he2⟩ := hinv.open_cover j h1 hlt hopen
      refine ⟨e, ?_, he1, he2⟩
      rw [hol] at he
      rcases List.mem_cons.mp he with rfl | hr
      · have hji : i = j := he1
        have hopen' : (st.frames.getD j default).closed = false := hopen
        rw [hji] at hc
        rw [hc] at hopen'
        cases hopen'
      · exact hr
  · unfold Phi closedState
    dsimp only
    rw [hol]
    simp [List.length_cons]
    omega

/-- The master loop lemma: started anywhere the invariant holds with enough
fuel, the loop returns `SOLVED` with a valid minimum-cost plan or
`UNSOLVABLE` with no goal reachable, never running out of fuel. -/
theorem loop_master (inp : SearchInput) (N : Nat)
    (hcost : CostOK inp) (hcons : Consistent inp) (hadm : Admissible inp)
    (hnn : HNonneg inp)
    (hclosure : ∀ s, s < N → ∀ b ∈ inp.succs s, b.target < N)
    (hab : ∀ k, inp.abortSched k = false) :
    ∀ fuel (st : EState) (out : List GAction), AStarInv inp N st →
    Phi inp N st < fuel →
    ∃ st' r out', loop inp fuel st out = (some r, st', out') ∧
      ((r = .SOLVED ∧ ∃ t, IsPath inp inp.init out' t ∧ inp.goal t = true ∧
        ∀ σ t', IsPath inp inp.init σ t' → inp.goal t' = true →
          pathCost out' ≤ pathCost σ) ∨
       (r = .UNSOLVABLE ∧ out' = out ∧ ¬ GoalReachable inp)) := by
  intro fuel
  induction fuel with
  | zero => intro st out hinv hPhi; omega
  | succ fuel ih =>
    intro st out hinv hPhi
    rcases hol : st.ol with _ | ⟨⟨i, q⟩, rest⟩
    · have hit := iterate_empty inp st out hol
      refine ⟨st, .UNSOLVABLE, out, ?_,
        Or.inr ⟨rfl, rfl, empty_unreachable inp N st hinv hcons hadm hol⟩⟩
      rw [loop, hit]
    · cases hc : (st.frames.getD i default).closed with
      | true =>
        have hit := iterate_stale inp st out i q rest hol hc
        obtain ⟨hinv', hPhi'⟩ := stale_preserve inp N st hinv i q rest hol hc
        obtain ⟨st', r, out', hl, hres⟩ := ih { st with ol := rest } out hinv' (by omega)
        refine ⟨st', r, out', ?_, hres⟩
        rw [loop, hit]
        exact hl
      | false =>
        obtain ⟨hi1, hi2⟩ := hinv.ol_idx (i, q) (by rw [hol]; exact List.mem_cons_self _ _)
        obtain ⟨s0, hs, hs0N⟩ := hinv.state_some i hi1 hi2
        have habs : inp.abortSched st.acceptCount = false := hab _
        cases hgoal : inp.goal s0 with
        | false =>
          have hgmap : (((st.frames.getD i default).state).map inp.goal).getD false
              = false := by
            rw [hs]; simp [hgoal]
          have hit := iterate_accept_expand inp st out i q rest hol hc habs hgmap
          obtain ⟨hinv', hPhi'⟩ := accept_expand_preserve inp N hcost hcons hadm hclosure
            st hinv i q rest hol hc s0 hs hgoal
          obtain ⟨st', r, out', hl, hres⟩ := ih _ out hinv' (by omega)
          refine ⟨st', r, out', ?_, hres⟩
          rw [loop, hit]
          exact hl
        | true =>
          have hgmap : (((st.frames.getD i default).state).map inp.goal).getD false
              = true := by
            rw [hs]; simp [hgoal]
          have hit := iterate_accept_goal inp st out i q rest hol hc habs hgmap
          have hfrA := acceptFrame_frames i { st with ol := rest }
          have hgetA : (acceptFrame i { st with ol := rest }).frames.getD i default =
              { st.frames.getD i default with closed := true } := by
            rw [hfrA]
            exact getD_set_self _ _ _ hi2
          have hlenA : (acceptFrame i { st with ol := rest }).frames.length =
              st.frames.length := by
            rw [hfrA]
            exact List.length_set _ _ _
          have hCB : ChainBundle inp (acceptFrame i { st with ol := rest }).frames i := by
            refine ChainBundle_congr inp st.frames _ i ?_ ?_ (hinv.chains i hi1 hi2)
            · rw [hlenA]
            · intro m hm
              by_cases hmi : m = i
              · subst hmi
                rw [hfrA, getD_set_self _ _ _ (show m < _ from hm)]
                exact ⟨rfl, rfl, rfl, rfl⟩
              · rw [hfrA, getD_set_ne _ _ _ _ (Ne.symm hmi)]
                exact ⟨rfl, rfl, rfl, rfl⟩
          obtain ⟨L, π_c, hchain, hnd, hbounds, hpath, hcostb⟩ := hCB
          have hπlt : π_c.length < (acceptFrame i { st with ol := rest }).frames.length := by
            have hL := nodup_bounded_length L
              (acceptFrame i { st with ol := rest }).frames.length
              (by rw [hlenA]; have := hinv.len2; omega) hnd hbounds
            have hLlen := hchain.len_eq
            omega
          have hwalk := walk_eq_chain hchain
            (acceptFrame i { st with ol := rest }).frames.length hπlt
          have hpg := pop_opt_goal inp N st hinv hcons hadm hnn i q rest hol hc s0 hs
          have hgA : ((acceptFrame i { st with ol := rest }).frames.getD i default).g_value =
              (st.frames.getD i default).g_value := by
            rw [hgetA]
          refine ⟨acceptFrame i { st with ol := rest }, .SOLVED, π_c.reverse, ?_,
            Or.inl ⟨rfl, s0, ?_, hgoal, ?_⟩⟩
          · rw [loop, hit, ← hgetA, hwalk]
          · apply hpath
            rw [hgetA]
            exact hs
          · intro σ t' hσ hg'
            have h1 : pathCost π_c.reverse = pathCost π_c := pathCost_reverse π_c
            have h2 : pathCost π_c ≤ (st.frames.getD i default).g_value := by
              rw [← hgA]
              exact hcostb
            have h3 := hpg t' σ hσ hg'
            linarith

/-- After initialization, the first pop takes handle 1 (the initial frame);
if the initial state is not a goal, the first iteration closes and expands
it. -/
theorem init_iterate (inp : SearchInput) (out : List GAction)
    (hab0 : inp.abortSched 0 = false) (hgoal0 : inp.goal inp.init = false) :
    iterate inp (initE inp) out =
      .cont (expandFrame inp 1 (acceptFrame 1 { initE inp with ol := [] })) := by
  have hol : (initE inp).ol = (1, 0) :: [] := rfl
  have hc : ((initE inp).frames.getD 1 default).closed = false := rfl
  have habs : inp.abortSched (initE inp).acceptCount = false := hab0
  have hgmap : (((initE inp).frames.getD 1 default).state.map inp.goal).getD false
      = false := by
    have hst : ((initE inp).frames.getD 1 default).state = some inp.init := rfl
    rw [hst]
    simp [hgoal0]
  exact iterate_accept_expand inp (initE inp) out 1 0 [] hol hc habs hgmap

/-- If the initial state is a goal, the first iteration returns `SOLVED` with
the empty plan. -/
theorem init_goal_iterate (inp : SearchInput) (out : List GAction)
    (hab0 : inp.abortSched 0 = false) (hgoal0 : inp.goal inp.init = true) :
    iterate inp (initE inp) out =
      .done .SOLVED (acceptFrame 1 { initE inp with ol := [] }) [] := by
  have hol : (initE inp).ol = (1, 0) :: [] := rfl
  have hc : ((initE inp).frames.getD 1 default).closed = false := rfl
  have habs : inp.abortSched (initE inp).acceptCount = false := hab0
  have hgmap : (((initE inp).frames.getD 1 default).state.map inp.goal).getD false
      = true := by
    have hst : ((initE inp).frames.getD 1 default).state = some inp.init := rfl
    rw [hst]
    simp [hgoal0]
  have h := iterate_accept_goal inp (initE inp) out 1 0 [] hol hc habs hgmap
  rw [h]
  have hfrA : (acceptFrame 1 { initE inp with ol := ([] : List (Nat × ℚ)) }).frames =
      [dummyFrame, ⟨some inp.init, none, -1, 0, 0, inp.h inp.init, true⟩] := by
    rw [acceptFrame_frames]
    rfl
  rw [hfrA]
  rfl

/-- The full invariant holds after the first (initial-state) expansion. -/
theorem init_invariant (inp : SearchInput) (N : Nat)
    (hcost : CostOK inp) (hadm : Admissible inp)
    (hclosure : ∀ s, s < N → ∀ b ∈ inp.succs s, b.target < N)
    (hinitN : inp.init < N)
    (hgoal0 : inp.goal inp.init = false) :
    AStarInv inp N (expandFrame inp 1 (acceptFrame 1 { initE inp with ol := [] })) := by
  have hfrA : (acceptFrame 1 { initE inp with ol := ([] : List (Nat × ℚ)) }).frames =
      [dummyFrame, ⟨some inp.init, none, -1, 0, 0, inp.h inp.init, true⟩] := by
    rw [acceptFrame_frames]
    rfl
  have holA : (acceptFrame 1 { initE inp with ol := ([] : List (Nat × ℚ)) }).ol = [] :=
    (acceptFrame_basic 1 _).1
  have hsiA : (acceptFrame 1 { initE inp with ol := ([] : List (Nat × ℚ)) }).stateIndices =
      updMap (fun _ => 0) inp.init 1 :=
    (acceptFrame_basic 1 _).2.2.2.2.1
  have hget0 : (acceptFrame 1 { initE inp with ol := ([] : List (Nat × ℚ)) }).frames.getD 0
      default = dummyFrame := by
    rw [hfrA]
    rfl
  have hget1 : (acceptFrame 1 { initE inp with ol := ([] : List (Nat × ℚ)) }).frames.getD 1
      default = ⟨some inp.init, none, -1, 0, 0, inp.h inp.init, true⟩ := by
    rw [hfrA]
    rfl
  have hlenA : (acceptFrame 1 { initE inp with ol := ([] : List (Nat × ℚ)) }).frames.length
      = 2 := by
    rw [hfrA]
    rfl
  have hbaseA : InvBase inp N (acceptFrame 1 { initE inp with ol := [] }) := by
    refine ⟨?_, ?_, ?_, ?_, ?_, ?_, ?_, ?_, ?_, ?_, ?_, ?_, ?_, ?_, ?_, ?_, ?_, ?_,
      ?_, ?_, ?_⟩
    · rw [hlenA]
    · rw [hget0]
      rfl
    · rw [hget1]
    · rw [hget1]
    · rw [hget1]
    · rw [hsiA]
      unfold updMap
      simp
    · intro s
      rw [hsiA, hlenA]
      unfold updMap
      by_cases hs : s = inp.init
      · rw [if_pos hs]; omega
      · rw [if_neg hs]
        show (0:Nat) < 2
        omega
    · intro s h0
      rw [hsiA] at h0 ⊢
      unfold updMap at h0 ⊢
      by_cases hs : s = inp.init
      · rw [if_pos hs, hget1, hs]
      · rw [if_neg hs] at h0
        exact absurd rfl h0
    · intro i h1 hlt s hss
      rw [hlenA] at hlt
      have hi1 : i = 1 := by omega
      subst hi1
      rw [hget1] at hss
      have hss' : some inp.init = some s := hss
      injection hss' with hss'
      rw [hsiA]
      unfold updMap
      rw [if_pos hss'.symm]
    · intro i h1 hlt
      rw [hlenA] at hlt
      have hi1 : i = 1 := by omega
      subst hi1
      exact ⟨inp.init, by rw [hget1], hinitN⟩
    · intro i h1 hlt s hss
      rw [hlenA] at hlt
      have hi1 : i = 1 := by omega
      subst hi1
      rw [hget1] at hss ⊢
      have hss' : some inp.init = some s := hss
      injection hss' with hss'
      rw [← hss']
    · intro i hlt
      rw [hlenA] at hlt
      have hi01 : i = 0 ∨ i = 1 := by omega
      rcases hi01 with rfl | rfl
      · rw [hget0]
        exact le_refl _
      · rw [hget1]
    · rw [holA]
      exact List.Pairwise.nil
    · intro e he
      rw [holA] at he
      cases he
    · intro e he
      rw [holA] at he
      cases he
    · intro i h1 hlt hopen
      rw [hlenA] at hlt
      have hi1 : i = 1 := by omega
      subst hi1
      rw [hget1] at hopen
      have hfalse : true = false := hopen
      cases hfalse
    · intro i h1 hlt hopen s hss
      rw [hlenA] at hlt
      have hi1 : i = 1 := by omega
      subst hi1
      rw [hget1] at hopen
      have hfalse : true = false := hopen
      cases hfalse
    · intro i h1 hlt hclosed s hss
      rw [hlenA] at hlt
      have hi1 : i = 1 := by omega
      subst hi1
      rw [hget1] at hss
      have hss' : some inp.init = some s := hss
      injection hss' with hss'
      rw [← hss']
      exact hgoal0
    · intro i h1 hlt hclosed s hss π hπ
      rw [hlenA] at hlt
      have hi1 : i = 1 := by omega
      subst hi1
      rw [hget1]
      show (0:ℚ) ≤ pathCost π
      exact IsPath.cost_nonneg hcost hπ.isPath
    · intro i h1 hlt b hb
      rw [hlenA] at hlt
      have hi1 : i = 1 := by omega
      subst hi1
      rw [hget1] at hb
      have hb' : (none : Option GAction) = some b := hb
      cases hb'
    · intro i h1 hlt
      rw [hlenA] at hlt
      have hi1 : i = 1 := by omega
      subst hi1
      refine ⟨[1], [], ?_, ?_, ?_, ?_, ?_⟩
      · refine ChainL.base 1 ?_
        rw [hget1]
      · simp
      · intro j hj
        rw [List.mem_singleton] at hj
        subst hj
        rw [hlenA]
        omega
      · intro s hss
        rw [hget1] at hss
        have hss' : some inp.init = some s := hss
        injection hss' with hss'
        rw [← hss']
        exact IsPath.nil _
      · rw [hget1]
        show pathCost [] ≤ (0:ℚ)
        rw [pathCost_nil]
  have hpstateA : ((acceptFrame 1 { initE inp with ol := ([] : List (Nat × ℚ)) }).frames.getD
      1 default).state = some inp.init := by
    rw [hget1]
  have hoptA : ∀ π, NDPath inp inp.init π inp.init →
      ((acceptFrame 1 { initE inp with ol := ([] : List (Nat × ℚ)) }).frames.getD
        1 default).g_value ≤ pathCost π := by
    intro π hπ
    rw [hget1]
    show (0:ℚ) ≤ pathCost π
    exact IsPath.cost_nonneg hcost hπ.isPath
  have hedgesoA : ∀ i, 1 ≤ i →
      i < (acceptFrame 1 { initE inp with ol := ([] : List (Nat × ℚ)) }).frames.length →
      ((acceptFrame 1 { initE inp with ol := [] }).frames.getD i default).closed = true →
      ∀ s, ((acceptFrame 1 { initE inp with ol := [] }).frames.getD i default).state
        = some s → s ≠ inp.init → inp.dead (inp.h s) = false →
      EdgesDone inp (acceptFrame 1 { initE inp with ol := [] }) s (inp.succs s) := by
    intro i h1 hlt hclosed s hss hsne hsnd
    rw [hlenA] at hlt
    have hi1 : i = 1 := by omega
    subst hi1
    rw [hget1] at hss
    have hss' : some inp.init = some s := hss
    injection hss' with hss'
    exact absurd hss'.symm hsne
  have hbaseA4 : InvBase inp N
      { acceptFrame 1 { initE inp with ol := [] } with
        expanded := (acceptFrame 1 { initE inp with ol := [] }).expanded + 1 } :=
    ⟨hbaseA.len2, hbaseA.state0, hbaseA.state1, hbaseA.g1, hbaseA.closed1,
      hbaseA.idx_init, hbaseA.idx_lt, hbaseA.idx_state, hbaseA.state_idx,
      hbaseA.state_some, hbaseA.hval, hbaseA.g_nonneg, hbaseA.ol_sorted,
      hbaseA.ol_idx, hbaseA.ol_lb, hbaseA.open_cover, hbaseA.unclosed_nondead,
      hbaseA.closed_not_goal, hbaseA.closed_opt, hbaseA.gchain, hbaseA.chains⟩
  have hfold := foldl_preserve inp N hcost hadm hclosure 1 inp.init (inp.succs inp.init)
    { acceptFrame 1 { initE inp with ol := [] } with
      expanded := (acceptFrame 1 { initE inp with ol := [] }).expanded + 1 } []
    hbaseA4 (by rw [hlenA]; omega) hpstateA hinitN (le_refl 1) hoptA hedgesoA
    (fun b hb => absurd hb (List.not_mem_nil b)) (fun b hb => hb)
  obtain ⟨r1, r2, r3, r4⟩ := hfold
  rw [List.nil_append] at r4
  have hexp : expandFrame inp 1 (acceptFrame 1 { initE inp with ol := [] }) =
      (inp.succs inp.init).foldl (applyAction inp 1)
        { acceptFrame 1 { initE inp with ol := [] } with
          expanded := (acceptFrame 1 { initE inp with ol := [] }).expanded + 1 } := by
    unfold expandFrame
    dsimp only
    rw [hpstateA]
    rfl
  rw [hexp]
  refine ⟨r1, ?_⟩
  intro i h1 hlt hclosed s hss hsnd
  by_cases hss0 : s = inp.init
  · subst hss0
    exact r4
  · exact r3 i h1 hlt hclosed s hss hss0 hsnd

/-- C1: On every finite state-space graph (states bounded by `N` and closed
under the successor relation) with nonnegative action costs and an
admissible, consistent, nonnegative heuristic, and with abort never
requested, `plan` run on an initially empty open list terminates within some
fuel bound and returns `SOLVED` with `out_plan` a valid action sequence from
the initial state to a goal state of minimum total cost among all
goal-reaching action sequences whenever a goal state is reachable, and
returns `UNSOLVABLE` (leaving `out_plan` untouched) otherwise. -/
theorem C1_astar_optimal (inp : SearchInput) (N : Nat)
    (hinitN : inp.init < N)
    (hclosure : ∀ s, s < N → ∀ b ∈ inp.succs s, b.target < N)
    (hcost : CostOK inp) (hnn : HNonneg inp)
    (hadm : Admissible inp) (hcons : Consistent inp)
    (hab : ∀ k, inp.abortSched k = false) :
    ∃ fuel, ∀ out : List GAction, ∃ st' out',
      (GoalReachable inp →
        plan inp [] out fuel = .ok (some .SOLVED, st', out') ∧
        ∃ t, IsPath inp inp.init out' t ∧ inp.goal t = true ∧
          ∀ σ t', IsPath inp inp.init σ t' → inp.goal t' = true →
            pathCost out' ≤ pathCost σ) ∧
      (¬ GoalReachable inp →
        plan inp [] out fuel = .ok (some .UNSOLVABLE, st', out') ∧ out' = out) := by
  cases hgoal0 : inp.goal inp.init with
  | true =>
    refine ⟨0 + 1, ?_⟩
    intro out
    have hit := init_goal_iterate inp out (hab 0) hgoal0
    have hl : loop inp (0 + 1) (initE inp) out =
        (some .SOLVED, acceptFrame 1 { initE inp with ol := [] }, []) := by
      rw [loop, hit]
    refine ⟨acceptFrame 1 { initE inp with ol := [] }, [], ?_, ?_⟩
    · intro _
      refine ⟨?_, inp.init, IsPath.nil _, hgoal0, ?_⟩
      · unfold plan
        rw [if_neg (by simp), hl]
      · intro σ t' hσ hg'
        rw [pathCost_nil]
        exact IsPath.cost_nonneg hcost hσ
    · intro hnreach
      exact absurd ⟨inp.init, [], IsPath.nil _, hgoal0⟩ hnreach
  | false =>
    have hinvE := init_invariant inp N hcost hadm hclosure hinitN hgoal0
    refine ⟨Phi inp N (expandFrame inp 1 (acceptFrame 1 { initE inp with ol := [] }))
      + 1 + 1, ?_⟩
    intro out
    have hit := init_iterate inp out (hab 0) hgoal0
    have hl1 : loop inp
        (Phi inp N (expandFrame inp 1 (acceptFrame 1 { initE inp with ol := [] })) + 1 + 1)
        (initE inp) out =
        loop inp
        (Phi inp N (expandFrame inp 1 (acceptFrame 1 { initE inp with ol := [] })) + 1)
        (expandFrame inp 1 (acceptFrame 1 { initE inp with ol := [] })) out := by
      rw [loop, hit]
    obtain ⟨st', r, out', hl, hres⟩ := loop_master inp N hcost hcons hadm hnn hclosure hab
      (Phi inp N (expandFrame inp 1 (acceptFrame 1 { initE inp with ol := [] })) + 1)
      (expandFrame inp 1 (acceptFrame 1 { initE inp with ol := [] })) out hinvE
      (by omega)
    refine ⟨st', out', ?_, ?_⟩
    · intro hreach
      rcases hres with ⟨hr, t, hpath, hgt, hmin⟩ | ⟨hr, hout, hnreach⟩
      · subst hr
        refine ⟨?_, t, hpath, hgt, hmin⟩
        unfold plan
        rw [if_neg (by simp), hl1, hl]
      · exact absurd hreach hnreach
    · intro hnreach
      rcases hres with ⟨hr, t, hpath, hgt, hmin⟩ | ⟨hr, hout, _⟩
      · exact absurd ⟨t, out', hpath, hgt⟩ hnreach
      · subst hr
        refine ⟨?_, hout⟩
        unfold plan
        rw [if_neg (by simp), hl1, hl]

/-- A minimal closed instance: one state, no actions, no goal, no dead ends,
no abort. -/
def trivInput : SearchInput :=
  ⟨0, fun _ => false, fun _ => [], fun _ => 0, fun _ => false, fun _ => false⟩

theorem C1_astar_optimal_witness :
    ∃ fuel, ∀ out : List GAction, ∃ st' out',
      (GoalReachable trivInput →
        plan trivInput [] out fuel = .ok (some .SOLVED, st', out') ∧
        ∃ t, IsPath trivInput trivInput.init out' t ∧ trivInput.goal t = true ∧
          ∀ σ t', IsPath trivInput trivInput.init σ t' → trivInput.goal t' = true →
            pathCost out' ≤ pathCost σ) ∧
      (¬ GoalReachable trivInput →
        plan trivInput [] out fuel = .ok (some .UNSOLVABLE, st', out') ∧ out' = out) :=
  C1_astar_optimal trivInput 1 (by decide)
    (fun s hs b hb => absurd hb (List.not_mem_nil b))
    (fun s a ha => absurd ha (List.not_mem_nil a))
    (fun s _ => le_refl 0)
    (fun s π t hp hg => Bool.noConfusion hg)
    (fun s a ha hd1 hd2 => absurd ha (List.not_mem_nil a))
    (fun k => rfl)
